import Mathlib

/-!
# Workflow step scheduler of `pkg/core/workflow_execute.go`

A shallow embedding of `executeWorkflow` and `runWorkflowStep`.

* The scan context, the shared `atomic.Bool`, the progress sink, the host
  error cache, the logger and the goroutines handed to the sized wait group
  are the fields of one explicit `World` that every operation passes along.
* A Go runtime panic (index out of range) is the error `Fail.indexOutOfRange`
  of `Except`.
* A Go map is the list of its entries in the order in which one `range` loop
  visits them.
* The external executers are functions of the context arguments they are
  called with; a streaming executer yields the events it hands to the
  callback, in order, and its error.
* `runWorkflowStep` is given twice: as one function from the world at entry
  to the world at return, with the goroutines it starts collected in
  `pending` (what a call that returns has done); and as the sequence of the
  operations of a thread (`enter`, `frameOp`), in which `swg.Add()` blocks
  while the wait group is full. The run of `executeWorkflow` with its wait
  group is built on the second (`runOps`, `executeWorkflow`).
-/

namespace Nuclei

/-! ## Data model -/

/-- Go `error` values, identified by their message. -/
abbrev Err := String

/-- Ways in which a call does not return normally. -/
inductive Fail where
  /-- Go runtime panic: index out of range. -/
  | indexOutOfRange
  /-- The step budget of the scheduler model ran out (not a behaviour of the code). -/
  | outOfFuel
  deriving DecidableEq, Repr

/-- The `interface{}` values that `runWorkflowStep` puts into the variable
store: a string or a slice of strings. -/
inductive Value where
  | str (s : String)
  | strs (l : List String)
  deriving DecidableEq, Repr

/-- The arguments map of `contextargs.Context`. -/
abbrev Store := String → Option Value

/-- Entries of a `map[string][]string`, in iteration order. -/
abbrev StringSliceMap := List (String × List String)

/-- The fields of `operators.Result` that the workflow code and the matchers read. -/
structure OperatorsResult where
  Matches : StringSliceMap
  /-- The map `Extracts`; `none` is the nil map. -/
  Extracts : Option StringSliceMap

/-- The fields of `output.InternalWrappedEvent` that the workflow code reads. -/
structure InternalWrappedEvent where
  /-- Pointer to the operators result; `none` is nil. -/
  OperatorsResult : Option OperatorsResult
  /-- The result events; only their number is read. -/
  Results : List String

/-- The `contextargs.MetaInput` of a target: only `ID()` is used. -/
structure MetaInput where
  ID : String

/-- Model of `contextargs.Context`. -/
structure ContextArgs where
  MetaInput : MetaInput
  /-- Identity of the cookie jar; `none` is nil. -/
  CookieJar : Option Nat
  args : Store

/-- Model of `scan.ScanContext`: only `Input` is used. -/
structure ScanContext where
  Input : ContextArgs

/-- An entry of `template.Executers`: the protocol executer of a check. -/
structure Executer where
  /-- Result of `Executer.Requests()`. -/
  Requests : Int
  /-- Result of `Executer.Execute(ctx)`: matched flag and error. -/
  Execute : ScanContext → Bool × Option Err
  /-- Behaviour of `Executer.ExecuteWithResults(ctx, callback)`: the events handed to the
  callback, in order, and the returned error. -/
  ExecuteWithResults : ScanContext → List InternalWrappedEvent × Option Err

mutual
/-- Model of `workflows.WorkflowTemplate`. -/
inductive WorkflowTemplate where
  | mk (Template : String) (Executers : List Executer) (Matchers : List Matcher)
      (Subtemplates : List WorkflowTemplate)
/-- Model of `workflows.Matcher`: its `Match` predicate and its subtemplates. -/
inductive Matcher where
  | mk (Match : OperatorsResult → Bool) (Subtemplates : List WorkflowTemplate)
end

/-- Field `Template` (the name of the node). -/
def WorkflowTemplate.Template : WorkflowTemplate → String
  | .mk t _ _ _ => t

/-- Field `Executers`. -/
def WorkflowTemplate.Executers : WorkflowTemplate → List Executer
  | .mk _ e _ _ => e

/-- Field `Matchers`. -/
def WorkflowTemplate.Matchers : WorkflowTemplate → List Matcher
  | .mk _ _ m _ => m

/-- Field `Subtemplates`. -/
def WorkflowTemplate.Subtemplates : WorkflowTemplate → List WorkflowTemplate
  | .mk _ _ _ s => s

/-- Method `Match`. -/
def Matcher.Match : Matcher → OperatorsResult → Bool
  | .mk f _ => f

/-- Field `Subtemplates` of a matcher. -/
def Matcher.Subtemplates : Matcher → List WorkflowTemplate
  | .mk _ s => s

/-- One call of an executer, with what it returned (for a streaming call: the events it
handed to the callback). -/
inductive Call where
  | single (executer : Executer) (matched : Bool) (err : Option Err)
  | streaming (executer : Executer) (events : List InternalWrappedEvent) (err : Option Err)

/-- The executer that was called. -/
def Call.executer : Call → Executer
  | .single e _ _ => e
  | .streaming e _ _ => e

/-- The error the call returned. -/
def Call.err : Call → Option Err
  | .single _ _ err => err
  | .streaming _ _ err => err

/-- The events a call handed to its callback (none for a single-shot call). -/
def Call.events : Call → List InternalWrappedEvent
  | .single _ _ _ => []
  | .streaming _ events _ => events

/-- Whether the call was `ExecuteWithResults`. -/
def Call.isStreaming : Call → Bool
  | .single _ _ _ => false
  | .streaming _ _ _ => true

/-- Model of `workflows.Workflow` with the options that are read. -/
structure Workflow where
  Workflows : List WorkflowTemplate
  /-- The option `w.Options.Options.TemplateThreads`. -/
  TemplateThreads : Int
  /-- Whether `w.Options.HostErrorsCache` is non-nil. -/
  HostErrorsCache : Bool

/-- Everything a workflow run reads and writes. -/
structure World where
  /-- The scan context `ctx` shared by all nodes of the run. -/
  ctx : ScanContext
  /-- The shared `results *atomic.Bool`. -/
  results : Bool
  /-- Arguments of the `Progress.AddToTotal` calls, oldest first. -/
  progress : List Int
  /-- Arguments of the `HostErrorsCache.MarkFailed` calls, oldest first. -/
  failed : List (String × Err)
  /-- Warnings written to the logger, oldest first. -/
  warnings : List String
  /-- Nodes registered with `swg.Add()` and started with `go`, not yet run, oldest first. -/
  pending : List WorkflowTemplate
  /-- Number of cookie jars created so far (the next jar gets this identity). -/
  jars : Nat
  /-- History of the calls made to executers, oldest first (a trace of the interaction with
  the external executers, not a variable of the program). -/
  calls : List Call

/-! ## Primitive operations on the world -/

/-- The call `ctx.Input.Set(k, v)`. -/
def World.Set (w : World) (k : String) (v : Value) : World :=
  { w with ctx := { Input := { w.ctx.Input with
      args := fun k' => if k' = k then some v else w.ctx.Input.args k' } } }

/-- The call `Progress.AddToTotal(n)`. -/
def World.AddToTotal (w : World) (n : Int) : World :=
  { w with progress := w.progress ++ [n] }

/-- The call `HostErrorsCache.MarkFailed(id, err)`. -/
def World.MarkFailed (w : World) (id : String) (err : Err) : World :=
  { w with failed := w.failed ++ [(id, err)] }

/-- The format `workflowStepExecutionError` applied to a template name and an error. -/
def workflowStepExecutionError (template : String) (err : Err) : String :=
  "[" ++ template ++ "] Could not execute workflow step: " ++ err ++ "\n"

/-- The call `gologger.Warning().Msgf(workflowStepExecutionError, template, err)`. -/
def World.Warning (w : World) (template : String) (err : Err) : World :=
  { w with warnings := w.warnings ++ [workflowStepExecutionError template err] }

/-- The call `results.CompareAndSwap(old, new)` on an `atomic.Bool` holding `cur`:
the value held afterwards. -/
def compareAndSwap (cur old new : Bool) : Bool :=
  if cur = old then new else cur

/-- The call `results.CompareAndSwap(old, new)` on the shared flag. -/
def World.CompareAndSwap (w : World) (old new : Bool) : World :=
  { w with results := compareAndSwap w.results old new }

/-- The call `executer.Executer.Execute(ctx)`, entered in the history. -/
def World.Execute (w : World) (executer : Executer) : World :=
  { w with calls := w.calls ++
      [.single executer (executer.Execute w.ctx).1 (executer.Execute w.ctx).2] }

/-- The call `executer.Executer.ExecuteWithResults(ctx, callback)`, entered in the history
(the callback invocations follow). -/
def World.ExecuteWithResults (w : World) (executer : Executer) : World :=
  { w with calls := w.calls ++
      [.streaming executer (executer.ExecuteWithResults w.ctx).1
        (executer.ExecuteWithResults w.ctx).2] }

/-- The statements `swg.Add(); go func(...)(subtemplate)`: the node becomes a pending task. -/
def World.Go (w : World) (subtemplate : WorkflowTemplate) : World :=
  { w with pending := w.pending ++ [subtemplate] }

/-! ## Extraction handling of the two callbacks -/

/-- The key `fmt.Sprintf("%s%d", k, vIdx)`. -/
def normalizedKIdx (k : String) (vIdx : Nat) : String :=
  k ++ toString vIdx

/-- The loop `for vIdx, vVal := range v` of the plain callback, from index `vIdx` on. -/
def setIndexed (k : String) : Nat → List String → World → World
  | _, [], w => w
  | vIdx, vVal :: rest, w => setIndexed k (vIdx + 1) rest (w.Set (normalizedKIdx k vIdx) (.str vVal))

/-- The body of the loop over `Extracts` in the plain callback (`switch len(v)`). -/
def normalizeExtract (k : String) (v : List String) (w : World) : Except Fail World :=
  if v.length = 0 ∨ v.length = 1 then
    match v[0]? with
    | none => .error .indexOutOfRange
    | some v0 => .ok (w.Set k (.str v0))
  else
    .ok ((setIndexed k 0 v w).Set k (.strs v))

/-- The loop `for k, v := range result.OperatorsResult.Extracts` of the plain callback. -/
def normalizeExtracts : StringSliceMap → World → Except Fail World
  | [], w => .ok w
  | (k, v) :: rest, w =>
    match normalizeExtract k v w with
    | .error e => .error e
    | .ok w1 => normalizeExtracts rest w1

/-- The loop `for k, v := range event.OperatorsResult.Extracts` of the matcher callback. -/
def setExtracts : StringSliceMap → World → World
  | [], w => w
  | (k, v) :: rest, w => setExtracts rest (w.Set k (.strs v))

/-- The callback given to `ExecuteWithResults` in plain mode; `firstMatched` is the
captured local variable. -/
def plainOnResult (result : InternalWrappedEvent) (firstMatched : Bool) (w : World) :
    Except Fail (Bool × World) :=
  match result.OperatorsResult with
  | none => .ok (firstMatched, w)
  | some opResult =>
    let firstMatched1 := if result.Results.length > 0 then true else firstMatched
    match opResult.Extracts with
    | none => .ok (firstMatched1, w)
    | some extracts =>
      match normalizeExtracts extracts w with
      | .error e => .error e
      | .ok w1 => .ok (firstMatched1, w1)

/-- The loop `for _, subtemplate := range matcher.Subtemplates` (and the one over
`template.Subtemplates`): every node is started as a goroutine. -/
def goAll : List WorkflowTemplate → World → World
  | [], w => w
  | subtemplate :: rest, w => goAll rest (w.Go subtemplate)

/-- The loop `for _, matcher := range template.Matchers` of the matcher callback. -/
def scheduleMatchers (opResult : OperatorsResult) : List Matcher → World → World
  | [], w => w
  | matcher :: rest, w =>
    if !matcher.Match opResult then scheduleMatchers opResult rest w
    else scheduleMatchers opResult rest (goAll matcher.Subtemplates w)

/-- The callback given to `ExecuteWithResults` in matcher-gated mode. -/
def matcherOnResult (template : WorkflowTemplate) (event : InternalWrappedEvent) (w : World) :
    World :=
  match event.OperatorsResult with
  | none => w
  | some opResult =>
    let w1 := match opResult.Extracts with
      | none => w
      | some extracts => setExtracts extracts w
    scheduleMatchers opResult template.Matchers w1

/-! ## The check loops -/

/-- A streaming executer hands its events to the plain callback, one after the other. -/
def streamPlain : List InternalWrappedEvent → Bool → World → Except Fail (Bool × World)
  | [], firstMatched, w => .ok (firstMatched, w)
  | result :: rest, firstMatched, w =>
    match plainOnResult result firstMatched w with
    | .error e => .error e
    | .ok (firstMatched1, w1) => streamPlain rest firstMatched1 w1

/-- A streaming executer hands its events to the matcher callback, one after the other. -/
def streamMatcher (template : WorkflowTemplate) : List InternalWrappedEvent → World → World
  | [], w => w
  | event :: rest, w => streamMatcher template rest (matcherOnResult template event w)

/-- The body of the loop `for _, executer := range template.Executers` under
`len(template.Matchers) == 0`, with the current `firstMatched` and `mainErr`. -/
def plainCheck (wf : Workflow) (template : WorkflowTemplate) (executer : Executer)
    (firstMatched : Bool) (mainErr : Option Err) (w : World) :
    Except Fail (Bool × Option Err × World) :=
  let w1 := w.AddToTotal executer.Requests
  let ran : Except Fail (Bool × Option Err × World) :=
    if template.Subtemplates.length > 0 then
      match streamPlain (executer.ExecuteWithResults w1.ctx).1 firstMatched
          (w1.ExecuteWithResults executer) with
      | .error e => .error e
      | .ok (firstMatched1, w2) => .ok (firstMatched1, (executer.ExecuteWithResults w1.ctx).2, w2)
    else
      .ok (if (executer.Execute w1.ctx).1 then true else firstMatched,
        (executer.Execute w1.ctx).2, w1.Execute executer)
  match ran with
  | .error e => .error e
  | .ok (firstMatched1, none, w2) => .ok (firstMatched1, mainErr, w2)
  | .ok (firstMatched1, some err, w2) =>
    let w3 := if wf.HostErrorsCache then w2.MarkFailed w2.ctx.Input.MetaInput.ID err else w2
    if template.Executers.length = 1 then
      .ok (firstMatched1, some err, w3)
    else
      .ok (firstMatched1, mainErr, w3.Warning template.Template err)

/-- The loop `for _, executer := range template.Executers` under `len(template.Matchers) == 0`,
over the executers still to run. -/
def plainChecks (wf : Workflow) (template : WorkflowTemplate) :
    List Executer → Bool → Option Err → World → Except Fail (Bool × Option Err × World)
  | [], firstMatched, mainErr, w => .ok (firstMatched, mainErr, w)
  | executer :: rest, firstMatched, mainErr, w =>
    match plainCheck wf template executer firstMatched mainErr w with
    | .error e => .error e
    | .ok (firstMatched1, mainErr1, w1) => plainChecks wf template rest firstMatched1 mainErr1 w1

/-- The body of the loop `for _, executer := range template.Executers` under
`len(template.Matchers) > 0`, with the current `mainErr`. -/
def matcherCheck (template : WorkflowTemplate) (executer : Executer) (mainErr : Option Err)
    (w : World) : Option Err × World :=
  let w1 := w.AddToTotal executer.Requests
  let w2 := streamMatcher template (executer.ExecuteWithResults w1.ctx).1
    (w1.ExecuteWithResults executer)
  match (executer.ExecuteWithResults w1.ctx).2 with
  | none => (mainErr, w2)
  | some err =>
    if template.Executers.length = 1 then
      (some err, w2)
    else
      (mainErr, w2.Warning template.Template err)

/-- The loop `for _, executer := range template.Executers` under `len(template.Matchers) > 0`,
over the executers still to run. -/
def matcherChecks (template : WorkflowTemplate) :
    List Executer → Option Err → World → Option Err × World
  | [], mainErr, w => (mainErr, w)
  | executer :: rest, mainErr, w =>
    matcherChecks template rest (matcherCheck template executer mainErr w).1
      (matcherCheck template executer mainErr w).2

/-! ## `runWorkflowStep` -/

/-- The function `runWorkflowStep`: one node is run in the world `w`; the result is the
returned error and the world afterwards. The goroutines it starts are appended to
`pending`. -/
def runWorkflowStep (wf : Workflow) (template : WorkflowTemplate) (w : World) :
    Except Fail (Option Err × World) :=
  let first : Except Fail (Bool × Option Err × World) :=
    if template.Matchers.length = 0 then
      plainChecks wf template template.Executers false none w
    else
      .ok (false, none, w)
  match first with
  | .error e => .error e
  | .ok (firstMatched, mainErr, w1) =>
    let w2 := if template.Subtemplates.length = 0 then w1.CompareAndSwap false firstMatched else w1
    if template.Matchers.length > 0 then
      .ok (matcherChecks template template.Executers mainErr w2)
    else if template.Subtemplates.length > 0 ∧ firstMatched = true then
      .ok (mainErr, goAll template.Subtemplates w2)
    else
      .ok (mainErr, w2)

/-! ## `executeWorkflow`

The goroutines of a run are interleaved by a schedule: `sched t` decides which runnable
task takes the `t`-th turn. A turn is one whole call of `runWorkflowStep`. The main
thread of `executeWorkflow` (its `for` loop over the top-level nodes, which calls
`runWorkflowStep` directly) is one of the runnable tasks while top-level nodes remain;
`swg.Wait()` returns when nothing is left to run. This model has no wait group: a run in
which `swg.Add()` blocks for ever appears here as a run that goes on. It is used for what
holds of every call of `runWorkflowStep` that a run makes; the wait group, with its limit,
is in the model of the next section. -/

/-- The limit given to `sizedwaitgroup.New` by `executeWorkflow`. -/
def templateThreads (wf : Workflow) : Int :=
  if wf.TemplateThreads = 1 then wf.TemplateThreads + 1 else wf.TemplateThreads

/-- The value `ctxArgs` built by `executeWorkflow` from the incoming context and the new
cookie jar. -/
def ctxArgs (ctx : ScanContext) (workflowCookieJar : Nat) : ContextArgs :=
  { MetaInput := ctx.Input.MetaInput, CookieJar := some workflowCookieJar, args := fun _ => none }

/-- One executed call of `runWorkflowStep`: the node and the world at entry. -/
structure Step where
  template : WorkflowTemplate
  entry : World

/-- The body of every task: `runWorkflowStep` on the node, and a warning when it returns an
error. -/
def runTask (wf : Workflow) (template : WorkflowTemplate) (w : World) : Except Fail World :=
  match runWorkflowStep wf template w with
  | .error e => .error e
  | .ok (none, w1) => .ok w1
  | .ok (some err, w1) => .ok (w1.Warning template.Template err)

/-- The task that takes the next turn under `choice`, with the top-level nodes and the
goroutines that remain; `none` when nothing is left to run. While top-level nodes remain,
choice `0` is the main thread with its next top-level node. -/
def nextTask (choice : Nat) (main pending : List WorkflowTemplate) :
    Option (WorkflowTemplate × List WorkflowTemplate × List WorkflowTemplate) :=
  match main with
  | template :: rest =>
    if choice % (pending.length + 1) = 0 then some (template, rest, pending)
    else
      match pending[choice % (pending.length + 1) - 1]? with
      | some subtemplate =>
        some (subtemplate, main, pending.eraseIdx (choice % (pending.length + 1) - 1))
      | none => some (template, rest, pending)
  | [] =>
    match pending[choice % pending.length]? with
    | some subtemplate => some (subtemplate, [], pending.eraseIdx (choice % pending.length))
    | none => none

/-- The run of all tasks: at most `fuel` turns from turn `t` on, with the top-level nodes
`main` still to be started; the result is the final world and the executed steps. -/
def runTasks (wf : Workflow) (sched : Nat → Nat) :
    Nat → Nat → List WorkflowTemplate → World → List Step → Except Fail (World × List Step)
  | 0, t, main, w, steps =>
    match nextTask (sched t) main w.pending with
    | none => .ok (w, steps)
    | some _ => .error .outOfFuel
  | fuel + 1, t, main, w, steps =>
    match nextTask (sched t) main w.pending with
    | none => .ok (w, steps)
    | some (template, main1, pending1) =>
      match runTask wf template { w with pending := pending1 } with
      | .error e => .error e
      | .ok w1 =>
        runTasks wf sched fuel (t + 1) main1 w1
          (steps ++ [{ template := template, entry := { w with pending := pending1 } }])

/-- The preparation of `executeWorkflow` before its loop: a new flag `results`, a new cookie
jar, a new wait group, and the value `ctxArgs` carrying the new jar. The result is the world
in which the loop starts, still with the incoming `ctx`, and `ctxArgs`. -/
def executeWorkflowInit (w : World) : World × ContextArgs :=
  ({ w with results := false, pending := [], jars := w.jars + 1 }, ctxArgs w.ctx w.jars)

/-- The function `executeWorkflow` with the steps it executed: the run of the top-level
nodes and of every goroutine they start, under the schedule `sched`. Every call of
`runWorkflowStep` gets `ctx`; `ctxArgs` is not read. -/
def executeWorkflowRun (wf : Workflow) (sched : Nat → Nat) (fuel : Nat) (w : World) :
    Except Fail (World × List Step) :=
  runTasks wf sched fuel 0 wf.Workflows (executeWorkflowInit w).1 []

/-! ## The sized wait group of `executeWorkflow`

The run of `executeWorkflow` at the grain of the operations of its threads. The main thread
takes `swg.Add()` for a top-level node and then runs `runWorkflowStep` on it itself (the
function literal of the loop is called, not started with `go`); every goroutine started
inside `runWorkflowStep` is a thread of its own. `swg.Add()` blocks while the counter of
the wait group has reached its size, `swg.Done()` lowers the counter, `swg.Wait()` returns
when the counter is zero. The operations of a call of `runWorkflowStep` are taken in the
order of the source: in matcher-gated mode the `swg.Add()` of a subtemplate is reached inside
the callback of one check, before the next check is called. The check loop of the plain mode
contains no operation of the wait group and is taken in one piece. A schedule picks, turn by
turn, one of the threads that are not blocked. -/

/-- The field `Size` of `sizedwaitgroup.New(limit)`: `math.MaxInt32` for a limit that is
not positive. -/
def swgSize (limit : Int) : Nat :=
  if limit ≤ 0 then 2147483647 else limit.toNat

/-- What a call of `runWorkflowStep` has still to do for the check it is at. -/
inductive Op where
  /-- The callback of the matcher-gated mode is invoked on a streamed result. -/
  | onResult (event : InternalWrappedEvent)
  /-- The statements `swg.Add(); go func(...)(subtemplate)`. -/
  | spawn (subtemplate : WorkflowTemplate)
  /-- The call `ExecuteWithResults` has returned `err`: the statement `if err != nil`. -/
  | checked (err : Option Err)

/-- A call of `runWorkflowStep` in progress. -/
structure Frame where
  /-- The node of the call. -/
  template : WorkflowTemplate
  /-- The local variable `mainErr`. -/
  mainErr : Option Err
  /-- The checks that the loop of the matcher-gated mode has still to call. -/
  executers : List Executer
  /-- What is left to do before the next check is called (or before the call returns). -/
  todo : List Op
  /-- The calls to executers made so far by this call of `runWorkflowStep` (a record, not a
  variable of the program). -/
  calls : List Call
  /-- The nodes registered with `swg.Add()` and started with `go` so far by this call of
  `runWorkflowStep` (a record, not a variable of the program). -/
  spawned : List WorkflowTemplate

/-- A thread that holds a slot of the wait group: registered with `swg.Add()` and about to
call `runWorkflowStep` on its node, or inside that call. -/
inductive Thread where
  | created (template : WorkflowTemplate)
  | running (frame : Frame)

/-- The loop `for _, matcher := range template.Matchers` of the matcher callback: the
statements `swg.Add(); go` it reaches, in order. -/
def spawnOps (opResult : OperatorsResult) : List Matcher → List Op
  | [] => []
  | matcher :: rest =>
    if !matcher.Match opResult then spawnOps opResult rest
    else matcher.Subtemplates.map Op.spawn ++ spawnOps opResult rest

/-- The call of `runWorkflowStep` up to its first operation on the wait group or its first
check of the matcher-gated mode: the check loop of the plain mode, the statement
`results.CompareAndSwap(false, firstMatched)` under `len(template.Subtemplates) == 0`, and
then what is left to do: the checks of the matcher-gated mode, or the expansion of the
subtemplates under `len(template.Subtemplates) > 0 && firstMatched`. -/
def enter (wf : Workflow) (template : WorkflowTemplate) (w : World) :
    Except Fail (World × Frame) :=
  let first : Except Fail (Bool × Option Err × World) :=
    if template.Matchers.length = 0 then
      plainChecks wf template template.Executers false none w
    else
      .ok (false, none, w)
  match first with
  | .error e => .error e
  | .ok (firstMatched, mainErr, w1) =>
    let w2 := if template.Subtemplates.length = 0 then w1.CompareAndSwap false firstMatched else w1
    .ok (w2,
      { template := template
        mainErr := mainErr
        executers := if template.Matchers.length > 0 then template.Executers else []
        todo :=
          if template.Matchers.length > 0 then []
          else if template.Subtemplates.length > 0 ∧ firstMatched = true then
            template.Subtemplates.map Op.spawn
          else []
        calls := w1.calls.drop w.calls.length
        spawned := [] })

/-- What one operation of a thread does: the world afterwards, the thread afterwards (`none`
when it has called `swg.Done()` and ended), the goroutines it has started, the call of
`runWorkflowStep` it has entered, and the call it has completed. -/
structure Effect where
  world : World
  next : Option Thread
  go : List WorkflowTemplate
  steps : List Step
  finished : List Frame

/-- The next operation of a call of `runWorkflowStep` in progress. With nothing left to do
and no check left, the call returns `mainErr`; the thread logs the warning for an error and
calls `swg.Done()`. -/
def frameOp (f : Frame) (w : World) : Effect :=
  match f.todo with
  | .spawn subtemplate :: rest =>
    { world := w
      next := some (.running { f with todo := rest, spawned := f.spawned ++ [subtemplate] })
      go := [subtemplate], steps := [], finished := [] }
  | .onResult event :: rest =>
    match event.OperatorsResult with
    | none =>
      { world := w, next := some (.running { f with todo := rest }),
        go := [], steps := [], finished := [] }
    | some opResult =>
      { world := match opResult.Extracts with
          | none => w
          | some extracts => setExtracts extracts w
        next := some (.running { f with todo := spawnOps opResult f.template.Matchers ++ rest })
        go := [], steps := [], finished := [] }
  | .checked none :: rest =>
    { world := w, next := some (.running { f with todo := rest }),
      go := [], steps := [], finished := [] }
  | .checked (some err) :: rest =>
    if f.template.Executers.length = 1 then
      { world := w, next := some (.running { f with todo := rest, mainErr := some err }),
        go := [], steps := [], finished := [] }
    else
      { world := w.Warning f.template.Template err,
        next := some (.running { f with todo := rest }),
        go := [], steps := [], finished := [] }
  | [] =>
    match f.executers with
    | executer :: rest =>
      let w1 := w.AddToTotal executer.Requests
      { world := w1.ExecuteWithResults executer
        next := some (.running { f with
          executers := rest
          todo := (executer.ExecuteWithResults w1.ctx).1.map Op.onResult
            ++ [.checked (executer.ExecuteWithResults w1.ctx).2]
          calls := f.calls ++ [.streaming executer (executer.ExecuteWithResults w1.ctx).1
            (executer.ExecuteWithResults w1.ctx).2] })
        go := [], steps := [], finished := [] }
    | [] =>
      { world := match f.mainErr with
          | none => w
          | some err => w.Warning f.template.Template err
        next := none, go := [], steps := [], finished := [f] }

/-- The next operation of a thread. -/
def threadOp (wf : Workflow) (th : Thread) (w : World) : Except Fail Effect :=
  match th with
  | .created template =>
    match enter wf template w with
    | .error e => .error e
    | .ok (w1, f) =>
      .ok { world := w1, next := some (.running f), go := [],
            steps := [{ template := template, entry := w }], finished := [] }
  | .running f => .ok (frameOp f w)

/-- The state of a run of `executeWorkflow`. -/
structure Run where
  world : World
  /-- The size of the wait group. -/
  size : Nat
  /-- The counter of the wait group: calls of `swg.Add()` that have returned, less the calls
  of `swg.Done()`. -/
  current : Nat
  /-- The top-level nodes that the loop of `executeWorkflow` has still to reach. -/
  main : List WorkflowTemplate
  /-- The top-level node that the main thread is running, after its `swg.Add()`. -/
  inline : Option Thread
  /-- The goroutines that have been started and have not ended, oldest first. -/
  threads : List Thread
  /-- Whether `swg.Wait()` has returned (and `results.Load()` has been read). -/
  returned : Bool
  /-- The calls of `runWorkflowStep` entered so far, oldest first. -/
  steps : List Step
  /-- The calls of `runWorkflowStep` that have returned and whose thread has called
  `swg.Done()`, oldest first. -/
  finished : List Frame

/-- The state of `executeWorkflow` when its loop starts. -/
def Run.start (wf : Workflow) (w : World) : Run :=
  { world := (executeWorkflowInit w).1, size := swgSize (templateThreads wf), current := 0,
    main := wf.Workflows, inline := none, threads := [], returned := false, steps := [],
    finished := [] }

/-- Whether `swg.Add()` blocks: the counter has reached the size. -/
def Run.full (s : Run) : Bool :=
  decide (s.size ≤ s.current)

/-- Whether the next operation of the thread blocks: it is `swg.Add()`, and the wait group
is full. -/
def Thread.blocked (full : Bool) : Thread → Bool
  | .created _ => false
  | .running f =>
    match f.todo with
    | .spawn _ :: _ => full
    | _ => false

/-- The state after the operation with effect `eff` of a thread, where `inline` and `threads`
are the main thread's node and the goroutines afterwards, the started ones apart. -/
def Run.apply (s : Run) (eff : Effect) (inline : Option Thread) (threads : List Thread) : Run :=
  { s with
    world := eff.world
    inline := inline
    threads := threads ++ eff.go.map Thread.created
    current := s.current + eff.go.length - (if eff.next.isSome then 0 else 1)
    steps := s.steps ++ eff.steps
    finished := s.finished ++ eff.finished }

/-- The next operation of the main thread: the next operation of the call of
`runWorkflowStep` it is in; else `swg.Add()` for the next top-level node; else `swg.Wait()`. -/
def mainOp (wf : Workflow) (s : Run) : Except Fail Run :=
  match s.inline with
  | some th =>
    match threadOp wf th s.world with
    | .error e => .error e
    | .ok eff => .ok (s.apply eff eff.next s.threads)
  | none =>
    match s.main with
    | template :: rest =>
      .ok { s with main := rest, inline := some (.created template), current := s.current + 1 }
    | [] => .ok { s with returned := true }

/-- Whether the main thread can take its next operation: `swg.Add()` needs a free slot and
`swg.Wait()` returns only at counter zero. -/
def mainEnabled (s : Run) : Bool :=
  match s.inline with
  | some th => !th.blocked s.full
  | none =>
    match s.main with
    | _ :: _ => !s.full
    | [] => decide (s.current = 0)

/-- The next operation of the goroutine at position `i`. -/
def goOp (wf : Workflow) (i : Nat) (s : Run) : Except Fail Run :=
  match s.threads[i]? with
  | none => .ok s
  | some th =>
    match threadOp wf th s.world with
    | .error e => .error e
    | .ok eff =>
      .ok (s.apply eff s.inline (s.threads.take i ++ eff.next.toList ++ s.threads.drop (i + 1)))

/-- Whether the goroutine at position `i` can take its next operation. -/
def goEnabled (s : Run) (i : Nat) : Bool :=
  match s.threads[i]? with
  | some th => !th.blocked s.full
  | none => false

/-- The threads that can take their next operation: `0` is the main thread, `i + 1` the
goroutine at position `i`. -/
def enabledAgents (s : Run) : List Nat :=
  (if mainEnabled s then [0] else [])
    ++ ((List.range s.threads.length).filter (goEnabled s)).map (· + 1)

/-- The next operation of the thread `a`. -/
def agentOp (wf : Workflow) : Nat → Run → Except Fail Run
  | 0, s => mainOp wf s
  | i + 1, s => goOp wf i s

/-- The run from the state `s` at turn `t`: at most `fuel` operations, each of a thread that
`sched` picks among those that are not blocked. The run stops when `swg.Wait()` has returned,
and when every thread is blocked. -/
def runOps (wf : Workflow) (sched : Nat → Nat) : Nat → Nat → Run → Except Fail Run
  | 0, _, s => .ok s
  | fuel + 1, t, s =>
    if s.returned then .ok s
    else
      match (enabledAgents s)[sched t % (enabledAgents s).length]? with
      | none => .ok s
      | some a =>
        match agentOp wf a s with
        | .error e => .error e
        | .ok s1 => runOps wf sched fuel (t + 1) s1

/-- The state that `executeWorkflow` has reached after at most `fuel` operations of its
threads under the schedule `sched`. -/
def executeWorkflowOps (wf : Workflow) (sched : Nat → Nat) (fuel : Nat) (w : World) :
    Except Fail Run :=
  runOps wf sched fuel 0 (Run.start wf w)

/-- The function `executeWorkflow` under the schedule `sched`: the value `results.Load()`
read after `swg.Wait()` has returned; `none` when every thread is blocked in `swg.Add()` or
`swg.Wait()`, so that the call never returns; a panic; or `outOfFuel` when `fuel` operations
do not end the run. -/
def executeWorkflow (wf : Workflow) (sched : Nat → Nat) (fuel : Nat) (w : World) :
    Except Fail (Option Bool) :=
  match executeWorkflowOps wf sched fuel w with
  | .error e => .error e
  | .ok s =>
    if s.returned then .ok (some s.world.results)
    else if (enabledAgents s).isEmpty then .ok none
    else .error .outOfFuel

/-! ## Auxiliary definitions used in the statements and proofs -/

/-- Value of a string of decimal digits (used to invert `toString` on naturals). -/
def decodeDigits (cs : List Char) : Nat :=
  cs.foldl (fun acc c => acc * 10 + (c.toNat - 48)) 0

/-- The world in which nothing has happened yet, for a target with no variables. -/
def World.start (id : String) : World :=
  { ctx := { Input := { MetaInput := { ID := id }, CookieJar := none, args := fun _ => none } },
    results := false, progress := [], failed := [], warnings := [], pending := [], jars := 0,
    calls := [] }

/-- The world `w` with another arguments map in its context. -/
def World.withArgs (w : World) (args : Store) : World :=
  { w with ctx := { Input := { w.ctx.Input with args := args } } }

/-- A streamed result with a non-nil outcome and at least one result event. -/
def hasMatch (result : InternalWrappedEvent) : Bool :=
  result.OperatorsResult.isSome && decide (result.Results.length > 0)

/-- Whether a call reported a match: the flag returned by a single-shot call, or some
streamed result with a non-nil outcome and at least one result event. -/
def Call.matched : Call → Bool
  | .single _ matched _ => matched
  | .streaming _ events _ => events.any hasMatch

/-- The subtemplates of the matchers of `template` that a streamed result satisfies, in
matcher order; none for a nil outcome. -/
def matcherChildren (template : WorkflowTemplate) (event : InternalWrappedEvent) :
    List WorkflowTemplate :=
  match event.OperatorsResult with
  | none => []
  | some opResult =>
    (template.Matchers.filter (fun matcher => matcher.Match opResult)).flatMap
      Matcher.Subtemplates

/-- The history entry of a call of `executer` with the context `ctx`, streaming or
single-shot: what the executer returns there. -/
def callOf (streaming : Bool) (executer : Executer) (ctx : ScanContext) : Call :=
  if streaming then
    .streaming executer (executer.ExecuteWithResults ctx).1 (executer.ExecuteWithResults ctx).2
  else
    .single executer (executer.Execute ctx).1 (executer.Execute ctx).2

/-- The last error among the calls, or `mainErr` if none returned an error. -/
def lastErr : List Call → Option Err → Option Err
  | [], mainErr => mainErr
  | c :: rest, mainErr => lastErr rest (match c.err with | some err => some err | none => mainErr)

/-- The `MarkFailed` arguments for the erroring calls on the target `id`. -/
def failedMarks (id : String) (calls : List Call) : List (String × Err) :=
  calls.filterMap (fun c => c.err.map (fun err => (id, err)))

/-- The warnings logged for the erroring calls of a node with several checks. -/
def warningsFor (template : WorkflowTemplate) (calls : List Call) : List String :=
  calls.filterMap (fun c => c.err.map (workflowStepExecutionError template.Template))

/-- The world `w` after the given effects: another arguments map, and further executer
calls, progress reports, failure marks, warnings and started goroutines. -/
def World.after (w : World) (args : Store) (calls : List Call) (progress : List Int)
    (failed : List (String × Err)) (warnings : List String)
    (pending : List WorkflowTemplate) : World :=
  { w with
    ctx := { Input := { w.ctx.Input with args := args } }
    calls := w.calls ++ calls
    progress := w.progress ++ progress
    failed := w.failed ++ failed
    warnings := w.warnings ++ warnings
    pending := w.pending ++ pending }

/-- The goroutines a finished step of `template` has started, given its executer calls. -/
def stepChildren (template : WorkflowTemplate) (calls : List Call) : List WorkflowTemplate :=
  if template.Matchers.length > 0 then
    calls.flatMap (fun c => c.events.flatMap (matcherChildren template))
  else if template.Subtemplates.length > 0 ∧ calls.any Call.matched = true then
    template.Subtemplates
  else []

/-- Whether a step of `template` entered with the context `ctx` sets the shared flag: the
node has neither matchers nor subtemplates and one of its checks returns `matched = true`. -/
def published (template : WorkflowTemplate) (ctx : ScanContext) : Bool :=
  decide (template.Matchers.length = 0) && decide (template.Subtemplates.length = 0) &&
    template.Executers.any (fun e => (e.Execute ctx).1)

/-- Whether an executed step sets the shared flag. -/
def Step.published (s : Step) : Bool :=
  Nuclei.published s.template s.entry.ctx

/-- No result that the executer streams, in any context, carries an extraction with an
empty sequence of values. -/
def Executer.NonEmptyExtracts (e : Executer) : Prop :=
  ∀ ctx, ∀ event ∈ (e.ExecuteWithResults ctx).1, ∀ opResult,
    event.OperatorsResult = some opResult → ∀ extracts, opResult.Extracts = some extracts →
    ∀ kv ∈ extracts, kv.2 ≠ []

/-- The node `c` is a subtemplate of `t` or of one of the matchers of `t`. -/
def IsChild (c t : WorkflowTemplate) : Prop :=
  c ∈ t.Subtemplates ∨ ∃ m ∈ t.Matchers, c ∈ m.Subtemplates

/-- The node `t` occurs in the tree of the workflow. -/
def Workflow.HasNode (wf : Workflow) (t : WorkflowTemplate) : Prop :=
  ∃ top ∈ wf.Workflows, Relation.ReflTransGen (fun a b => IsChild b a) top t

/-- The world after the plain callback has handled the entry `kv` of an extraction map (the
world itself where the handling panics). -/
def writeEntry (kv : String × List String) (w : World) : World :=
  match normalizeExtract kv.1 kv.2 w with
  | .ok w1 => w1
  | .error _ => w

/-- The world after the plain callback has handled the entries one after the other. -/
def writeEntries : StringSliceMap → World → World
  | [], w => w
  | kv :: rest, w => writeEntries rest (writeEntry kv w)

/-- The keys that the plain callback writes for the entry `kv`: its key and, for two or
more values, its key followed by each index. -/
def Touches (kv : String × List String) (key : String) : Prop :=
  key = kv.1 ∨ (2 ≤ kv.2.length ∧ ∃ i, i < kv.2.length ∧ key = normalizedKIdx kv.1 i)

/-- The node of a thread. -/
def Thread.template : Thread → WorkflowTemplate
  | .created template => template
  | .running f => f.template

/-- The nodes that the call of a thread has started so far. -/
def Thread.spawned : Thread → List WorkflowTemplate
  | .created _ => []
  | .running f => f.spawned

/-- The nodes that the operations `todo` of a call on `template` will start. -/
def opsChildren (template : WorkflowTemplate) : List Op → List WorkflowTemplate
  | [] => []
  | .spawn subtemplate :: rest => subtemplate :: opsChildren template rest
  | .onResult event :: rest => matcherChildren template event ++ opsChildren template rest
  | .checked _ :: rest => opsChildren template rest

/-- The records of a call in progress agree with its node: the nodes started so far and
those that the operations left will start are the nodes that a step with these executer
calls starts; the checks called so far and those left are the checks of the node; every
recorded call is what its executer returns in some context; and checks are left to call only
in matcher-gated mode. -/
structure Frame.Sound (f : Frame) : Prop where
  children : f.spawned ++ opsChildren f.template f.todo = stepChildren f.template f.calls
  executers : f.calls.map Call.executer ++ f.executers = f.template.Executers
  results : ∀ c ∈ f.calls, ∃ ctx, c = callOf
    (decide (f.template.Matchers.length > 0 ∨ f.template.Subtemplates.length > 0)) c.executer ctx
  mode : f.executers ≠ [] → f.template.Matchers.length > 0

/-- The records of the call of a thread agree with its node. -/
def Thread.Sound : Thread → Prop
  | .created _ => True
  | .running f => f.Sound

/-- Rank of an operation of a call on a node of size `size`, for the termination argument;
`rank` gives the size of a node. -/
def Op.rank (rank : WorkflowTemplate → Nat) (size : Nat) : Op → Nat
  | .onResult _ => 4 * size
  | .spawn subtemplate => 4 * rank subtemplate + 3
  | .checked _ => 0

/-- The ranks of what a call in progress has left to do: its return, its checks and its
operations. -/
def Frame.measure (rank : WorkflowTemplate → Nat) (f : Frame) : Multiset Nat :=
  {0} + ((f.executers.map (fun _ => 4 * rank f.template + 1) : List Nat) : Multiset Nat)
    + ((f.todo.map (Op.rank rank (rank f.template)) : List Nat) : Multiset Nat)

/-- The ranks of what a thread has left to do. -/
def Thread.measure (rank : WorkflowTemplate → Nat) : Thread → Multiset Nat
  | .created template => {4 * rank template + 2}
  | .running f => f.measure rank

/-- The ranks of what a run has left to do. -/
def Run.measure (rank : WorkflowTemplate → Nat) (s : Run) : Multiset Nat :=
  (if s.returned then 0 else {0})
    + ((s.main.map (fun template => 4 * rank template + 3) : List Nat) : Multiset Nat)
    + (s.inline.toList.map (Thread.measure rank)).sum
    + (s.threads.map (Thread.measure rank)).sum

/-- The threads that hold a slot of the wait group. -/
def Run.live (s : Run) : List Thread :=
  s.inline.toList ++ s.threads

/-- The node of a thread that has not yet entered `runWorkflowStep`. -/
def Thread.waiting : Thread → List WorkflowTemplate
  | .created template => [template]
  | .running _ => []

/-- Whether a call has set the shared flag: its node has neither matchers nor subtemplates
and one of its executer calls returned `matched = true`. -/
def Frame.published (f : Frame) : Bool :=
  decide (f.template.Matchers.length = 0) && decide (f.template.Subtemplates.length = 0) &&
    f.calls.any Call.matched

/-- Whether the call of a thread has set the shared flag. -/
def Thread.published : Thread → Bool
  | .created _ => false
  | .running f => f.published

/-- The node of a thread that has entered `runWorkflowStep`. -/
def Thread.entered : Thread → List WorkflowTemplate
  | .created _ => []
  | .running f => [f.template]

/-- The top-level node for which the main thread has taken `swg.Add()` and has not yet
entered `runWorkflowStep`. -/
def Run.waiting (s : Run) : List WorkflowTemplate :=
  match s.inline with
  | some th => th.waiting
  | none => []

/-- One operation of a thread that is not blocked: the main thread takes `swg.Add()` for the
next top-level node, `swg.Wait()` returns, the call of the main thread takes an operation,
or a goroutine takes an operation. -/
inductive RunStep (wf : Workflow) : Run → Run → Prop
  | add (s : Run) (template : WorkflowTemplate) (rest : List WorkflowTemplate)
      (hinline : s.inline = none) (hmain : s.main = template :: rest) (hfull : s.full = false) :
      RunStep wf s
        { s with main := rest, inline := some (.created template), current := s.current + 1 }
  | wait (s : Run) (hinline : s.inline = none) (hmain : s.main = []) (hcurrent : s.current = 0) :
      RunStep wf s { s with returned := true }
  | inline (s : Run) (th : Thread) (eff : Effect) (hinline : s.inline = some th)
      (hfree : th.blocked s.full = false) (hop : threadOp wf th s.world = .ok eff) :
      RunStep wf s (s.apply eff eff.next s.threads)
  | go (s : Run) (pre : List Thread) (th : Thread) (post : List Thread) (eff : Effect)
      (hthreads : s.threads = pre ++ th :: post) (hfree : th.blocked s.full = false)
      (hop : threadOp wf th s.world = .ok eff) :
      RunStep wf s (s.apply eff s.inline (pre ++ eff.next.toList ++ post))

/-- What holds in every state of a run of `wf`: the counter of the wait group is the number
of threads that hold a slot; after the return of `swg.Wait()` nothing is left; the shared
flag is set exactly if an entered step publishes; the records of all calls agree with their
nodes, and the completed calls have nothing left to do; the top-level nodes and the nodes
started by any call are the nodes of the completed calls, of the threads that hold a slot and
of the top-level nodes still to reach; the calls entered are the completed calls and the
calls in progress; the top-level nodes reached so far have been entered in their order; and
an entered step publishes exactly if a call, completed or in progress, has recorded a match
on a node without matchers and subtemplates. -/
structure Run.Inv (wf : Workflow) (s : Run) : Prop where
  counter : s.current = s.live.length
  returned : s.returned = true → s.main = [] ∧ s.live = []
  verdict : s.world.results = s.steps.any Step.published
  sound : ∀ th ∈ s.live, th.Sound
  done : ∀ f ∈ s.finished, f.Sound ∧ f.todo = [] ∧ f.executers = []
  accounted : (wf.Workflows ++ (s.finished.flatMap Frame.spawned
      ++ s.live.flatMap Thread.spawned)).Perm
    (s.finished.map Frame.template ++ s.live.map Thread.template ++ s.main)
  order : ∃ reached, wf.Workflows = reached ++ s.waiting ++ s.main
    ∧ reached.Sublist (s.steps.map Step.template)
  entered : (s.steps.map Step.template).Perm
    (s.finished.map Frame.template ++ s.live.flatMap Thread.entered)
  published : s.steps.any Step.published
    = (s.finished.any Frame.published || s.live.any Thread.published)

/-- The top-level nodes to reach and the node of the main thread satisfy `P`, the nodes of
the goroutines satisfy `Q`. -/
structure Run.Good (P Q : WorkflowTemplate → Prop) (s : Run) : Prop where
  main : ∀ template ∈ s.main, P template
  inline : ∀ th ∈ s.inline, P th.template
  threads : ∀ th ∈ s.threads, Q th.template

/-- The node has no subtemplate, neither of its own nor of a matcher. -/
def WorkflowTemplate.Barren (t : WorkflowTemplate) : Prop :=
  ∀ c, ¬ IsChild c t

/-- No node started for a top-level node starts a node itself: the subtemplates of the
top-level nodes (and of their matchers) have no subtemplates. -/
def Workflow.Shallow (wf : Workflow) : Prop :=
  ∀ top ∈ wf.Workflows, ∀ c, IsChild c top → c.Barren

/-- No check of a node of the workflow that runs in plain mode with subtemplates (the mode
whose callback reads `v[0]`) streams a result with an extraction that has an empty sequence
of values. -/
def Workflow.NonEmptyExtracts (wf : Workflow) : Prop :=
  ∀ t, wf.HasNode t → t.Matchers = [] → t.Subtemplates ≠ [] →
    ∀ e ∈ t.Executers, e.NonEmptyExtracts

/-- What holds in every state of a run of `wf`, with the nodes it is about: the run is in
good order, all its threads and entered calls are on nodes of the workflow, and the size of
the wait group is the one that `executeWorkflow` gave it. -/
def Run.Sound (wf : Workflow) (s : Run) : Prop :=
  s.Inv wf ∧ s.Good wf.HasNode wf.HasNode ∧ (∀ step ∈ s.steps, wf.HasNode step.template) ∧
    s.size = swgSize (templateThreads wf)

/-- The run from the state `s` as long as at most one thread is not blocked, so that the
schedule has no choice: at most `fuel` operations; `none` when a state is met in which two
threads can take their next operation. -/
def runAlone (wf : Workflow) : Nat → Run → Option (Except Fail Run)
  | 0, s => some (.ok s)
  | fuel + 1, s =>
    if s.returned then some (.ok s)
    else
      match enabledAgents s with
      | [] => some (.ok s)
      | [a] =>
        match agentOp wf a s with
        | .error e => some (.error e)
        | .ok s1 => runAlone wf fuel s1
      | _ :: _ :: _ => none

/-- The operations of one thread taken one after the other, with no other thread in between
and without regard to the limit of the wait group: the world at the end and the goroutines
started, in order, after the goroutines `started` before; `none` when `fuel` operations do
not end the thread. -/
def runThread (wf : Workflow) : Nat → Thread → World → List WorkflowTemplate →
    Except Fail (Option (World × List WorkflowTemplate))
  | 0, _, _, _ => .ok none
  | fuel + 1, th, w, started =>
    match threadOp wf th w with
    | .error e => .error e
    | .ok eff =>
      match eff.next with
      | none => .ok (some (eff.world, started ++ eff.go))
      | some th1 => runThread wf fuel th1 eff.world (started ++ eff.go)

/-- The world `w` with the goroutines `started` appended to `pending`. -/
def World.withStarted (w : World) (started : List WorkflowTemplate) : World :=
  { w with pending := w.pending ++ started }

/-- The world after the callback of the matcher-gated mode has stored the extractions of an
outcome: the statements under `if event.OperatorsResult.Extracts != nil`. -/
def storeExtracts (opResult : OperatorsResult) (w : World) : World :=
  match opResult.Extracts with
  | none => w
  | some extracts => setExtracts extracts w

/-- The world after a thread has logged the warning for the error that its call of
`runWorkflowStep` on `template` returned, if any. -/
def warned (mainErr : Option Err) (template : WorkflowTemplate) (w : World) : World :=
  match mainErr with
  | none => w
  | some err => w.Warning template.Template err

/-! ## Example inputs -/

/-- An executer that returns the same results whatever the context. -/
def Executer.fixed (requests : Int) (matched : Bool) (events : List InternalWrappedEvent)
    (err : Option Err) : Executer :=
  { Requests := requests, Execute := fun _ => (matched, err),
    ExecuteWithResults := fun _ => (events, err) }

/-- A streamed result with an outcome carrying the given extractions and one result event. -/
def eventWith (extracts : StringSliceMap) : InternalWrappedEvent :=
  { OperatorsResult := some { Matches := [], Extracts := some extracts }, Results := ["r"] }

/-- A node without matchers and subtemplates whose single check matches. -/
def leafMatching : WorkflowTemplate :=
  .mk "leaf" [Executer.fixed 1 true [] none] [] []

/-- A node without matchers and subtemplates whose single check fails with `timeout`. -/
def leafFailing : WorkflowTemplate :=
  .mk "failing" [Executer.fixed 1 false [] (some "timeout")] [] []

/-- A matcher that every outcome satisfies, with `leafMatching` as its subtemplate. -/
def matcherAlways : Matcher :=
  .mk (fun _ => true) [leafMatching]

/-- A matcher that no outcome satisfies, with `leafFailing` as its subtemplate. -/
def matcherNever : Matcher :=
  .mk (fun _ => false) [leafFailing]

/-- A matcher-gated node whose single check streams one result and fails with `timeout`. -/
def gatedFailing : WorkflowTemplate :=
  .mk "gated" [Executer.fixed 2 false [eventWith [("ip", ["10.0.0.1"])]] (some "timeout")]
    [matcherNever, matcherAlways] []

/-- A node with a subtemplate whose single check streams one result with a match. -/
def parentMatching : WorkflowTemplate :=
  .mk "parent" [Executer.fixed 1 false [eventWith [("ip", ["10.0.0.1", "10.0.0.2"])]] none] []
    [leafMatching]

/-- A node with matchers and with a subtemplate of its own; its single check streams one
result and reports a match. -/
def gatedWithSubtemplate : WorkflowTemplate :=
  .mk "both" [Executer.fixed 1 true [eventWith [("ip", ["10.0.0.1"])]] none]
    [matcherNever, matcherAlways] [leafFailing]

/-- A workflow with two top-level nodes: one whose single check fails and one whose
subtemplate matches. -/
def workflowTwoNodes : Workflow :=
  { Workflows := [leafFailing, parentMatching], TemplateThreads := 1, HostErrorsCache := true }

/-- A workflow whose first top-level node fails on its single check and whose second is a
leaf that matches. -/
def workflowFailingFirst : Workflow :=
  { Workflows := [leafFailing, leafMatching], TemplateThreads := 1, HostErrorsCache := false }

/-- The same two top-level nodes in the other order. -/
def workflowFailingLast : Workflow :=
  { Workflows := [leafMatching, leafFailing], TemplateThreads := 1, HostErrorsCache := false }

/-- A workflow without top-level nodes, with a host error cache. -/
def workflowWithCache : Workflow :=
  { Workflows := [], TemplateThreads := 1, HostErrorsCache := true }

/-- A node whose single check streams one result with a match, with `leafMatching` as its
only subtemplate. -/
def nestedInner : WorkflowTemplate :=
  .mk "inner" [Executer.fixed 1 false [eventWith []] none] [] [leafMatching]

/-- A node whose single check streams one result with a match, with two subtemplates: one
that has a subtemplate itself, and a leaf. -/
def nestedRoot : WorkflowTemplate :=
  .mk "root" [Executer.fixed 1 false [eventWith []] none] [] [nestedInner, leafMatching]

/-- A workflow whose first top-level node has a subtemplate with a subtemplate, and whose
second top-level node is a leaf that matches; the size of its wait group is two. -/
def workflowNested : Workflow :=
  { Workflows := [nestedRoot, leafMatching], TemplateThreads := 1, HostErrorsCache := false }

/-! ## Decimal rendering -/

theorem digitChar_toNat (m : Nat) (h : m < 10) : (Nat.digitChar m).toNat - 48 = m := by
  interval_cases m <;> rfl

theorem decodeDigits_toDigitsCore (fuel : Nat) : ∀ (n : Nat) (ds : List Char), n < fuel →
    decodeDigits (Nat.toDigitsCore 10 fuel n ds)
      = ds.foldl (fun acc c => acc * 10 + (c.toNat - 48)) n := by
  induction fuel with
  | zero => intro n ds h; omega
  | succ fuel ih =>
    intro n ds h
    unfold Nat.toDigitsCore
    by_cases h0 : n / 10 = 0
    · have hn : n % 10 = n := by omega
      simp only [h0, if_true, decodeDigits, List.foldl_cons, Nat.zero_mul, Nat.zero_add,
        digitChar_toNat (n % 10) (Nat.mod_lt _ (by decide))]
      rw [hn]
    · have hlt : n / 10 < fuel := by omega
      simp only [h0, if_false]
      rw [ih (n / 10) _ hlt]
      simp only [List.foldl_cons, digitChar_toNat (n % 10) (Nat.mod_lt _ (by decide))]
      rw [Nat.div_add_mod' n 10]

theorem decodeDigits_repr (n : Nat) : decodeDigits (Nat.repr n).data = n := by
  have h := decodeDigits_toDigitsCore (n + 1) n [] (Nat.lt_succ_self n)
  simpa [Nat.repr, Nat.toDigits, List.asString] using h

theorem toString_nat_injective (i j : Nat) (h : toString i = toString j) : i = j := by
  have h1 : Nat.repr i = Nat.repr j := h
  have h2 := congrArg (fun s => decodeDigits s.data) h1
  simpa [decodeDigits_repr] using h2

theorem toString_nat_data_ne_nil (i : Nat) : (toString i).data ≠ [] := by
  intro h
  have h1 : (Nat.repr i).data = [] := h
  have h2 := decodeDigits_repr i
  rw [h1] at h2
  have hi : i = 0 := by simpa [decodeDigits] using h2.symm
  subst hi
  exact absurd h1 (by decide)

theorem normalizedKIdx_ne (k : String) (i : Nat) : normalizedKIdx k i ≠ k := by
  intro h
  have h1 := congrArg String.data h
  simp only [normalizedKIdx, String.data_append] at h1
  exact toString_nat_data_ne_nil i (List.append_right_eq_self.mp h1)

theorem normalizedKIdx_inj (k : String) (i j : Nat)
    (h : normalizedKIdx k i = normalizedKIdx k j) : i = j := by
  have h1 := congrArg String.data h
  simp only [normalizedKIdx, String.data_append] at h1
  have h2 := List.append_cancel_left h1
  exact toString_nat_injective i j (String.ext h2)

/-! ## The variable store under the plain callback -/

@[simp] theorem World.Set_args (w : World) (k : String) (v : Value) (key : String) :
    (w.Set k v).ctx.Input.args key = if key = k then some v else w.ctx.Input.args key := rfl

theorem setIndexed_args_other (k : String) : ∀ (v : List String) (s : Nat) (w : World)
    (key : String), (∀ i, i < v.length → key ≠ normalizedKIdx k (s + i)) →
    (setIndexed k s v w).ctx.Input.args key = w.ctx.Input.args key := by
  intro v
  induction v with
  | nil => intro s w key _; rfl
  | cons x xs ih =>
    intro s w key h
    have h0 : key ≠ normalizedKIdx k s := by simpa using h 0 (by simp)
    have hrest : ∀ i, i < xs.length → key ≠ normalizedKIdx k (s + 1 + i) := by
      intro i hi
      have := h (i + 1) (by simpa using hi)
      rwa [show s + (i + 1) = s + 1 + i by omega] at this
    simp only [setIndexed]
    rw [ih (s + 1) _ key hrest]
    simp [h0]

theorem setIndexed_args_idx (k : String) : ∀ (v : List String) (s : Nat) (w : World)
    (i : Nat) (hi : i < v.length),
    (setIndexed k s v w).ctx.Input.args (normalizedKIdx k (s + i)) = some (.str v[i]) := by
  intro v
  induction v with
  | nil => intro s w i hi; simp at hi
  | cons x xs ih =>
    intro s w i hi
    simp only [setIndexed]
    cases i with
    | zero =>
      have hne : ∀ j, j < xs.length → normalizedKIdx k (s + 0) ≠ normalizedKIdx k (s + 1 + j) := by
        intro j _ hEq
        have := normalizedKIdx_inj k _ _ hEq
        omega
      rw [setIndexed_args_other k xs (s + 1) _ _ hne]
      simp
    | succ i =>
      have hi1 : i < xs.length := by simpa using hi
      have := ih (s + 1) (w.Set (normalizedKIdx k s) (.str x)) i hi1
      rw [show s + 1 + i = s + (i + 1) by omega] at this
      simpa using this

/-! ## Frame lemmas: what each operation leaves alone -/

theorem World.Set_eq_withArgs (w : World) (k : String) (v : Value) :
    w.Set k v = w.withArgs (fun key => if key = k then some v else w.ctx.Input.args key) := rfl

@[simp] theorem World.withArgs_withArgs (w : World) (a b : Store) :
    (w.withArgs a).withArgs b = w.withArgs b := rfl

theorem World.withArgs_self (w : World) : w.withArgs w.ctx.Input.args = w := rfl

theorem setIndexed_frame (k : String) : ∀ (v : List String) (s : Nat) (w : World),
    ∃ args, setIndexed k s v w = w.withArgs args := by
  intro v
  induction v with
  | nil => intro s w; exact ⟨_, (World.withArgs_self w).symm⟩
  | cons x xs ih =>
    intro s w
    obtain ⟨args, h⟩ := ih (s + 1) (w.Set (normalizedKIdx k s) (.str x))
    exact ⟨args, by simp only [setIndexed]; rw [h, World.Set_eq_withArgs, World.withArgs_withArgs]⟩

theorem normalizeExtract_frame (k : String) (v : List String) (w w1 : World)
    (h : normalizeExtract k v w = .ok w1) : ∃ args, w1 = w.withArgs args := by
  unfold normalizeExtract at h
  split at h
  · split at h
    · cases h
    · cases h; exact ⟨_, World.Set_eq_withArgs _ _ _⟩
  · cases h
    obtain ⟨args, ha⟩ := setIndexed_frame k v 0 w
    exact ⟨_, by rw [ha, World.Set_eq_withArgs, World.withArgs_withArgs]⟩

theorem normalizeExtracts_frame : ∀ (extracts : StringSliceMap) (w w1 : World),
    normalizeExtracts extracts w = .ok w1 → ∃ args, w1 = w.withArgs args := by
  intro extracts
  induction extracts with
  | nil => intro w w1 h; cases h; exact ⟨_, (World.withArgs_self w).symm⟩
  | cons kv rest ih =>
    intro w w1 h
    obtain ⟨k, v⟩ := kv
    simp only [normalizeExtracts] at h
    cases h1 : normalizeExtract k v w with
    | error e => rw [h1] at h; cases h
    | ok w2 =>
      rw [h1] at h
      obtain ⟨a2, rfl⟩ := normalizeExtract_frame k v w w2 h1
      obtain ⟨a1, rfl⟩ := ih _ _ h
      exact ⟨a1, rfl⟩

theorem plainOnResult_frame (result : InternalWrappedEvent) (firstMatched fm : Bool)
    (w w1 : World) (h : plainOnResult result firstMatched w = .ok (fm, w1)) :
    fm = (firstMatched || hasMatch result) ∧ ∃ args, w1 = w.withArgs args := by
  unfold plainOnResult at h
  cases hres : result.OperatorsResult with
  | none =>
    rw [hres] at h
    cases h
    exact ⟨by simp [hasMatch, hres], _, (World.withArgs_self w).symm⟩
  | some opResult =>
    rw [hres] at h
    have hfm : (if result.Results.length > 0 then true else firstMatched)
        = (firstMatched || hasMatch result) := by
      by_cases hr : result.Results.length > 0 <;> simp [hasMatch, hres, hr]
    cases hext : opResult.Extracts with
    | none =>
      simp only [hext] at h
      cases h
      exact ⟨hfm, _, (World.withArgs_self w).symm⟩
    | some extracts =>
      simp only [hext] at h
      cases hn : normalizeExtracts extracts w with
      | error e => rw [hn] at h; cases h
      | ok w2 =>
        rw [hn] at h
        cases h
        exact ⟨hfm, normalizeExtracts_frame extracts w w1 hn⟩

theorem streamPlain_frame : ∀ (events : List InternalWrappedEvent) (firstMatched fm : Bool)
    (w w1 : World), streamPlain events firstMatched w = .ok (fm, w1) →
    fm = (firstMatched || events.any hasMatch) ∧ ∃ args, w1 = w.withArgs args := by
  intro events
  induction events with
  | nil =>
    intro firstMatched fm w w1 h
    cases h
    exact ⟨by simp, _, (World.withArgs_self w).symm⟩
  | cons ev rest ih =>
    intro firstMatched fm w w1 h
    simp only [streamPlain] at h
    cases h1 : plainOnResult ev firstMatched w with
    | error e => rw [h1] at h; cases h
    | ok r =>
      obtain ⟨fm2, w2⟩ := r
      rw [h1] at h
      obtain ⟨hfm2, a2, rfl⟩ := plainOnResult_frame ev firstMatched fm2 w w2 h1
      obtain ⟨hfm, a1, rfl⟩ := ih _ _ _ _ h
      exact ⟨by rw [hfm, hfm2]; simp [Bool.or_assoc], a1, rfl⟩

/-! ## Effects of the callbacks and of the check loops -/

theorem World.after_after (w : World) (a a1 : Store) (c c1 : List Call) (p p1 : List Int)
    (f f1 : List (String × Err)) (wn wn1 : List String) (pd pd1 : List WorkflowTemplate) :
    (w.after a c p f wn pd).after a1 c1 p1 f1 wn1 pd1
      = w.after a1 (c ++ c1) (p ++ p1) (f ++ f1) (wn ++ wn1) (pd ++ pd1) := by
  simp [World.after, List.append_assoc]

theorem World.after_nil (w : World) : w.after w.ctx.Input.args [] [] [] [] [] = w := by
  simp [World.after]

theorem goAll_eq : ∀ (subs : List WorkflowTemplate) (w : World),
    goAll subs w = w.after w.ctx.Input.args [] [] [] [] subs := by
  intro subs
  induction subs with
  | nil => intro w; simp [goAll, World.after]
  | cons x xs ih =>
    intro w
    simp only [goAll]
    rw [ih]
    simp [World.Go, World.after, List.append_assoc]

theorem scheduleMatchers_eq (opResult : OperatorsResult) : ∀ (ms : List Matcher) (w : World),
    scheduleMatchers opResult ms w = w.after w.ctx.Input.args [] [] [] []
      ((ms.filter (fun matcher => matcher.Match opResult)).flatMap Matcher.Subtemplates) := by
  intro ms
  induction ms with
  | nil => intro w; simp [scheduleMatchers, World.after]
  | cons m rest ih =>
    intro w
    simp only [scheduleMatchers]
    by_cases hm : m.Match opResult = true
    · simp only [hm, Bool.not_true, Bool.false_eq_true, if_false]
      rw [ih, goAll_eq]
      simp [World.after, List.filter_cons, hm, List.append_assoc]
    · have hm1 : m.Match opResult = false := by simpa using hm
      simp only [hm1, Bool.not_false, if_true]
      rw [ih]
      simp [List.filter_cons, hm1]

theorem setExtracts_frame : ∀ (extracts : StringSliceMap) (w : World),
    ∃ args, setExtracts extracts w = w.withArgs args := by
  intro extracts
  induction extracts with
  | nil => intro w; exact ⟨_, (World.withArgs_self w).symm⟩
  | cons kv rest ih =>
    intro w
    obtain ⟨k, v⟩ := kv
    obtain ⟨args, h⟩ := ih (w.Set k (.strs v))
    exact ⟨args, by simp only [setExtracts]; rw [h, World.Set_eq_withArgs, World.withArgs_withArgs]⟩

theorem matcherOnResult_eq (template : WorkflowTemplate) (event : InternalWrappedEvent)
    (w : World) : ∃ args,
    matcherOnResult template event w = w.after args [] [] [] [] (matcherChildren template event) := by
  unfold matcherOnResult matcherChildren
  cases hres : event.OperatorsResult with
  | none => exact ⟨_, (World.after_nil w).symm⟩
  | some opResult =>
    simp only
    rw [scheduleMatchers_eq]
    cases hext : opResult.Extracts with
    | none => exact ⟨_, rfl⟩
    | some extracts =>
      obtain ⟨args, ha⟩ := setExtracts_frame extracts w
      refine ⟨args, ?_⟩
      simp only [ha]
      rfl

theorem streamMatcher_eq (template : WorkflowTemplate) :
    ∀ (events : List InternalWrappedEvent) (w : World), ∃ args,
    streamMatcher template events w
      = w.after args [] [] [] [] (events.flatMap (matcherChildren template)) := by
  intro events
  induction events with
  | nil => intro w; exact ⟨_, (World.after_nil w).symm⟩
  | cons ev rest ih =>
    intro w
    obtain ⟨a1, h1⟩ := matcherOnResult_eq template ev w
    obtain ⟨a2, h2⟩ := ih (matcherOnResult template ev w)
    refine ⟨a2, ?_⟩
    simp only [streamMatcher]
    rw [h2, h1, World.after_after]
    simp

theorem plainCheck_spec (wf : Workflow) (template : WorkflowTemplate) (executer : Executer)
    (firstMatched : Bool) (mainErr : Option Err) (w : World) (fm1 : Bool) (me1 : Option Err)
    (w1 : World) (h : plainCheck wf template executer firstMatched mainErr w = .ok (fm1, me1, w1)) :
    ∃ c args, c = callOf (decide (template.Subtemplates.length > 0)) executer w.ctx ∧
      c.executer = executer ∧
      c.isStreaming = decide (template.Subtemplates.length > 0) ∧
      (c.isStreaming = false → c = .single executer (executer.Execute w.ctx).1
        (executer.Execute w.ctx).2 ∧ args = w.ctx.Input.args) ∧
      fm1 = (firstMatched || c.matched) ∧
      me1 = (if template.Executers.length = 1 then lastErr [c] mainErr else mainErr) ∧
      w1 = w.after args [c] [executer.Requests]
        (if wf.HostErrorsCache = true then failedMarks w.ctx.Input.MetaInput.ID [c] else [])
        (if template.Executers.length = 1 then [] else warningsFor template [c]) [] := by
  unfold plainCheck at h
  by_cases hs : template.Subtemplates.length > 0
  · simp only [hs, if_true] at h
    cases hst : streamPlain (executer.ExecuteWithResults (w.AddToTotal executer.Requests).ctx).1
        firstMatched ((w.AddToTotal executer.Requests).ExecuteWithResults executer) with
    | error e => rw [hst] at h; cases h
    | ok r =>
      obtain ⟨fm2, w2⟩ := r
      rw [hst] at h
      obtain ⟨hfm, args, rfl⟩ := streamPlain_frame _ _ _ _ _ hst
      refine ⟨.streaming executer (executer.ExecuteWithResults w.ctx).1
        (executer.ExecuteWithResults w.ctx).2, args, by simp [callOf, hs], rfl,
        by simp [Call.isStreaming, hs], by simp [Call.isStreaming], ?_⟩
      have hctx : (w.AddToTotal executer.Requests).ctx = w.ctx := rfl
      rw [hctx] at h hfm
      cases herr : (executer.ExecuteWithResults w.ctx).2 with
      | none =>
        simp only [herr] at h
        cases h
        refine ⟨hfm, ?_, ?_⟩
        · simp [lastErr, Call.err, herr]
        · simp [World.after, World.withArgs, World.AddToTotal, World.ExecuteWithResults,
            failedMarks, warningsFor, Call.err, herr]
      | some err =>
        simp only [herr] at h
        by_cases hl : template.Executers.length = 1
        · simp only [hl, if_true] at h
          cases h
          refine ⟨hfm, ?_, ?_⟩
          · simp [lastErr, Call.err, herr, hl]
          · cases hc : wf.HostErrorsCache <;>
            simp [World.after, World.withArgs, World.AddToTotal, World.ExecuteWithResults,
              World.MarkFailed, failedMarks, warningsFor, Call.err, herr, hl, hc]
        · simp only [hl, if_false] at h
          cases h
          refine ⟨hfm, ?_, ?_⟩
          · simp [hl]
          · cases hc : wf.HostErrorsCache <;>
            simp [World.after, World.withArgs, World.AddToTotal, World.ExecuteWithResults,
              World.MarkFailed, World.Warning, failedMarks, warningsFor, Call.err, herr, hl, hc]
  · simp only [hs, if_false] at h
    refine ⟨.single executer (executer.Execute w.ctx).1 (executer.Execute w.ctx).2,
      w.ctx.Input.args, by simp [callOf, hs], rfl, by simp [Call.isStreaming, hs],
      fun _ => ⟨rfl, rfl⟩, ?_⟩
    have hctx : (w.AddToTotal executer.Requests).ctx = w.ctx := rfl
    rw [hctx] at h
    have hfm : (if (executer.Execute w.ctx).1 = true then true else firstMatched)
        = (firstMatched || (executer.Execute w.ctx).1) := by
      cases (executer.Execute w.ctx).1 <;> simp
    cases herr : (executer.Execute w.ctx).2 with
    | none =>
      simp only [herr] at h
      cases h
      refine ⟨by rw [hfm]; rfl, ?_, ?_⟩
      · simp [lastErr, Call.err, herr]
      · simp [World.after, World.AddToTotal, World.Execute,
          failedMarks, warningsFor, Call.err, herr]
    | some err =>
      simp only [herr] at h
      by_cases hl : template.Executers.length = 1
      · simp only [hl, if_true] at h
        cases h
        refine ⟨by rw [hfm]; rfl, ?_, ?_⟩
        · simp [lastErr, Call.err, herr, hl]
        · cases hc : wf.HostErrorsCache <;>
          simp [World.after, World.AddToTotal, World.Execute,
            World.MarkFailed, failedMarks, warningsFor, Call.err, herr, hl, hc]
      · simp only [hl, if_false] at h
        cases h
        refine ⟨by rw [hfm]; rfl, ?_, ?_⟩
        · simp [hl]
        · cases hc : wf.HostErrorsCache <;>
          simp [World.after, World.AddToTotal, World.Execute,
            World.MarkFailed, World.Warning, failedMarks, warningsFor, Call.err, herr, hl, hc]

theorem failedMarks_append (id : String) (a b : List Call) :
    failedMarks id (a ++ b) = failedMarks id a ++ failedMarks id b :=
  List.filterMap_append _ _ _

theorem warningsFor_append (template : WorkflowTemplate) (a b : List Call) :
    warningsFor template (a ++ b) = warningsFor template a ++ warningsFor template b :=
  List.filterMap_append _ _ _

theorem lastErr_append (a b : List Call) (mainErr : Option Err) :
    lastErr (a ++ b) mainErr = lastErr b (lastErr a mainErr) := by
  induction a generalizing mainErr with
  | nil => rfl
  | cons c rest ih => simp only [List.cons_append, lastErr]; exact ih _

theorem World.after_ctx_self (w : World) (calls : List Call) (progress : List Int)
    (failed : List (String × Err)) (warnings : List String) (pending : List WorkflowTemplate) :
    (w.after w.ctx.Input.args calls progress failed warnings pending).ctx = w.ctx := rfl

theorem plainChecks_spec (wf : Workflow) (template : WorkflowTemplate) :
    ∀ (execs : List Executer) (firstMatched : Bool) (mainErr : Option Err) (w : World)
      (fm1 : Bool) (me1 : Option Err) (w1 : World),
    plainChecks wf template execs firstMatched mainErr w = .ok (fm1, me1, w1) →
    ∃ calls args, calls.map Call.executer = execs ∧
      (∀ c ∈ calls, ∃ ctx, c = callOf (decide (template.Subtemplates.length > 0)) c.executer ctx) ∧
      calls.head? = execs.head?.map
        (fun e => callOf (decide (template.Subtemplates.length > 0)) e w.ctx) ∧
      (∀ c ∈ calls, c.isStreaming = decide (template.Subtemplates.length > 0)) ∧
      (template.Subtemplates.length = 0 →
        calls = execs.map (fun e => Call.single e (e.Execute w.ctx).1 (e.Execute w.ctx).2) ∧
        args = w.ctx.Input.args) ∧
      fm1 = (firstMatched || calls.any Call.matched) ∧
      me1 = (if template.Executers.length = 1 then lastErr calls mainErr else mainErr) ∧
      w1 = w.after args calls (execs.map Executer.Requests)
        (if wf.HostErrorsCache = true then failedMarks w.ctx.Input.MetaInput.ID calls else [])
        (if template.Executers.length = 1 then [] else warningsFor template calls) [] := by
  intro execs
  induction execs with
  | nil =>
    intro firstMatched mainErr w fm1 me1 w1 h
    cases h
    exact ⟨[], w.ctx.Input.args, rfl, by simp, rfl, by simp, fun _ => ⟨rfl, rfl⟩, by simp,
      by simp [lastErr], by simp [World.after, failedMarks, warningsFor]⟩
  | cons e rest ih =>
    intro firstMatched mainErr w fm1 me1 w1 h
    simp only [plainChecks] at h
    cases h1 : plainCheck wf template e firstMatched mainErr w with
    | error err => rw [h1] at h; cases h
    | ok r =>
      obtain ⟨fm2, me2, w2⟩ := r
      rw [h1] at h
      obtain ⟨c, a2, hcof, hce, hcs, hsingle, hfm2, hme2, rfl⟩ :=
        plainCheck_spec _ _ _ _ _ _ _ _ _ h1
      obtain ⟨calls, a1, hmap, hof, _, hstr, hsingles, hfm1, hme1, rfl⟩ := ih _ _ _ _ _ _ h
      refine ⟨c :: calls, a1, by simp [hce, hmap], ?_, by simp [hcof], ?_, ?_, ?_, ?_, ?_⟩
      · intro c1 hc1
        rcases List.mem_cons.mp hc1 with rfl | hc1
        · exact ⟨w.ctx, by rw [hce]; exact hcof⟩
        · exact hof c1 hc1
      · intro c1 hc1
        rcases List.mem_cons.mp hc1 with rfl | hc1
        · exact hcs
        · exact hstr c1 hc1
      · intro hs
        have hcf : c.isStreaming = false := by rw [hcs]; simp [hs]
        obtain ⟨hc, ha2⟩ := hsingle hcf
        obtain ⟨hcalls, ha1⟩ := hsingles hs
        subst ha2
        rw [World.after_ctx_self] at hcalls ha1
        exact ⟨by rw [hc, hcalls]; rfl, ha1⟩
      · rw [hfm1, hfm2]; simp [Bool.or_assoc]
      · rw [hme1, hme2]
        by_cases hl : template.Executers.length = 1
        · simp only [hl, if_true]
          exact (lastErr_append [c] calls mainErr).symm
        · simp [hl]
      · rw [World.after_after]
        have hid : (w.after a2 [c] [e.Requests]
            (if wf.HostErrorsCache = true then failedMarks w.ctx.Input.MetaInput.ID [c] else [])
            (if template.Executers.length = 1 then [] else warningsFor template [c])
            []).ctx.Input.MetaInput.ID = w.ctx.Input.MetaInput.ID := rfl
        rw [hid, show c :: calls = [c] ++ calls from rfl, failedMarks_append, warningsFor_append]
        by_cases hl : template.Executers.length = 1 <;> cases hc : wf.HostErrorsCache <;>
          simp [hl]

theorem matcherCheck_spec (template : WorkflowTemplate) (executer : Executer)
    (mainErr : Option Err) (w : World) :
    ∃ c args, c = callOf true executer w.ctx ∧ c.executer = executer ∧ c.isStreaming = true ∧
      (matcherCheck template executer mainErr w).1
        = (if template.Executers.length = 1 then lastErr [c] mainErr else mainErr) ∧
      (matcherCheck template executer mainErr w).2
        = w.after args [c] [executer.Requests] []
          (if template.Executers.length = 1 then [] else warningsFor template [c])
          (c.events.flatMap (matcherChildren template)) := by
  obtain ⟨args, hst⟩ := streamMatcher_eq template
    (executer.ExecuteWithResults (w.AddToTotal executer.Requests).ctx).1
    ((w.AddToTotal executer.Requests).ExecuteWithResults executer)
  have hctx : (w.AddToTotal executer.Requests).ctx = w.ctx := rfl
  refine ⟨.streaming executer (executer.ExecuteWithResults w.ctx).1
    (executer.ExecuteWithResults w.ctx).2, args, rfl, rfl, rfl, ?_⟩
  rw [hctx] at hst
  unfold matcherCheck
  simp only [hctx, hst]
  cases herr : (executer.ExecuteWithResults w.ctx).2 with
  | none =>
    simp [lastErr, Call.err, Call.events, herr, World.after, World.AddToTotal,
      World.ExecuteWithResults, warningsFor]
  | some err =>
    by_cases hl : template.Executers.length = 1
    · simp [lastErr, Call.err, Call.events, herr, World.after, World.AddToTotal,
        World.ExecuteWithResults, hl]
    · simp [Call.err, Call.events, herr, World.after, World.AddToTotal,
        World.ExecuteWithResults, World.Warning, warningsFor, hl]

theorem matcherChecks_spec (template : WorkflowTemplate) :
    ∀ (execs : List Executer) (mainErr : Option Err) (w : World),
    ∃ calls args, calls.map Call.executer = execs ∧
      (∀ c ∈ calls, ∃ ctx, c = callOf true c.executer ctx) ∧
      calls.head? = execs.head?.map (fun e => callOf true e w.ctx) ∧
      (∀ c ∈ calls, c.isStreaming = true) ∧
      (matcherChecks template execs mainErr w).1
        = (if template.Executers.length = 1 then lastErr calls mainErr else mainErr) ∧
      (matcherChecks template execs mainErr w).2
        = w.after args calls (execs.map Executer.Requests) []
          (if template.Executers.length = 1 then [] else warningsFor template calls)
          (calls.flatMap (fun c => c.events.flatMap (matcherChildren template))) := by
  intro execs
  induction execs with
  | nil =>
    intro mainErr w
    exact ⟨[], w.ctx.Input.args, rfl, by simp, rfl, by simp, by simp [matcherChecks, lastErr],
      by simp [matcherChecks, World.after, warningsFor]⟩
  | cons e rest ih =>
    intro mainErr w
    obtain ⟨c, a2, hcof, hce, hcs, hme2, hw2⟩ := matcherCheck_spec template e mainErr w
    obtain ⟨calls, a1, hmap, hof, _, hstr, hme1, hw1⟩ := ih (matcherCheck template e mainErr w).1
      (matcherCheck template e mainErr w).2
    refine ⟨c :: calls, a1, by simp [hce, hmap], ?_, by simp [hcof], ?_, ?_, ?_⟩
    · intro c1 hc1
      rcases List.mem_cons.mp hc1 with rfl | hc1
      · exact ⟨w.ctx, by rw [hce]; exact hcof⟩
      · exact hof c1 hc1
    · intro c1 hc1
      rcases List.mem_cons.mp hc1 with rfl | hc1
      · exact hcs
      · exact hstr c1 hc1
    · simp only [matcherChecks]
      rw [hme1, hme2]
      by_cases hl : template.Executers.length = 1
      · simp only [hl, if_true]
        exact (lastErr_append [c] calls mainErr).symm
      · simp [hl]
    · simp only [matcherChecks]
      rw [hw1, hw2, World.after_after, show c :: calls = [c] ++ calls from rfl,
        warningsFor_append]
      by_cases hl : template.Executers.length = 1 <;> simp [hl]

theorem compareAndSwap_false (cur new : Bool) : compareAndSwap cur false new = (cur || new) := by
  cases cur <;> cases new <;> rfl

/-- What one call of `runWorkflowStep` does, in terms of the executer calls it makes. -/
theorem runWorkflowStep_spec (wf : Workflow) (template : WorkflowTemplate) (w : World)
    (err : Option Err) (w1 : World) (h : runWorkflowStep wf template w = .ok (err, w1)) :
    ∃ calls args, calls.map Call.executer = template.Executers ∧
      (∀ c ∈ calls, ∃ ctx, c = callOf
        (decide (template.Matchers.length > 0 ∨ template.Subtemplates.length > 0))
        c.executer ctx) ∧
      calls.head? = template.Executers.head?.map (fun e => callOf
        (decide (template.Matchers.length > 0 ∨ template.Subtemplates.length > 0)) e w.ctx) ∧
      (∀ c ∈ calls, c.isStreaming
        = decide (template.Matchers.length > 0 ∨ template.Subtemplates.length > 0)) ∧
      (template.Matchers.length = 0 → template.Subtemplates.length = 0 →
        calls = template.Executers.map
          (fun e => Call.single e (e.Execute w.ctx).1 (e.Execute w.ctx).2) ∧
        args = w.ctx.Input.args) ∧
      err = (if template.Executers.length = 1 then lastErr calls none else none) ∧
      w1 = { w.after args calls (template.Executers.map Executer.Requests)
          (if template.Matchers.length = 0 ∧ wf.HostErrorsCache = true
            then failedMarks w.ctx.Input.MetaInput.ID calls else [])
          (if template.Executers.length = 1 then [] else warningsFor template calls)
          (stepChildren template calls) with
        results := if template.Matchers.length = 0 ∧ template.Subtemplates.length = 0
          then (w.results || calls.any Call.matched) else w.results } := by
  unfold runWorkflowStep at h
  by_cases hm : template.Matchers.length = 0
  · have hm1 : ¬ template.Matchers.length > 0 := by omega
    simp only [hm, if_true] at h
    cases hp : plainChecks wf template template.Executers false none w with
    | error e => rw [hp] at h; cases h
    | ok r =>
      obtain ⟨fm, me, w2⟩ := r
      rw [hp] at h
      obtain ⟨calls, args, hmap, hof, hhead, hstr, hsingle, hfm, hme, rfl⟩ :=
        plainChecks_spec _ _ _ _ _ _ _ _ _ hp
      simp only [Bool.false_or] at hfm
      have hmode : decide (template.Matchers.length > 0 ∨ template.Subtemplates.length > 0)
          = decide (template.Subtemplates.length > 0) := by simp [hm]
      refine ⟨calls, args, hmap, by rw [hmode]; exact hof, by rw [hmode]; exact hhead, ?_,
        fun _ hs => hsingle hs, ?_, ?_⟩
      · intro c hc
        rw [hstr c hc]
        simp [hm]
      · by_cases hs : template.Subtemplates.length = 0
        · simp [hs, hm1] at h
          rw [← h.1, hme]
        · by_cases hf : fm = true
          · simp [hs, hm1, hf, Nat.pos_of_ne_zero hs] at h
            rw [← h.1, hme]
          · simp [hs, hm1, hf] at h
            rw [← h.1, hme]
      · by_cases hs : template.Subtemplates.length = 0
        · have hs1 : ¬ template.Subtemplates.length > 0 := by omega
          simp [hs, hm1] at h
          rw [← h.2]
          cases hc : wf.HostErrorsCache <;>
            simp [World.after, World.CompareAndSwap, compareAndSwap_false, stepChildren, hm, hs,
              hfm]
        · have hs1 : template.Subtemplates.length > 0 := Nat.pos_of_ne_zero hs
          by_cases hf : fm = true
          · simp [hs, hm1, hf, hs1] at h
            rw [← h.2, goAll_eq]
            have hany : calls.any Call.matched = true := by rw [← hfm]; exact hf
            cases hc : wf.HostErrorsCache <;>
              simp [World.after, stepChildren, hm, hs, hs1, hany]
          · simp [hs, hm1, hf] at h
            rw [← h.2]
            have hany : ¬ calls.any Call.matched = true := by rw [← hfm]; exact hf
            cases hc : wf.HostErrorsCache <;>
              simp [World.after, stepChildren, hm, hs, hany]
  · have hm1 : template.Matchers.length > 0 := Nat.pos_of_ne_zero hm
    simp only [hm, if_false, hm1, if_true] at h
    have hcas : (if template.Subtemplates.length = 0 then w.CompareAndSwap false false else w)
        = w := by
      split
      · simp [World.CompareAndSwap, compareAndSwap_false]
      · rfl
    rw [hcas] at h
    have h2 := Except.ok.inj h
    obtain ⟨calls, args, hmap, hof, hhead, hstr, hme, hw⟩ :=
      matcherChecks_spec template template.Executers none w
    rw [h2] at hme hw
    have hmode : decide (template.Matchers.length > 0 ∨ template.Subtemplates.length > 0)
        = true := by simp [hm1]
    refine ⟨calls, args, hmap, by rw [hmode]; exact hof, by rw [hmode]; exact hhead, ?_,
      fun h0 => absurd h0 hm, hme, ?_⟩
    · intro c hc
      rw [hstr c hc]
      simp [hm1]
    · rw [show w1 = (err, w1).2 from rfl, hw]
      simp [World.after, stepChildren, hm, hm1]

theorem normalizeExtract_error (k : String) (v : List String) (w : World) (e : Fail)
    (h : normalizeExtract k v w = .error e) : e = .indexOutOfRange := by
  unfold normalizeExtract at h
  split at h
  · split at h
    · cases h; rfl
    · cases h
  · cases h

theorem normalizeExtracts_mem_empty : ∀ (extracts : StringSliceMap) (k : String) (w : World),
    (k, []) ∈ extracts → normalizeExtracts extracts w = .error .indexOutOfRange := by
  intro extracts
  induction extracts with
  | nil => intro k w h; simp at h
  | cons kv rest ih =>
    intro k w h
    obtain ⟨k1, v1⟩ := kv
    simp only [normalizeExtracts]
    cases h1 : normalizeExtract k1 v1 w with
    | error e => rw [normalizeExtract_error k1 v1 w e h1]
    | ok w2 =>
      rcases List.mem_cons.mp h with heq | hmem
      · cases heq
        simp [normalizeExtract] at h1
      · exact ih k w2 hmem

theorem scheduleMatchers_ctx (opResult : OperatorsResult) (ms : List Matcher) (w : World) :
    (scheduleMatchers opResult ms w).ctx = w.ctx := by
  rw [scheduleMatchers_eq]
  rfl

theorem runWorkflowStep_matcher_ok (wf : Workflow) (template : WorkflowTemplate) (w : World)
    (hm : template.Matchers.length > 0) :
    runWorkflowStep wf template w = .ok (matcherChecks template template.Executers none w) := by
  have hm0 : ¬ template.Matchers.length = 0 := by omega
  have hcas : (if template.Subtemplates.length = 0 then w.CompareAndSwap false false else w)
      = w := by
    split
    · simp [World.CompareAndSwap, compareAndSwap_false]
    · rfl
  unfold runWorkflowStep
  simp only [hm0, if_false, hm, if_true, hcas]

/-! ## Sizes of nodes, and the only panic -/

theorem sizeOf_subtemplate_lt (t c : WorkflowTemplate) (h : c ∈ t.Subtemplates) :
    sizeOf c < sizeOf t := by
  cases t with
  | mk n e m s =>
    simp only [WorkflowTemplate.Subtemplates] at h
    have := List.sizeOf_lt_of_mem h
    simp only [WorkflowTemplate.mk.sizeOf_spec]
    omega

theorem sizeOf_matcher_subtemplate_lt (t c : WorkflowTemplate) (m : Matcher)
    (hm : m ∈ t.Matchers) (h : c ∈ m.Subtemplates) : sizeOf c < sizeOf t := by
  cases t with
  | mk n e ms s =>
    cases m with
    | mk f subs =>
      simp only [WorkflowTemplate.Matchers] at hm
      simp only [Matcher.Subtemplates] at h
      have h1 := List.sizeOf_lt_of_mem h
      have h2 := List.sizeOf_lt_of_mem hm
      simp only [WorkflowTemplate.mk.sizeOf_spec, Matcher.mk.sizeOf_spec] at *
      omega

theorem leaf_calls_matched (executers : List Executer) (ctx : ScanContext) :
    (executers.map (fun e => Call.single e (e.Execute ctx).1 (e.Execute ctx).2)).any Call.matched
      = executers.any (fun e => (e.Execute ctx).1) := by
  induction executers with
  | nil => rfl
  | cons e rest ih => simp only [List.map_cons, List.any_cons, ih, Call.matched]

theorem normalizeExtracts_error : ∀ (extracts : StringSliceMap) (w : World) (e : Fail),
    normalizeExtracts extracts w = .error e → e = .indexOutOfRange := by
  intro extracts
  induction extracts with
  | nil => intro w e h; cases h
  | cons kv rest ih =>
    intro w e h
    obtain ⟨k, v⟩ := kv
    simp only [normalizeExtracts] at h
    cases h1 : normalizeExtract k v w with
    | error e1 =>
      rw [h1] at h
      cases h
      exact normalizeExtract_error k v w e h1
    | ok w2 =>
      rw [h1] at h
      exact ih w2 e h

theorem plainOnResult_error (result : InternalWrappedEvent) (firstMatched : Bool) (w : World)
    (e : Fail) (h : plainOnResult result firstMatched w = .error e) : e = .indexOutOfRange := by
  unfold plainOnResult at h
  cases hres : result.OperatorsResult with
  | none => rw [hres] at h; cases h
  | some opResult =>
    rw [hres] at h
    cases hext : opResult.Extracts with
    | none => simp only [hext] at h; cases h
    | some extracts =>
      simp only [hext] at h
      cases hn : normalizeExtracts extracts w with
      | error e1 =>
        rw [hn] at h
        cases h
        exact normalizeExtracts_error extracts w e hn
      | ok w2 => rw [hn] at h; cases h

theorem streamPlain_error : ∀ (events : List InternalWrappedEvent) (firstMatched : Bool)
    (w : World) (e : Fail), streamPlain events firstMatched w = .error e →
    e = .indexOutOfRange := by
  intro events
  induction events with
  | nil => intro firstMatched w e h; cases h
  | cons ev rest ih =>
    intro firstMatched w e h
    simp only [streamPlain] at h
    cases h1 : plainOnResult ev firstMatched w with
    | error e1 =>
      rw [h1] at h
      cases h
      exact plainOnResult_error ev firstMatched w e h1
    | ok r =>
      rw [h1] at h
      exact ih _ _ e h

theorem plainCheck_error (wf : Workflow) (template : WorkflowTemplate) (executer : Executer)
    (firstMatched : Bool) (mainErr : Option Err) (w : World) (e : Fail)
    (h : plainCheck wf template executer firstMatched mainErr w = .error e) :
    e = .indexOutOfRange := by
  unfold plainCheck at h
  by_cases hs : template.Subtemplates.length > 0
  · simp only [hs, if_true] at h
    cases hst : streamPlain (executer.ExecuteWithResults (w.AddToTotal executer.Requests).ctx).1
        firstMatched ((w.AddToTotal executer.Requests).ExecuteWithResults executer) with
    | error e1 =>
      rw [hst] at h
      cases h
      exact streamPlain_error _ _ _ e hst
    | ok r =>
      obtain ⟨fm2, w2⟩ := r
      rw [hst] at h
      cases herr : (executer.ExecuteWithResults (w.AddToTotal executer.Requests).ctx).2 with
      | none => simp only [herr] at h; cases h
      | some err => simp only [herr] at h; split at h <;> cases h
  · simp only [hs, if_false] at h
    split at h
    · rename_i heq; cases heq
    · cases h
    · split at h <;> cases h

theorem plainChecks_error (wf : Workflow) (template : WorkflowTemplate) :
    ∀ (execs : List Executer) (firstMatched : Bool) (mainErr : Option Err) (w : World)
      (e : Fail), plainChecks wf template execs firstMatched mainErr w = .error e →
    e = .indexOutOfRange := by
  intro execs
  induction execs with
  | nil => intro firstMatched mainErr w e h; cases h
  | cons x rest ih =>
    intro firstMatched mainErr w e h
    simp only [plainChecks] at h
    cases h1 : plainCheck wf template x firstMatched mainErr w with
    | error e1 =>
      rw [h1] at h
      cases h
      exact plainCheck_error _ _ _ _ _ _ e h1
    | ok r =>
      rw [h1] at h
      exact ih _ _ _ e h

/-! ## Check loops without panic, started nodes, and the context of the steps -/

theorem normalizeExtract_ok (k : String) (v : List String) (w : World) (hv : v ≠ []) :
    ∃ w1, normalizeExtract k v w = .ok w1 := by
  unfold normalizeExtract
  split
  · cases v with
    | nil => exact absurd rfl hv
    | cons x rest => exact ⟨w.Set k (.str x), by simp⟩
  · exact ⟨_, rfl⟩

theorem normalizeExtracts_ok : ∀ (extracts : StringSliceMap) (w : World),
    (∀ kv ∈ extracts, kv.2 ≠ []) → ∃ w1, normalizeExtracts extracts w = .ok w1 := by
  intro extracts
  induction extracts with
  | nil => intro w _; exact ⟨w, rfl⟩
  | cons kv rest ih =>
    intro w h
    obtain ⟨k, v⟩ := kv
    obtain ⟨w2, h2⟩ := normalizeExtract_ok k v w (h (k, v) (List.mem_cons_self _ _))
    obtain ⟨w1, h1⟩ := ih w2 (fun kv hkv => h kv (List.mem_cons_of_mem _ hkv))
    exact ⟨w1, by simp only [normalizeExtracts, h2, h1]⟩

theorem plainOnResult_ok (result : InternalWrappedEvent) (firstMatched : Bool) (w : World)
    (h : ∀ opResult, result.OperatorsResult = some opResult → ∀ extracts,
      opResult.Extracts = some extracts → ∀ kv ∈ extracts, kv.2 ≠ []) :
    ∃ r, plainOnResult result firstMatched w = .ok r := by
  unfold plainOnResult
  cases hres : result.OperatorsResult with
  | none => exact ⟨_, rfl⟩
  | some opResult =>
    cases hext : opResult.Extracts with
    | none =>
      simp only [hext]
      exact ⟨_, rfl⟩
    | some extracts =>
      obtain ⟨w1, h1⟩ := normalizeExtracts_ok extracts w (h opResult hres extracts hext)
      simp only [hext, h1]
      exact ⟨_, rfl⟩

theorem streamPlain_ok : ∀ (events : List InternalWrappedEvent) (firstMatched : Bool)
    (w : World), (∀ event ∈ events, ∀ opResult, event.OperatorsResult = some opResult →
      ∀ extracts, opResult.Extracts = some extracts → ∀ kv ∈ extracts, kv.2 ≠ []) →
    ∃ r, streamPlain events firstMatched w = .ok r := by
  intro events
  induction events with
  | nil => intro firstMatched w _; exact ⟨_, rfl⟩
  | cons ev rest ih =>
    intro firstMatched w h
    obtain ⟨r2, h2⟩ := plainOnResult_ok ev firstMatched w (h ev (List.mem_cons_self _ _))
    obtain ⟨fm2, w2⟩ := r2
    obtain ⟨r1, h1⟩ := ih fm2 w2 (fun e he => h e (List.mem_cons_of_mem _ he))
    exact ⟨r1, by simp only [streamPlain, h2, h1]⟩

theorem plainCheck_ok (wf : Workflow) (template : WorkflowTemplate) (executer : Executer)
    (firstMatched : Bool) (mainErr : Option Err) (w : World)
    (h : template.Subtemplates.length > 0 → executer.NonEmptyExtracts) :
    ∃ r, plainCheck wf template executer firstMatched mainErr w = .ok r := by
  cases hr : plainCheck wf template executer firstMatched mainErr w with
  | ok r => exact ⟨r, rfl⟩
  | error e =>
    exfalso
    unfold plainCheck at hr
    by_cases hs : template.Subtemplates.length > 0
    · simp only [hs, if_true] at hr
      obtain ⟨r, hst⟩ := streamPlain_ok
        (executer.ExecuteWithResults (w.AddToTotal executer.Requests).ctx).1 firstMatched
        ((w.AddToTotal executer.Requests).ExecuteWithResults executer) (h hs _)
      obtain ⟨fm2, w2⟩ := r
      rw [hst] at hr
      cases herr : (executer.ExecuteWithResults (w.AddToTotal executer.Requests).ctx).2 with
      | none => simp only [herr] at hr; cases hr
      | some err => simp only [herr] at hr; split at hr <;> cases hr
    · simp only [hs, if_false] at hr
      split at hr
      · rename_i heq; cases heq
      · cases hr
      · split at hr <;> cases hr

theorem plainChecks_ok (wf : Workflow) (template : WorkflowTemplate) :
    ∀ (execs : List Executer) (firstMatched : Bool) (mainErr : Option Err) (w : World),
    (template.Subtemplates.length > 0 → ∀ e ∈ execs, e.NonEmptyExtracts) →
    ∃ r, plainChecks wf template execs firstMatched mainErr w = .ok r := by
  intro execs
  induction execs with
  | nil => intro firstMatched mainErr w _; exact ⟨_, rfl⟩
  | cons x rest ih =>
    intro firstMatched mainErr w h
    obtain ⟨r2, h2⟩ := plainCheck_ok wf template x firstMatched mainErr w
      (fun hs => h hs x (List.mem_cons_self _ _))
    obtain ⟨fm2, me2, w2⟩ := r2
    obtain ⟨r1, h1⟩ := ih fm2 me2 w2 (fun hs e he => h hs e (List.mem_cons_of_mem _ he))
    exact ⟨r1, by simp only [plainChecks, h2, h1]⟩

theorem stepChildren_isChild (t c : WorkflowTemplate) (calls : List Call)
    (h : c ∈ stepChildren t calls) : IsChild c t := by
  unfold stepChildren at h
  split at h
  · simp only [List.mem_flatMap] at h
    obtain ⟨_, _, ev, _, hc⟩ := h
    unfold matcherChildren at hc
    cases hres : ev.OperatorsResult with
    | none => simp [hres] at hc
    | some opResult =>
      simp only [hres, List.mem_flatMap, List.mem_filter] at hc
      obtain ⟨m, ⟨hm, _⟩, hcm⟩ := hc
      exact Or.inr ⟨m, hm, hcm⟩
  · split at h
    · exact Or.inl h
    · simp at h

theorem matcherChildren_satisfied (t c : WorkflowTemplate) (event : InternalWrappedEvent)
    (h : c ∈ matcherChildren t event) :
    ∃ m ∈ t.Matchers, ∃ opResult, event.OperatorsResult = some opResult ∧
      m.Match opResult = true ∧ c ∈ m.Subtemplates := by
  unfold matcherChildren at h
  cases hres : event.OperatorsResult with
  | none => simp [hres] at h
  | some opResult =>
    simp only [hres, List.mem_flatMap, List.mem_filter] at h
    obtain ⟨m, ⟨hm, hsat⟩, hc⟩ := h
    exact ⟨m, hm, opResult, rfl, hsat, hc⟩

theorem runTask_ctx_input (wf : Workflow) (t : WorkflowTemplate) (w w1 : World)
    (h : runTask wf t w = .ok w1) :
    w1.ctx.Input.CookieJar = w.ctx.Input.CookieJar ∧
    w1.ctx.Input.MetaInput = w.ctx.Input.MetaInput := by
  unfold runTask at h
  cases hstep : runWorkflowStep wf t w with
  | error e => rw [hstep] at h; cases h
  | ok r =>
    obtain ⟨err, w2⟩ := r
    rw [hstep] at h
    obtain ⟨calls, args, _, _, _, _, _, _, hw2⟩ := runWorkflowStep_spec wf t w err w2 hstep
    have h2 : w2.ctx.Input.CookieJar = w.ctx.Input.CookieJar ∧
        w2.ctx.Input.MetaInput = w.ctx.Input.MetaInput := by
      rw [hw2]; exact ⟨rfl, rfl⟩
    cases err with
    | none => cases h; exact h2
    | some e => cases h; exact h2

theorem runTasks_cookieJar (wf : Workflow) (sched : Nat → Nat) :
    ∀ (fuel t0 : Nat) (main : List WorkflowTemplate) (w : World) (steps : List Step)
      (w1 : World) (steps1 : List Step),
    runTasks wf sched fuel t0 main w steps = .ok (w1, steps1) →
    ∃ new, steps1 = steps ++ new ∧
      ∀ s ∈ new, s.entry.ctx.Input.CookieJar = w.ctx.Input.CookieJar := by
  intro fuel
  induction fuel with
  | zero =>
    intro t0 main w steps w1 steps1 h
    simp only [runTasks] at h
    split at h
    · cases h; exact ⟨[], by simp, by simp⟩
    · cases h
  | succ fuel ih =>
    intro t0 main w steps w1 steps1 h
    simp only [runTasks] at h
    split at h
    · cases h; exact ⟨[], by simp, by simp⟩
    · rename_i t main1 pending1 hnext
      cases hrun : runTask wf t { w with pending := pending1 } with
      | error e => rw [hrun] at h; cases h
      | ok w2 =>
        rw [hrun] at h
        have hjar := (runTask_ctx_input wf t _ w2 hrun).1
        obtain ⟨new, hsteps, hall⟩ := ih _ _ _ _ _ _ h
        refine ⟨{ template := t, entry := { w with pending := pending1 } } :: new, ?_, ?_⟩
        · rw [hsteps]; simp
        · intro s hs
          rcases List.mem_cons.mp hs with rfl | hs
          · rfl
          · rw [hall s hs]; exact hjar

/-! ## Decimal renderings that share a beginning -/

theorem toDigitsCore_eq_repr (fuel : Nat) : ∀ (n : Nat) (ds : List Char), n < fuel →
    Nat.toDigitsCore 10 fuel n ds = (Nat.repr n).data ++ ds := by
  induction fuel using Nat.strong_induction_on with
  | _ fuel ih =>
    intro n ds h
    cases fuel with
    | zero => omega
    | succ f =>
      have hrepr : (Nat.repr n).data = Nat.toDigitsCore 10 (n + 1) n [] := rfl
      rw [hrepr]
      unfold Nat.toDigitsCore
      by_cases h0 : n / 10 = 0
      · simp [h0]
      · simp only [h0, if_false]
        have hlt : n / 10 < n := Nat.div_lt_self (by omega) (by decide)
        rw [ih f (Nat.lt_succ_self f) (n / 10) _ (by omega),
          ih n (by omega) (n / 10) _ hlt]
        simp

theorem repr_data_of_ge (n : Nat) (h : 10 ≤ n) :
    (Nat.repr n).data = (Nat.repr (n / 10)).data ++ [Nat.digitChar (n % 10)] := by
  have hrepr : (Nat.repr n).data = Nat.toDigitsCore 10 (n + 1) n [] := rfl
  rw [hrepr]
  unfold Nat.toDigitsCore
  have h0 : ¬ n / 10 = 0 := by omega
  simp only [h0, if_false]
  exact toDigitsCore_eq_repr n (n / 10) _ (Nat.div_lt_self (by omega) (by decide))

theorem repr_data_of_lt (n : Nat) (h : n < 10) : (Nat.repr n).data = [Nat.digitChar n] := by
  have hrepr : (Nat.repr n).data = Nat.toDigitsCore 10 (n + 1) n [] := rfl
  rw [hrepr]
  unfold Nat.toDigitsCore
  have h0 : n / 10 = 0 := by omega
  have h1 : n % 10 = n := by omega
  simp [h0, h1]

theorem repr_data_split (i : Nat) : ∀ (s t : List Char), s ≠ [] → t ≠ [] →
    (Nat.repr i).data = s ++ t → ∃ j, j < i ∧ s = (Nat.repr j).data := by
  induction i using Nat.strong_induction_on with
  | _ i ih =>
    intro s t hs ht h
    by_cases hi : i < 10
    · rw [repr_data_of_lt i hi] at h
      have hlen := congrArg List.length h
      have hs1 : 0 < s.length := List.length_pos.mpr hs
      have ht1 : 0 < t.length := List.length_pos.mpr ht
      simp only [List.length_singleton, List.length_append] at hlen
      omega
    · rw [repr_data_of_ge i (by omega)] at h
      obtain ⟨t1, c, rfl⟩ : ∃ t1 c, t = t1 ++ [c] :=
        ⟨t.dropLast, t.getLast ht, (List.dropLast_append_getLast ht).symm⟩
      rw [← List.append_assoc] at h
      have h1 := List.append_inj_left' h rfl
      have hlt : i / 10 < i := Nat.div_lt_self (by omega) (by decide)
      by_cases ht1 : t1 = []
      · subst ht1
        exact ⟨i / 10, hlt, by simpa using h1.symm⟩
      · obtain ⟨j, hj, hsj⟩ := ih (i / 10) hlt s t1 hs ht1 h1
        exact ⟨j, by omega, hsj⟩

theorem normalizedKIdx_collision (k k1 : String) (i i1 : Nat) (hk : k ≠ k1)
    (h : normalizedKIdx k i = normalizedKIdx k1 i1) :
    (∃ j, j < i ∧ k1 = normalizedKIdx k j) ∨ (∃ j, j < i1 ∧ k = normalizedKIdx k1 j) := by
  have h1 := congrArg String.data h
  simp only [normalizedKIdx, String.data_append] at h1
  rcases List.append_eq_append_iff.mp h1 with ⟨s, hs1, hs2⟩ | ⟨s, hs1, hs2⟩
  · have hsne : s ≠ [] := by
      rintro rfl
      exact hk (String.ext (by simpa using hs1.symm))
    obtain ⟨j, hj, hsj⟩ := repr_data_split i s _ hsne (toString_nat_data_ne_nil i1) hs2
    refine Or.inl ⟨j, hj, String.ext ?_⟩
    simp only [normalizedKIdx, String.data_append]
    rw [hs1, hsj]
    rfl
  · have hsne : s ≠ [] := by
      rintro rfl
      exact hk (String.ext (by simpa using hs1))
    obtain ⟨j, hj, hsj⟩ := repr_data_split i1 s _ hsne (toString_nat_data_ne_nil i) hs2
    refine Or.inr ⟨j, hj, String.ext ?_⟩
    simp only [normalizedKIdx, String.data_append]
    rw [hs1, hsj]
    rfl

/-! ## Order of the entries of an extraction map -/

theorem writeEntry_eq (kv : String × List String) (w : World) (hv : kv.2 ≠ []) :
    normalizeExtract kv.1 kv.2 w = .ok (writeEntry kv w) := by
  obtain ⟨w1, h⟩ := normalizeExtract_ok kv.1 kv.2 w hv
  simp only [writeEntry, h]

theorem writeEntry_frame (kv : String × List String) (w : World) :
    ∃ args, writeEntry kv w = w.withArgs args := by
  unfold writeEntry
  cases h : normalizeExtract kv.1 kv.2 w with
  | error e => exact ⟨_, (World.withArgs_self w).symm⟩
  | ok w1 => exact normalizeExtract_frame _ _ _ _ h

theorem writeEntry_of_one (k x : String) (w : World) :
    writeEntry (k, [x]) w = w.Set k (.str x) := by
  simp [writeEntry, normalizeExtract]

theorem writeEntry_of_two (k : String) (v : List String) (w : World) (h : 2 ≤ v.length) :
    writeEntry (k, v) w = (setIndexed k 0 v w).Set k (.strs v) := by
  have h1 : ¬ (v.length = 0 ∨ v.length = 1) := by omega
  simp only [writeEntry, normalizeExtract, h1, if_false]

theorem writeEntry_untouched (kv : String × List String) (w : World) (key : String)
    (h : ¬ Touches kv key) :
    (writeEntry kv w).ctx.Input.args key = w.ctx.Input.args key := by
  obtain ⟨k, v⟩ := kv
  have hk : key ≠ k := fun hk => h (Or.inl hk)
  match v, h with
  | [], _ => simp [writeEntry, normalizeExtract]
  | [x], _ => rw [writeEntry_of_one]; simp [hk]
  | x :: y :: rest, h =>
    rw [writeEntry_of_two k _ w (by simp)]
    have hidx : ∀ i, i < (x :: y :: rest).length → key ≠ normalizedKIdx k (0 + i) := by
      intro i hi heq
      exact h (Or.inr ⟨by simp, i, hi, by simpa using heq⟩)
    simp [hk, setIndexed_args_other k _ 0 w key hidx]

theorem writeEntry_touched (kv : String × List String) (w w2 : World) (key : String)
    (hv : kv.2 ≠ []) (h : Touches kv key) :
    (writeEntry kv w).ctx.Input.args key = (writeEntry kv w2).ctx.Input.args key := by
  obtain ⟨k, v⟩ := kv
  match v, hv, h with
  | [], hv, _ => exact absurd rfl hv
  | [x], _, h =>
    rcases h with hk | ⟨h2, _⟩
    · rw [writeEntry_of_one, writeEntry_of_one]; simp [hk]
    · simp at h2
  | x :: y :: rest, _, h =>
    rw [writeEntry_of_two k _ w (by simp), writeEntry_of_two k _ w2 (by simp)]
    by_cases hk : key = k
    · simp [hk]
    · rcases h with hk1 | ⟨_, i, hi, hkey⟩
      · exact absurd hk1 hk
      · have e1 := setIndexed_args_idx k (x :: y :: rest) 0 w i hi
        have e2 := setIndexed_args_idx k (x :: y :: rest) 0 w2 i hi
        simp only [Nat.zero_add] at e1 e2
        simp only [World.Set_args, hk, if_false, hkey, e1, e2]

theorem withArgs_ext (w : World) (a b : Store)
    (h : ∀ key, (w.withArgs a).ctx.Input.args key = (w.withArgs b).ctx.Input.args key) :
    w.withArgs a = w.withArgs b := by
  have hab : a = b := funext h
  rw [hab]

theorem writeEntry_comm (e1 e2 : String × List String) (w : World)
    (h1 : e1.2 ≠ []) (h2 : e2.2 ≠ [])
    (hind : ∀ key, ¬ (Touches e1 key ∧ Touches e2 key)) :
    writeEntry e2 (writeEntry e1 w) = writeEntry e1 (writeEntry e2 w) := by
  obtain ⟨a1, ha1⟩ := writeEntry_frame e1 w
  obtain ⟨a2, ha2⟩ := writeEntry_frame e2 w
  obtain ⟨a21, ha21⟩ := writeEntry_frame e2 (writeEntry e1 w)
  obtain ⟨a12, ha12⟩ := writeEntry_frame e1 (writeEntry e2 w)
  have hl : writeEntry e2 (writeEntry e1 w) = w.withArgs a21 := by
    rw [ha21, ha1, World.withArgs_withArgs]
  have hr : writeEntry e1 (writeEntry e2 w) = w.withArgs a12 := by
    rw [ha12, ha2, World.withArgs_withArgs]
  rw [hl, hr]
  apply withArgs_ext
  intro key
  rw [← hl, ← hr]
  by_cases t1 : Touches e1 key
  · have t2 : ¬ Touches e2 key := fun t2 => hind key ⟨t1, t2⟩
    exact (writeEntry_untouched e2 (writeEntry e1 w) key t2).trans
      (writeEntry_touched e1 (writeEntry e2 w) w key h1 t1).symm
  · by_cases t2 : Touches e2 key
    · exact (writeEntry_touched e2 (writeEntry e1 w) w key h2 t2).trans
        (writeEntry_untouched e1 (writeEntry e2 w) key t1).symm
    · exact ((writeEntry_untouched e2 (writeEntry e1 w) key t2).trans
        (writeEntry_untouched e1 w key t1)).trans
        ((writeEntry_untouched e1 (writeEntry e2 w) key t1).trans
          (writeEntry_untouched e2 w key t2)).symm

theorem normalizeExtracts_eq_writeEntries : ∀ (l : StringSliceMap) (w : World),
    (∀ kv ∈ l, kv.2 ≠ []) → normalizeExtracts l w = .ok (writeEntries l w) := by
  intro l
  induction l with
  | nil => intro w _; rfl
  | cons kv rest ih =>
    intro w h
    obtain ⟨k, v⟩ := kv
    have h1 := writeEntry_eq (k, v) w (h (k, v) (List.mem_cons_self _ _))
    simp only [normalizeExtracts, writeEntries]
    simp only at h1
    rw [h1]
    exact ih _ (fun kv hkv => h kv (List.mem_cons_of_mem _ hkv))

theorem writeEntries_perm {l l1 : StringSliceMap} (hperm : l.Perm l1) :
    (l.map Prod.fst).Nodup → (∀ kv ∈ l, kv.2 ≠ []) →
    (∀ a ∈ l, ∀ b ∈ l, a.1 ≠ b.1 → ∀ key, ¬ (Touches a key ∧ Touches b key)) →
    ∀ w, writeEntries l w = writeEntries l1 w := by
  induction hperm with
  | nil => intro _ _ _ w; rfl
  | cons x _ ih =>
    intro hnd hne hind w
    simp only [writeEntries]
    simp only [List.map_cons, List.nodup_cons] at hnd
    exact ih hnd.2 (fun kv hkv => hne kv (List.mem_cons_of_mem _ hkv))
      (fun a ha b hb => hind a (List.mem_cons_of_mem _ ha) b (List.mem_cons_of_mem _ hb)) _
  | swap x y l =>
    intro hnd hne hind w
    simp only [writeEntries]
    simp only [List.map_cons, List.nodup_cons, List.mem_cons, not_or] at hnd
    have hxy : y.1 ≠ x.1 := hnd.1.1
    rw [writeEntry_comm y x w (hne y (by simp)) (hne x (by simp))
      (hind y (by simp) x (by simp) hxy)]
  | trans h1 _ ih1 ih2 =>
    intro hnd hne hind w
    rw [ih1 hnd hne hind w]
    exact ih2 ((h1.map Prod.fst).nodup_iff.mp hnd)
      (fun kv hkv => hne kv (h1.symm.subset hkv))
      (fun a ha b hb => hind a (h1.symm.subset ha) b (h1.symm.subset hb)) w

theorem touches_disjoint (a b : String × List String) (hab : a.1 ≠ b.1)
    (hpa : 2 ≤ b.2.length → ∀ i, i < b.2.length → a.1 ≠ b.1 ++ toString i)
    (hpb : 2 ≤ a.2.length → ∀ i, i < a.2.length → b.1 ≠ a.1 ++ toString i)
    (key : String) : ¬ (Touches a key ∧ Touches b key) := by
  rintro ⟨ta, tb⟩
  rcases ta with ha | ⟨la, i, hi, hia⟩
  · rcases tb with hb | ⟨lb, j, hj, hjb⟩
    · exact hab (ha.symm.trans hb)
    · exact hpa lb j hj (ha.symm.trans hjb)
  · rcases tb with hb | ⟨lb, j, hj, hjb⟩
    · exact hpb la i hi (hb.symm.trans hia)
    · rcases normalizedKIdx_collision a.1 b.1 i j hab (hia.symm.trans hjb) with
        ⟨m, hm, hbm⟩ | ⟨m, hm, ham⟩
      · exact hpb la m (by omega) hbm
      · exact hpa lb m (by omega) ham

/-! ## The run at the grain of the operations of its threads -/

theorem threads_split {α : Type} (l : List α) (i : Nat) (x : α) (h : l[i]? = some x) :
    l = l.take i ++ x :: l.drop (i + 1) := by
  induction l generalizing i with
  | nil => simp at h
  | cons y rest ih =>
    cases i with
    | zero => simp at h; simp [h]
    | succ j =>
      simp only [List.getElem?_cons_succ] at h
      simp only [List.take_succ_cons, List.drop_succ_cons, List.cons_append]
      rw [← ih j h]

theorem mem_enabledAgents_zero (s : Run) (h : 0 ∈ enabledAgents s) : mainEnabled s = true := by
  unfold enabledAgents at h
  simp only [List.mem_append, List.mem_map] at h
  rcases h with h | ⟨i, _, hi⟩
  · by_contra hne
    simp [hne] at h
  · omega

theorem mem_enabledAgents_succ (s : Run) (i : Nat) (h : i + 1 ∈ enabledAgents s) :
    goEnabled s i = true := by
  unfold enabledAgents at h
  simp only [List.mem_append, List.mem_map, List.mem_filter] at h
  rcases h with h | ⟨j, ⟨_, hj⟩, hji⟩
  · split at h <;> simp at h
  · have : j = i := by omega
    subst this
    exact hj

theorem agentOp_step (wf : Workflow) (a : Nat) (s s1 : Run) (ha : a ∈ enabledAgents s)
    (h : agentOp wf a s = .ok s1) : RunStep wf s s1 := by
  cases a with
  | zero =>
    have hen := mem_enabledAgents_zero s ha
    unfold mainEnabled at hen
    simp only [agentOp, mainOp] at h
    cases hin : s.inline with
    | some th =>
      rw [hin] at h hen
      simp only at h hen
      cases hop : threadOp wf th s.world with
      | error e => rw [hop] at h; cases h
      | ok eff =>
        rw [hop] at h
        simp only [Except.ok.injEq] at h
        subst h
        exact RunStep.inline s th eff hin (by simpa using hen) hop
    | none =>
      rw [hin] at h hen
      simp only at h hen
      cases hm : s.main with
      | nil =>
        rw [hm] at h hen
        simp only [Except.ok.injEq] at h
        subst h
        have hstep := @RunStep.wait wf s hin hm (by simpa using hen)
        rw [hin, hm] at hstep
        exact hstep
      | cons t rest =>
        rw [hm] at h hen
        simp only [Except.ok.injEq] at h
        subst h
        exact RunStep.add s t rest hin hm (by simpa using hen)
  | succ i =>
    have hen := mem_enabledAgents_succ s i ha
    unfold goEnabled at hen
    simp only [agentOp, goOp] at h
    cases hth : s.threads[i]? with
    | none => rw [hth] at hen; simp at hen
    | some th =>
      rw [hth] at h hen
      simp only at h hen
      cases hop : threadOp wf th s.world with
      | error e => rw [hop] at h; cases h
      | ok eff =>
        rw [hop] at h
        simp only [Except.ok.injEq] at h
        subst h
        exact RunStep.go s _ th _ eff (threads_split _ _ _ hth) (by simpa using hen) hop

theorem opsChildren_map_spawn (t : WorkflowTemplate) (l : List WorkflowTemplate) :
    opsChildren t (l.map Op.spawn) = l := by
  induction l with
  | nil => rfl
  | cons c rest ih => simp [opsChildren, ih]

theorem opsChildren_append (t : WorkflowTemplate) (a b : List Op) :
    opsChildren t (a ++ b) = opsChildren t a ++ opsChildren t b := by
  induction a with
  | nil => rfl
  | cons op rest ih =>
    cases op <;> simp [opsChildren, ih]

theorem opsChildren_spawnOps (t : WorkflowTemplate) (opResult : OperatorsResult) :
    ∀ ms : List Matcher, opsChildren t (spawnOps opResult ms)
      = (ms.filter (fun matcher => matcher.Match opResult)).flatMap Matcher.Subtemplates := by
  intro ms
  induction ms with
  | nil => rfl
  | cons m rest ih =>
    unfold spawnOps
    by_cases hm : m.Match opResult = true
    · simp [hm, opsChildren_append, opsChildren_map_spawn, ih, List.filter_cons]
    · simp [hm, ih, List.filter_cons]

theorem opsChildren_map_onResult (t : WorkflowTemplate) (events : List InternalWrappedEvent) :
    opsChildren t (events.map Op.onResult) = events.flatMap (matcherChildren t) := by
  induction events with
  | nil => rfl
  | cons ev rest ih => simp [opsChildren, ih]

theorem enter_spec (wf : Workflow) (t : WorkflowTemplate) (w w1 : World) (f : Frame)
    (h : enter wf t w = .ok (w1, f)) :
    f.template = t ∧ f.spawned = [] ∧ f.Sound ∧
      w1.results = (w.results || published t w.ctx) ∧
      (f.executers = [] ∨ f.executers = t.Executers) ∧
      (∀ op ∈ f.todo, ∃ c, op = .spawn c ∧ c ∈ t.Subtemplates) := by
  unfold enter at h
  by_cases hm : t.Matchers.length = 0
  · have hm1 : ¬ t.Matchers.length > 0 := by omega
    simp only [hm, if_true] at h
    cases hp : plainChecks wf t t.Executers false none w with
    | error e => rw [hp] at h; cases h
    | ok r =>
      obtain ⟨fm, me, w2⟩ := r
      rw [hp] at h
      obtain ⟨calls, args, hmap, hof, hhead, hstr, hsingle, hfm, hme, rfl⟩ :=
        plainChecks_spec _ _ _ _ _ _ _ _ _ hp
      simp only [Bool.false_or] at hfm
      simp only [Except.ok.injEq, Prod.mk.injEq] at h
      obtain ⟨hw, hf⟩ := h
      have hcalls : (w.after args calls (t.Executers.map Executer.Requests)
          (if wf.HostErrorsCache = true then failedMarks w.ctx.Input.MetaInput.ID calls else [])
          (if t.Executers.length = 1 then [] else warningsFor t calls) []).calls.drop
            w.calls.length = calls := by
        simp [World.after]
      rw [hcalls] at hf
      subst hf
      have hmode : decide (t.Matchers.length > 0 ∨ t.Subtemplates.length > 0)
          = decide (t.Subtemplates.length > 0) := by simp [hm]
      refine ⟨rfl, rfl, ⟨?_, ?_, ?_, ?_⟩, ?_, Or.inl (by simp), ?_⟩
      · simp only [hm1, if_false, List.nil_append]
        unfold stepChildren
        simp only [hm1, if_false, hfm]
        by_cases hc : t.Subtemplates.length > 0 ∧ calls.any Call.matched = true
        · simp only [hc, and_self, if_true]
          exact opsChildren_map_spawn _ _
        · simp only [hc, if_false]
          rfl
      · simp [hm1, hmap]
      · intro c hc
        show ∃ ctx, c = callOf (decide (t.Matchers.length > 0 ∨ t.Subtemplates.length > 0))
          c.executer ctx
        rw [hmode]
        exact hof c hc
      · simp [hm1]
      · rw [← hw]
        by_cases hs : t.Subtemplates.length = 0
        · obtain ⟨hc, _⟩ := hsingle hs
          simp only [hs, if_true, World.CompareAndSwap, World.after, compareAndSwap_false]
          rw [hfm, hc, leaf_calls_matched]
          simp [published, hm, hs]
        · simp [hs, World.after, published]
      · intro op hop
        have hop1 : op ∈ (if t.Subtemplates.length > 0 ∧ fm = true
            then t.Subtemplates.map Op.spawn else []) := by
          simpa only [hm1, if_false] using hop
        by_cases hc : t.Subtemplates.length > 0 ∧ fm = true
        · rw [if_pos hc, List.mem_map] at hop1
          obtain ⟨c, hc, rfl⟩ := hop1
          exact ⟨c, rfl, hc⟩
        · rw [if_neg hc] at hop1
          cases hop1
  · have hm1 : t.Matchers.length > 0 := Nat.pos_of_ne_zero hm
    simp only [hm, if_false, hm1, if_true] at h
    simp only [Except.ok.injEq, Prod.mk.injEq] at h
    obtain ⟨hw, hf⟩ := h
    subst hf
    refine ⟨rfl, rfl, ⟨?_, ?_, ?_, ?_⟩, ?_, Or.inr rfl, ?_⟩
    · simp [opsChildren, stepChildren, hm1]
    · simp
    · simp
    · intro _; exact hm1
    · rw [← hw]
      split
      · simp [World.CompareAndSwap, compareAndSwap_false, published, hm]
      · simp [published, hm]
    · simp

theorem setExtracts_results (extracts : StringSliceMap) (w : World) :
    (setExtracts extracts w).results = w.results := by
  obtain ⟨args, h⟩ := setExtracts_frame extracts w
  rw [h]
  rfl

/-- The operations of a call in progress, case by case. -/
theorem frameOp_cases (f : Frame) (w : World) (P : Effect → Prop)
    (hspawn : ∀ c rest, f.todo = .spawn c :: rest →
      P ⟨w, some (.running { f with todo := rest, spawned := f.spawned ++ [c] }), [c], [], []⟩)
    (hskip : ∀ ev rest, f.todo = .onResult ev :: rest → ev.OperatorsResult = none →
      P ⟨w, some (.running { f with todo := rest }), [], [], []⟩)
    (hresult : ∀ ev rest opResult w1, f.todo = .onResult ev :: rest →
      ev.OperatorsResult = some opResult → w1.results = w.results →
      P ⟨w1, some (.running { f with todo := spawnOps opResult f.template.Matchers ++ rest }),
        [], [], []⟩)
    (hchecked : ∀ err rest w1 mainErr, f.todo = .checked err :: rest →
      w1.results = w.results →
      P ⟨w1, some (.running { f with todo := rest, mainErr := mainErr }), [], [], []⟩)
    (hcheck : ∀ e rest w1 ctx, f.todo = [] → f.executers = e :: rest →
      w1.results = w.results →
      P ⟨w1, some (.running { f with
          executers := rest
          todo := (e.ExecuteWithResults ctx).1.map Op.onResult
            ++ [.checked (e.ExecuteWithResults ctx).2]
          calls := f.calls ++ [.streaming e (e.ExecuteWithResults ctx).1
            (e.ExecuteWithResults ctx).2] }), [], [], []⟩)
    (hdone : ∀ w1, f.todo = [] → f.executers = [] → w1.results = w.results →
      P ⟨w1, none, [], [], [f]⟩) :
    P (frameOp f w) := by
  unfold frameOp
  split
  · next c rest h => exact hspawn c rest h
  · next ev rest h =>
    split
    · next hn => exact hskip ev rest h hn
    · next opResult hs =>
      refine hresult ev rest opResult _ h hs ?_
      split
      · rfl
      · exact setExtracts_results _ _
  · next rest h => exact hchecked none rest w f.mainErr h rfl
  · next err rest h =>
    split
    · exact hchecked (some err) rest w (some err) h rfl
    · exact hchecked (some err) rest _ f.mainErr h rfl
  · next h =>
    split
    · next e rest he => exact hcheck e rest _ _ h he rfl
    · next he =>
      refine hdone _ h he ?_
      split <;> rfl

/-- The operations of a call in progress, as the list of their forms. -/
theorem frameOp_eq (f : Frame) (w : World) :
    (∃ c rest, f.todo = .spawn c :: rest ∧ frameOp f w
      = ⟨w, some (.running { f with todo := rest, spawned := f.spawned ++ [c] }), [c], [], []⟩) ∨
    (∃ ev rest, f.todo = .onResult ev :: rest ∧ ev.OperatorsResult = none ∧ frameOp f w
      = ⟨w, some (.running { f with todo := rest }), [], [], []⟩) ∨
    (∃ ev rest opResult w1, f.todo = .onResult ev :: rest ∧
      ev.OperatorsResult = some opResult ∧ w1.results = w.results ∧ frameOp f w
      = ⟨w1, some (.running { f with todo := spawnOps opResult f.template.Matchers ++ rest }),
        [], [], []⟩) ∨
    (∃ err rest w1 mainErr, f.todo = .checked err :: rest ∧ w1.results = w.results ∧ frameOp f w
      = ⟨w1, some (.running { f with todo := rest, mainErr := mainErr }), [], [], []⟩) ∨
    (∃ e rest w1 ctx, f.todo = [] ∧ f.executers = e :: rest ∧ w1.results = w.results ∧
      frameOp f w = ⟨w1, some (.running { f with
          executers := rest
          todo := (e.ExecuteWithResults ctx).1.map Op.onResult
            ++ [.checked (e.ExecuteWithResults ctx).2]
          calls := f.calls ++ [.streaming e (e.ExecuteWithResults ctx).1
            (e.ExecuteWithResults ctx).2] }), [], [], []⟩) ∨
    (∃ w1, f.todo = [] ∧ f.executers = [] ∧ w1.results = w.results ∧
      frameOp f w = ⟨w1, none, [], [], [f]⟩) := by
  refine frameOp_cases f w (fun eff =>
    (∃ c rest, f.todo = .spawn c :: rest ∧ eff
      = ⟨w, some (.running { f with todo := rest, spawned := f.spawned ++ [c] }), [c], [], []⟩) ∨
    (∃ ev rest, f.todo = .onResult ev :: rest ∧ ev.OperatorsResult = none ∧ eff
      = ⟨w, some (.running { f with todo := rest }), [], [], []⟩) ∨
    (∃ ev rest opResult w1, f.todo = .onResult ev :: rest ∧
      ev.OperatorsResult = some opResult ∧ w1.results = w.results ∧ eff
      = ⟨w1, some (.running { f with todo := spawnOps opResult f.template.Matchers ++ rest }),
        [], [], []⟩) ∨
    (∃ err rest w1 mainErr, f.todo = .checked err :: rest ∧ w1.results = w.results ∧ eff
      = ⟨w1, some (.running { f with todo := rest, mainErr := mainErr }), [], [], []⟩) ∨
    (∃ e rest w1 ctx, f.todo = [] ∧ f.executers = e :: rest ∧ w1.results = w.results ∧
      eff = ⟨w1, some (.running { f with
          executers := rest
          todo := (e.ExecuteWithResults ctx).1.map Op.onResult
            ++ [.checked (e.ExecuteWithResults ctx).2]
          calls := f.calls ++ [.streaming e (e.ExecuteWithResults ctx).1
            (e.ExecuteWithResults ctx).2] }), [], [], []⟩) ∨
    (∃ w1, f.todo = [] ∧ f.executers = [] ∧ w1.results = w.results ∧
      eff = ⟨w1, none, [], [], [f]⟩)) ?_ ?_ ?_ ?_ ?_ ?_
  · intro c rest h
    exact Or.inl ⟨c, rest, h, rfl⟩
  · intro ev rest h hn
    exact Or.inr (Or.inl ⟨ev, rest, h, hn, rfl⟩)
  · intro ev rest opResult w1 h hs hr
    exact Or.inr (Or.inr (Or.inl ⟨ev, rest, opResult, w1, h, hs, hr, rfl⟩))
  · intro err rest w1 mainErr h hr
    exact Or.inr (Or.inr (Or.inr (Or.inl ⟨err, rest, w1, mainErr, h, hr, rfl⟩)))
  · intro e rest w1 ctx h he hr
    exact Or.inr (Or.inr (Or.inr (Or.inr (Or.inl ⟨e, rest, w1, ctx, h, he, hr, rfl⟩))))
  · intro w1 h he hr
    exact Or.inr (Or.inr (Or.inr (Or.inr (Or.inr ⟨w1, h, he, hr, rfl⟩))))

theorem stepChildren_append_streaming (t : WorkflowTemplate) (calls : List Call) (c : Call)
    (hm : t.Matchers.length > 0) :
    stepChildren t (calls ++ [c])
      = stepChildren t calls ++ c.events.flatMap (matcherChildren t) := by
  simp [stepChildren, hm]

theorem opsChildren_isChild (f : Frame) (hs : f.Sound) (c : WorkflowTemplate)
    (hc : c ∈ opsChildren f.template f.todo) : IsChild c f.template := by
  apply stepChildren_isChild f.template c f.calls
  rw [← hs.children]
  exact List.mem_append_right _ hc

theorem enter_published (wf : Workflow) (t : WorkflowTemplate) (w w1 : World) (f : Frame)
    (h : enter wf t w = .ok (w1, f)) : f.published = published t w.ctx := by
  unfold enter at h
  by_cases hm : t.Matchers.length = 0
  · simp only [hm, if_true] at h
    cases hp : plainChecks wf t t.Executers false none w with
    | error e => rw [hp] at h; cases h
    | ok r =>
      obtain ⟨fm, me, w2⟩ := r
      rw [hp] at h
      obtain ⟨calls, args, _, _, _, _, hsingle, _, _, rfl⟩ :=
        plainChecks_spec _ _ _ _ _ _ _ _ _ hp
      simp only [Except.ok.injEq, Prod.mk.injEq] at h
      obtain ⟨_, hf⟩ := h
      have hcalls : (w.after args calls (t.Executers.map Executer.Requests)
          (if wf.HostErrorsCache = true then failedMarks w.ctx.Input.MetaInput.ID calls else [])
          (if t.Executers.length = 1 then [] else warningsFor t calls) []).calls.drop
            w.calls.length = calls := by
        simp [World.after]
      rw [hcalls] at hf
      subst hf
      by_cases hs : t.Subtemplates.length = 0
      · obtain ⟨hc, _⟩ := hsingle hs
        simp only [Frame.published, published, hm, hs, decide_True, Bool.true_and]
        rw [hc, leaf_calls_matched]
      · simp [Frame.published, published, hs]
  · simp only [hm, if_false] at h
    simp only [Except.ok.injEq, Prod.mk.injEq] at h
    obtain ⟨_, hf⟩ := h
    subst hf
    simp [Frame.published, published, hm]

/-- An operation of a thread leaves what its call has published as it is, except that
entering `runWorkflowStep` publishes what the entered step publishes. -/
theorem threadOp_published (wf : Workflow) (th : Thread) (w : World) (eff : Effect)
    (h : threadOp wf th w = .ok eff) (hs : th.Sound) :
    ∀ th1, eff.next = some th1 →
      th1.published = (th.published || eff.steps.any Step.published) := by
  cases th with
  | created t =>
    simp only [threadOp] at h
    cases he : enter wf t w with
    | error e => rw [he] at h; cases h
    | ok r =>
      obtain ⟨w1, f⟩ := r
      rw [he] at h
      simp only [Except.ok.injEq] at h
      subst h
      intro th1 h1
      simp only [Option.some.injEq] at h1
      subst h1
      simp [Thread.published, Step.published, enter_published wf t w w1 f he]
  | running f =>
    simp only [threadOp, Except.ok.injEq] at h
    subst h
    have hs : f.Sound := hs
    rcases frameOp_eq f w with ⟨c, rest, htodo, he⟩ | ⟨ev, rest, htodo, hnone, he⟩ |
      ⟨ev, rest, opResult, w1, htodo, hsome, hres, he⟩ |
      ⟨err, rest, w1, mainErr, htodo, hres, he⟩ | ⟨e, rest, w1, ctx, htodo, hexec, hres, he⟩ |
      ⟨w1, htodo, hexec, hres, he⟩ <;> rw [he] <;> intro th1 h1 <;>
      simp only [Option.some.injEq] at h1
    · subst h1
      simp [Thread.published, Frame.published]
    · subst h1
      simp [Thread.published, Frame.published]
    · subst h1
      simp [Thread.published, Frame.published]
    · subst h1
      simp [Thread.published, Frame.published]
    · subst h1
      have hm : f.template.Matchers.length > 0 := hs.mode (by rw [hexec]; simp)
      have hm0 : ¬ f.template.Matchers.length = 0 := by omega
      simp [Thread.published, Frame.published, hm0]
    · cases h1

/-- What one operation of a thread does to the thread: it stays on its node and records what
it starts, or it ends with nothing left to do; and what it enters and publishes. -/
theorem threadOp_spec (wf : Workflow) (th : Thread) (w : World) (eff : Effect)
    (h : threadOp wf th w = .ok eff) (hs : th.Sound) :
    (∀ th1, eff.next = some th1 → th1.Sound ∧ th1.template = th.template ∧
      th1.spawned = th.spawned ++ eff.go ∧ eff.finished = [] ∧ ∃ f1, th1 = .running f1) ∧
    (eff.next = none → eff.go = [] ∧
      ∃ f, th = .running f ∧ eff.finished = [f] ∧ f.todo = [] ∧ f.executers = []) ∧
    (∀ c ∈ eff.go, IsChild c th.template) ∧
    eff.steps.map Step.template = th.waiting ∧
    eff.world.results = (w.results || eff.steps.any Step.published) ∧
    (eff.go ≠ [] → ∃ f c rest, th = .running f ∧ f.todo = .spawn c :: rest) := by
  cases th with
  | created t =>
    simp only [threadOp] at h
    cases he : enter wf t w with
    | error e => rw [he] at h; cases h
    | ok r =>
      obtain ⟨w1, f⟩ := r
      rw [he] at h
      simp only [Except.ok.injEq] at h
      subst h
      obtain ⟨ht, hsp, hsound, hres, _, _⟩ := enter_spec wf t w w1 f he
      refine ⟨?_, by simp, by simp, by simp [Thread.waiting], ?_, by simp⟩
      · intro th1 h1
        simp only [Option.some.injEq] at h1
        subst h1
        exact ⟨hsound, ht, by simp [Thread.spawned, hsp], rfl, f, rfl⟩
      · simp [hres, Step.published]
  | running f =>
    simp only [threadOp, Except.ok.injEq] at h
    subst h
    have hs : f.Sound := hs
    rcases frameOp_eq f w with ⟨c, rest, htodo, he⟩ | ⟨ev, rest, htodo, hnone, he⟩ |
      ⟨ev, rest, opResult, w1, htodo, hsome, hres, he⟩ |
      ⟨err, rest, w1, mainErr, htodo, hres, he⟩ | ⟨e, rest, w1, ctx, htodo, hexec, hres, he⟩ |
      ⟨w1, htodo, hexec, hres, he⟩ <;> rw [he]
    · refine ⟨?_, by simp, ?_, by simp [Thread.waiting], by simp, fun _ => ⟨f, c, rest, rfl, htodo⟩⟩
      · intro th1 h1
        simp only [Option.some.injEq] at h1
        subst h1
        refine ⟨⟨?_, hs.executers, hs.results, hs.mode⟩, rfl, rfl, rfl, _, rfl⟩
        have := hs.children
        rw [htodo] at this
        simpa [opsChildren] using this
      · intro c1 hc1
        simp only [List.mem_singleton] at hc1
        subst hc1
        exact opsChildren_isChild f hs c1 (by rw [htodo]; simp [opsChildren])
    · refine ⟨?_, by simp, by simp, by simp [Thread.waiting], by simp, by simp⟩
      intro th1 h1
      simp only [Option.some.injEq] at h1
      subst h1
      refine ⟨⟨?_, hs.executers, hs.results, hs.mode⟩, rfl, by simp [Thread.spawned], rfl, _, rfl⟩
      have := hs.children
      rw [htodo] at this
      simpa [opsChildren, matcherChildren, hnone] using this
    · refine ⟨?_, by simp, by simp, by simp [Thread.waiting], by simp [hres], by simp⟩
      intro th1 h1
      simp only [Option.some.injEq] at h1
      subst h1
      refine ⟨⟨?_, hs.executers, hs.results, hs.mode⟩, rfl, by simp [Thread.spawned], rfl, _, rfl⟩
      have := hs.children
      rw [htodo] at this
      simpa [opsChildren, matcherChildren, hsome, opsChildren_append, opsChildren_spawnOps]
        using this
    · refine ⟨?_, by simp, by simp, by simp [Thread.waiting], by simp [hres], by simp⟩
      intro th1 h1
      simp only [Option.some.injEq] at h1
      subst h1
      refine ⟨⟨?_, hs.executers, hs.results, hs.mode⟩, rfl, by simp [Thread.spawned], rfl, _, rfl⟩
      have := hs.children
      rw [htodo] at this
      simpa [opsChildren] using this
    · have hm : f.template.Matchers.length > 0 := hs.mode (by rw [hexec]; simp)
      refine ⟨?_, by simp, by simp, by simp [Thread.waiting], by simp [hres], by simp⟩
      intro th1 h1
      simp only [Option.some.injEq] at h1
      subst h1
      refine ⟨⟨?_, ?_, ?_, ?_⟩, rfl, by simp [Thread.spawned], rfl, _, rfl⟩
      · have := hs.children
        rw [htodo] at this
        simp only [opsChildren, List.append_nil] at this
        show f.spawned ++ opsChildren f.template _ = stepChildren f.template (f.calls ++ _)
        rw [stepChildren_append_streaming _ _ _ hm, ← this]
        simp [opsChildren_append, opsChildren_map_onResult, opsChildren, Call.events]
      · have := hs.executers
        rw [hexec] at this
        show (f.calls ++ _).map Call.executer ++ rest = f.template.Executers
        rw [← this]
        simp [Call.executer]
      · intro c hc
        have hc : c ∈ f.calls ++ _ := hc
        rw [List.mem_append] at hc
        rcases hc with hc | hc
        · exact hs.results c hc
        · simp only [List.mem_singleton] at hc
          subst hc
          exact ⟨ctx, by simp [callOf, hm, Call.executer]⟩
      · intro _
        exact hm
    · refine ⟨by simp, fun _ => ⟨rfl, f, rfl, rfl, htodo, hexec⟩, by simp, by simp [Thread.waiting],
        by simp [hres], by simp⟩

theorem spawnOps_mem (opResult : OperatorsResult) : ∀ (ms : List Matcher) (op : Op),
    op ∈ spawnOps opResult ms → ∃ c m, op = .spawn c ∧ m ∈ ms ∧ c ∈ m.Subtemplates := by
  intro ms
  induction ms with
  | nil => intro op h; cases h
  | cons m rest ih =>
    intro op h
    unfold spawnOps at h
    by_cases hm : m.Match opResult = true
    · simp only [hm, Bool.not_true, Bool.false_eq_true, if_false, List.mem_append,
        List.mem_map] at h
      rcases h with ⟨c, hc, rfl⟩ | h
      · exact ⟨c, m, rfl, List.mem_cons_self _ _, hc⟩
      · obtain ⟨c, m1, h1, h2, h3⟩ := ih op h
        exact ⟨c, m1, h1, List.mem_cons_of_mem _ h2, h3⟩
    · simp only [hm, Bool.not_false, if_true] at h
      obtain ⟨c, m1, h1, h2, h3⟩ := ih op h
      exact ⟨c, m1, h1, List.mem_cons_of_mem _ h2, h3⟩

/-- Every operation of a thread takes one item of what the thread has left to do and puts
items of lower rank in its place. -/
theorem threadOp_measure (wf : Workflow) (th : Thread) (w : World) (eff : Effect)
    (h : threadOp wf th w = .ok eff) :
    Relation.CutExpand (· < ·)
      ((eff.next.toList.map (Thread.measure sizeOf)).sum
        + ((eff.go.map Thread.created).map (Thread.measure sizeOf)).sum)
      (th.measure sizeOf) := by
  cases th with
  | created t =>
    simp only [threadOp] at h
    cases he : enter wf t w with
    | error e => rw [he] at h; cases h
    | ok r =>
      obtain ⟨w1, f⟩ := r
      rw [he] at h
      simp only [Except.ok.injEq] at h
      subst h
      obtain ⟨ht, _, _, _, hex, htodo⟩ := enter_spec wf t w w1 f he
      refine ⟨f.measure sizeOf, 4 * sizeOf t + 2, ?_, ?_⟩
      · intro a ha
        simp only [Frame.measure, Multiset.mem_add, Multiset.mem_singleton, Multiset.mem_coe,
          List.mem_map] at ha
        rcases ha with (ha | ⟨_, _, ha⟩) | ⟨op, hop, ha⟩
        · omega
        · rw [ht] at ha
          omega
        · obtain ⟨c, rfl, hc⟩ := htodo op hop
          have := sizeOf_subtemplate_lt t c hc
          simp only [Op.rank] at ha
          omega
      · simp [Thread.measure, add_comm]
  | running f =>
    simp only [threadOp, Except.ok.injEq] at h
    subst h
    rcases frameOp_eq f w with ⟨c, rest, htodo, he⟩ | ⟨ev, rest, htodo, hnone, he⟩ |
      ⟨ev, rest, opResult, w1, htodo, hsome, hres, he⟩ |
      ⟨err, rest, w1, mainErr, htodo, hres, he⟩ | ⟨e, rest, w1, ctx, htodo, hexec, hres, he⟩ |
      ⟨w1, htodo, hexec, hres, he⟩ <;> rw [he]
    · refine ⟨{4 * sizeOf c + 2}, 4 * sizeOf c + 3, ?_, ?_⟩
      · intro a ha
        simp only [Multiset.mem_singleton] at ha
        omega
      · simp only [Thread.measure, Frame.measure, htodo, Op.rank, Option.toList, List.map_cons,
          List.map_nil, List.sum_cons, List.sum_nil, add_zero, ← Multiset.cons_coe,
          ← Multiset.singleton_add]
        abel
    · refine ⟨0, 4 * sizeOf f.template, ?_, ?_⟩
      · intro a ha
        cases ha
      · simp only [Thread.measure, Frame.measure, htodo, Op.rank, Option.toList, List.map_cons,
          List.map_nil, List.sum_cons, List.sum_nil, add_zero, ← Multiset.cons_coe,
          ← Multiset.singleton_add]
        abel
    · refine ⟨((spawnOps opResult f.template.Matchers).map
          (Op.rank sizeOf (sizeOf f.template)) : List Nat), 4 * sizeOf f.template, ?_, ?_⟩
      · intro a ha
        simp only [Multiset.mem_coe, List.mem_map] at ha
        obtain ⟨op, hop, rfl⟩ := ha
        obtain ⟨c, m, rfl, hm, hc⟩ := spawnOps_mem _ _ _ hop
        have := sizeOf_matcher_subtemplate_lt f.template c m hm hc
        simp only [Op.rank]
        omega
      · simp only [Thread.measure, Frame.measure, htodo, Op.rank, Option.toList, List.map_cons,
          List.map_nil, List.sum_cons, List.sum_nil, add_zero, ← Multiset.cons_coe,
          ← Multiset.singleton_add, List.map_append, ← Multiset.coe_add]
        abel
    · refine ⟨0, 0, ?_, ?_⟩
      · intro a ha
        cases ha
      · simp only [Thread.measure, Frame.measure, htodo, Op.rank, Option.toList, List.map_cons,
          List.map_nil, List.sum_cons, List.sum_nil, add_zero, ← Multiset.cons_coe,
          ← Multiset.singleton_add]
        abel
    · refine ⟨(((e.ExecuteWithResults ctx).1.map Op.onResult
          ++ [Op.checked (e.ExecuteWithResults ctx).2]).map
          (Op.rank sizeOf (sizeOf f.template)) : List Nat), 4 * sizeOf f.template + 1, ?_, ?_⟩
      · intro a ha
        simp only [Multiset.mem_coe, List.mem_map, List.mem_append, List.mem_singleton] at ha
        obtain ⟨op, (⟨ev, _, rfl⟩ | rfl), rfl⟩ := ha
        · simp only [Op.rank]
          omega
        · simp only [Op.rank]
          omega
      · simp only [Thread.measure, Frame.measure, htodo, hexec, Op.rank, Option.toList,
          List.map_cons, List.map_nil, List.sum_cons, List.sum_nil, add_zero,
          ← Multiset.cons_coe, ← Multiset.singleton_add, List.map_append, ← Multiset.coe_add,
          Multiset.coe_nil]
        abel
    · refine ⟨0, 0, ?_, ?_⟩
      · intro a ha
        cases ha
      · simp [Thread.measure, Frame.measure, htodo, hexec]

theorem flatMap_spawned_created (go : List WorkflowTemplate) :
    (go.map Thread.created).flatMap Thread.spawned = [] := by
  induction go with
  | nil => rfl
  | cons c rest ih => simp [Thread.spawned]

theorem any_published_created (go : List WorkflowTemplate) :
    (go.map Thread.created).any Thread.published = false := by
  induction go with
  | nil => rfl
  | cons c rest ih => simp [Thread.published]

theorem flatMap_entered_created (go : List WorkflowTemplate) :
    (go.map Thread.created).flatMap Thread.entered = [] := by
  induction go with
  | nil => rfl
  | cons c rest ih => simp [Thread.entered]

theorem map_template_created (go : List WorkflowTemplate) :
    (go.map Thread.created).map Thread.template = go := by
  induction go with
  | nil => rfl
  | cons c rest ih => simpa [Thread.template] using ih

theorem Run.inv_start (wf : Workflow) (w : World) : (Run.start wf w).Inv wf := by
  refine ⟨rfl, ?_, rfl, ?_, ?_, ?_, ⟨[], ?_, List.Sublist.refl _⟩, ?_, ?_⟩
  · intro h
    cases h
  · intro th hth
    cases hth
  · intro f hf
    cases hf
  · simp [Run.start, Run.live]
  · simp [Run.start, Run.waiting]
  · simp [Run.start, Run.live]
  · simp [Run.start, Run.live]

/-- An operation of a thread that holds a slot keeps what holds in every state of a run;
`before` and `after` are the threads before and after it in the list of those that hold a
slot. -/
theorem Run.inv_threadOp (wf : Workflow) (s s1 : Run) (th : Thread) (eff : Effect)
    (before after : List Thread) (hinv : s.Inv wf)
    (hop : threadOp wf th s.world = .ok eff)
    (hlive : s.live = before ++ [th] ++ after)
    (hlive1 : s1.live = before ++ eff.next.toList ++ after ++ eff.go.map Thread.created)
    (hcurrent : s1.current = s.current + eff.go.length - (if eff.next.isSome then 0 else 1))
    (hworld : s1.world = eff.world) (hsteps : s1.steps = s.steps ++ eff.steps)
    (hfinished : s1.finished = s.finished ++ eff.finished) (hmain : s1.main = s.main)
    (hreturned : s1.returned = s.returned)
    (hwaiting : (s.waiting = th.waiting ∧ s1.waiting = []) ∨ s1.waiting = s.waiting) :
    s1.Inv wf := by
  have hth : th ∈ s.live := by rw [hlive]; simp
  have hsound := hinv.sound th hth
  obtain ⟨hnext, hend, _, hentered, hresults, _⟩ := threadOp_spec wf th s.world eff hop hsound
  have hpublished := threadOp_published wf th s.world eff hop hsound
  refine ⟨?_, ?_, ?_, ?_, ?_, ?_, ?_, ?_, ?_⟩
  · rw [hcurrent, hlive1, hinv.counter, hlive]
    cases hn : eff.next with
    | none =>
      obtain ⟨hgo, _⟩ := hend hn
      simp [hgo]
    | some th1 =>
      simp
      omega
  · intro hr
    rw [hreturned] at hr
    have := (hinv.returned hr).2
    rw [this] at hth
    cases hth
  · rw [hworld, hsteps, hresults, hinv.verdict, List.any_append]
  · intro th1 h1
    rw [hlive1] at h1
    simp only [List.mem_append, List.mem_map, Option.mem_toList, Option.mem_def] at h1
    rcases h1 with ((h1 | h1) | h1) | ⟨c, _, rfl⟩
    · exact hinv.sound th1 (by rw [hlive]; simp [h1])
    · exact (hnext th1 h1).1
    · exact hinv.sound th1 (by rw [hlive]; simp [h1])
    · trivial
  · intro f hf
    rw [hfinished, List.mem_append] at hf
    rcases hf with hf | hf
    · exact hinv.done f hf
    · cases hn : eff.next with
      | none =>
        obtain ⟨_, f1, hf1, hfin, htodo, hexec⟩ := hend hn
        rw [hfin, List.mem_singleton] at hf
        subst hf
        subst hf1
        exact ⟨hsound, htodo, hexec⟩
      | some th1 =>
        rw [(hnext th1 hn).2.2.2.1] at hf
        cases hf
  · have hacc := hinv.accounted
    classical
    rw [List.perm_iff_count] at hacc ⊢
    intro a
    have ha := hacc a
    rw [hlive] at ha
    rw [hlive1, hfinished, hmain]
    cases hn : eff.next with
    | none =>
      obtain ⟨hgo, f1, hf1, hfin, _, _⟩ := hend hn
      subst hf1
      rw [hgo, hfin]
      simp only [List.count_append, List.flatMap_append, List.map_append, List.flatMap_cons,
        List.flatMap_nil, List.map_cons, List.map_nil, Option.toList, List.append_nil,
        Thread.spawned, Thread.template] at ha ⊢
      omega
    | some th1 =>
      obtain ⟨_, htm, hsp, hfin, _⟩ := hnext th1 hn
      rw [hfin]
      simp only [List.count_append, List.flatMap_append, List.map_append, List.flatMap_cons,
        List.flatMap_nil, List.map_cons, List.map_nil, Option.toList, List.append_nil,
        flatMap_spawned_created, map_template_created, htm, hsp] at ha ⊢
      omega
  · obtain ⟨reached, hw, hsub⟩ := hinv.order
    rw [hmain, hsteps, List.map_append, hentered]
    rcases hwaiting with ⟨h1, h2⟩ | h1
    · refine ⟨reached ++ th.waiting, ?_, hsub.append (List.Sublist.refl _)⟩
      rw [hw, h1, h2]
      simp
    · refine ⟨reached, ?_, hsub.trans (List.sublist_append_left _ _)⟩
      rw [hw, h1]
  · have hent := hinv.entered
    classical
    rw [List.perm_iff_count] at hent ⊢
    intro a
    have ha := hent a
    rw [hlive] at ha
    rw [hlive1, hfinished, hsteps, List.map_append, hentered]
    cases hn : eff.next with
    | none =>
      obtain ⟨hgo, f1, hf1, hfin, _, _⟩ := hend hn
      subst hf1
      rw [hgo, hfin]
      simp only [List.count_append, List.flatMap_append, List.map_append, List.flatMap_cons,
        List.flatMap_nil, List.map_cons, List.map_nil, Option.toList, List.append_nil,
        Thread.entered, Thread.waiting, List.count_nil] at ha ⊢
      omega
    | some th1 =>
      obtain ⟨_, htm, _, hfin, f1, hf1⟩ := hnext th1 hn
      have h1 : th1.entered = th.entered ++ th.waiting := by
        subst hf1
        cases th with
        | created t => simpa [Thread.entered, Thread.waiting, Thread.template] using htm
        | running f => simpa [Thread.entered, Thread.waiting, Thread.template] using htm
      rw [hfin]
      simp only [List.count_append, List.flatMap_append, List.map_append, List.flatMap_cons,
        List.flatMap_nil, List.map_cons, List.map_nil, Option.toList, List.append_nil,
        flatMap_entered_created, h1] at ha ⊢
      omega
  · have hpub := hinv.published
    rw [hlive] at hpub
    rw [hlive1, hfinished, hsteps, List.any_append, hpub]
    cases hn : eff.next with
    | none =>
      obtain ⟨hgo, f1, hf1, hfin, _, _⟩ := hend hn
      subst hf1
      have hsteps0 : eff.steps = [] := by
        have := hentered
        simpa [Thread.waiting] using this
      rw [hgo, hfin, hsteps0]
      simp only [List.any_append, List.any_cons, List.any_nil, Option.toList, List.map_nil,
        Bool.or_false, Thread.published]
      cases s.finished.any Frame.published <;> cases before.any Thread.published <;>
        cases after.any Thread.published <;> cases f1.published <;> rfl
    | some th1 =>
      obtain ⟨_, _, _, hfin, _⟩ := hnext th1 hn
      rw [hfin]
      simp only [List.any_append, List.any_cons, List.any_nil, Option.toList, Bool.or_false,
        List.append_nil, any_published_created, hpublished th1 hn]
      cases s.finished.any Frame.published <;> cases before.any Thread.published <;>
        cases after.any Thread.published <;> cases th.published <;>
        cases eff.steps.any Step.published <;> rfl

/-- Every operation of a run keeps what holds in every state of a run. -/
theorem Run.inv_step (wf : Workflow) (s s1 : Run) (hstep : RunStep wf s s1) (hinv : s.Inv wf) :
    s1.Inv wf := by
  cases hstep with
  | add template rest hinline hmain hfull =>
    have hlive : s.live = s.threads := by simp [Run.live, hinline]
    refine ⟨?_, ?_, hinv.verdict, ?_, hinv.done, ?_, ?_, ?_, ?_⟩
    · have := hinv.counter
      rw [hlive] at this
      simp [Run.live, this, Nat.add_comm]
    · intro hr
      have := (hinv.returned hr).1
      rw [hmain] at this
      cases this
    · intro th hth
      simp only [Run.live, Option.toList, List.singleton_append, List.mem_cons] at hth
      rcases hth with rfl | hth
      · trivial
      · exact hinv.sound th (by rw [hlive]; exact hth)
    · have hacc := hinv.accounted
      rw [hlive, hmain] at hacc
      classical
      rw [List.perm_iff_count] at hacc ⊢
      intro a
      have ha := hacc a
      simp only [Run.live, List.count_append, List.flatMap_append, List.map_append,
        List.flatMap_cons, List.flatMap_nil, List.map_cons, List.map_nil, Option.toList,
        List.append_nil, Thread.spawned, Thread.template, List.count_cons, List.count_nil,
        List.nil_append] at ha ⊢
      omega
    · obtain ⟨reached, hw, hsub⟩ := hinv.order
      refine ⟨reached, ?_, hsub⟩
      rw [hw, hmain]
      simp [Run.waiting, hinline, Thread.waiting]
    · have hent := hinv.entered
      rw [hlive] at hent
      simpa [Run.live, Thread.entered] using hent
    · have hpub := hinv.published
      rw [hlive] at hpub
      simpa [Run.live, Thread.published] using hpub
  | wait hinline hmain hcurrent =>
    have hlive : s.live = [] := by
      have := hinv.counter
      rw [hcurrent] at this
      exact List.eq_nil_of_length_eq_zero this.symm
    exact ⟨hinv.counter, fun _ => ⟨hmain, hlive⟩, hinv.verdict, hinv.sound, hinv.done,
      hinv.accounted, hinv.order, hinv.entered, hinv.published⟩
  | inline th eff hinline hfree hop =>
    have hsound := hinv.sound th (by simp [Run.live, hinline])
    obtain ⟨hnext, _, _, _, _, _⟩ := threadOp_spec wf th s.world eff hop hsound
    refine Run.inv_threadOp wf s _ th eff [] s.threads hinv hop (by simp [Run.live, hinline])
      (by simp [Run.live, Run.apply]) rfl rfl rfl rfl rfl rfl (Or.inl ⟨?_, ?_⟩)
    · simp [Run.waiting, hinline]
    · cases hn : eff.next with
      | none => simp [Run.waiting, Run.apply, hn]
      | some th1 =>
        obtain ⟨_, _, _, _, f1, rfl⟩ := hnext th1 hn
        simp [Run.waiting, Run.apply, hn, Thread.waiting]
  | go pre th post eff hthreads hfree hop =>
    refine Run.inv_threadOp wf s _ th eff (s.inline.toList ++ pre) post hinv hop
      (by simp [Run.live, hthreads]) (by simp [Run.live, Run.apply]) rfl rfl rfl rfl rfl rfl
      (Or.inr rfl)

theorem Run.good_start (wf : Workflow) (w : World) (P Q : WorkflowTemplate → Prop)
    (hP : ∀ t ∈ wf.Workflows, P t) : (Run.start wf w).Good P Q := by
  refine ⟨hP, ?_, ?_⟩
  · intro th hth
    cases hth
  · intro th hth
    cases hth

/-- Every operation of a run keeps the top-level nodes in `P` and the nodes of the goroutines
in `Q`, when the nodes that a node in `P` or `Q` can start are in `Q`. -/
theorem Run.good_step (wf : Workflow) (P Q : WorkflowTemplate → Prop)
    (hPQ : ∀ t c, P t → IsChild c t → Q c) (hQQ : ∀ t c, Q t → IsChild c t → Q c)
    (s s1 : Run) (hstep : RunStep wf s s1) (hinv : s.Inv wf) (hgood : s.Good P Q) :
    s1.Good P Q := by
  cases hstep with
  | add template rest hinline hmain hfull =>
    refine ⟨?_, ?_, hgood.threads⟩
    · intro t ht
      exact hgood.main t (by rw [hmain]; exact List.mem_cons_of_mem _ ht)
    · intro th hth
      simp only [Option.mem_def, Option.some.injEq] at hth
      subst hth
      exact hgood.main template (by rw [hmain]; exact List.mem_cons_self _ _)
  | wait hinline hmain hcurrent => exact ⟨hgood.main, hgood.inline, hgood.threads⟩
  | inline th eff hinline hfree hop =>
    have hsound := hinv.sound th (by simp [Run.live, hinline])
    obtain ⟨hnext, _, hchild, _, _, _⟩ := threadOp_spec wf th s.world eff hop hsound
    have hP := hgood.inline th hinline
    refine ⟨hgood.main, ?_, ?_⟩
    · intro th1 h1
      have h1 : eff.next = some th1 := h1
      rw [(hnext th1 h1).2.1]
      exact hP
    · intro th1 h1
      have h1 : th1 ∈ s.threads ++ eff.go.map Thread.created := h1
      simp only [List.mem_append, List.mem_map] at h1
      rcases h1 with h1 | ⟨c, hc, rfl⟩
      · exact hgood.threads th1 h1
      · exact hPQ _ c hP (hchild c hc)
  | go pre th post eff hthreads hfree hop =>
    have hsound := hinv.sound th (by simp [Run.live, hthreads])
    obtain ⟨hnext, _, hchild, _, _, _⟩ := threadOp_spec wf th s.world eff hop hsound
    have hQ := hgood.threads th (by simp [hthreads])
    refine ⟨hgood.main, hgood.inline, ?_⟩
    intro th1 h1
    have h1 : th1 ∈ pre ++ eff.next.toList ++ post ++ eff.go.map Thread.created := h1
    simp only [List.mem_append, List.mem_map, Option.mem_toList, Option.mem_def] at h1
    rcases h1 with ((h1 | h1) | h1) | ⟨c, hc, rfl⟩
    · exact hgood.threads th1 (by simp [hthreads, h1])
    · rw [(hnext th1 h1).2.1]
      exact hQ
    · exact hgood.threads th1 (by simp [hthreads, h1])
    · exact hQQ _ c hQ (hchild c hc)

/-- Every operation of a run that has not returned takes one item of what the run has left
to do and puts items of lower rank in its place. -/
theorem RunStep.measure_lt (wf : Workflow) (s s1 : Run) (hstep : RunStep wf s s1)
    (hret : s.returned = false) :
    Relation.CutExpand (· < ·) (s1.measure sizeOf) (s.measure sizeOf) := by
  cases hstep with
  | add template rest hinline hmain hfull =>
    refine ⟨{4 * sizeOf template + 2}, 4 * sizeOf template + 3, ?_, ?_⟩
    · intro a ha
      simp only [Multiset.mem_singleton] at ha
      omega
    · simp only [Run.measure, hinline, hmain, hret, Option.toList, List.map_cons, List.map_nil,
        List.sum_cons, List.sum_nil, Thread.measure, ← Multiset.cons_coe,
        ← Multiset.singleton_add]
      abel
  | wait hinline hmain hcurrent =>
    refine ⟨0, 0, ?_, ?_⟩
    · intro a ha
      cases ha
    · simp only [Run.measure, hret, hmain, hinline, Option.toList, List.map_nil, List.sum_nil,
        Bool.false_eq_true, if_false, if_true, add_zero, Multiset.coe_nil]
      abel
  | inline th eff hinline hfree hop =>
    have hcut := threadOp_measure wf th s.world eff hop
    have h1 : (s.apply eff eff.next s.threads).measure sizeOf
        = ((if s.returned then 0 else {0})
            + ((s.main.map (fun template => 4 * sizeOf template + 3) : List Nat) : Multiset Nat)
            + (s.threads.map (Thread.measure sizeOf)).sum)
          + ((eff.next.toList.map (Thread.measure sizeOf)).sum
            + ((eff.go.map Thread.created).map (Thread.measure sizeOf)).sum) := by
      simp only [Run.measure, Run.apply, List.map_append, List.sum_append]
      abel
    have h2 : s.measure sizeOf
        = ((if s.returned then 0 else {0})
            + ((s.main.map (fun template => 4 * sizeOf template + 3) : List Nat) : Multiset Nat)
            + (s.threads.map (Thread.measure sizeOf)).sum)
          + th.measure sizeOf := by
      simp only [Run.measure, hinline, Option.toList, List.map_cons, List.map_nil,
        List.sum_cons, List.sum_nil]
      abel
    rw [h1, h2, Relation.cutExpand_add_left]
    exact hcut
  | go pre th post eff hthreads hfree hop =>
    have hcut := threadOp_measure wf th s.world eff hop
    have h1 : (s.apply eff s.inline (pre ++ eff.next.toList ++ post)).measure sizeOf
        = ((if s.returned then 0 else {0})
            + ((s.main.map (fun template => 4 * sizeOf template + 3) : List Nat) : Multiset Nat)
            + (s.inline.toList.map (Thread.measure sizeOf)).sum
            + (pre.map (Thread.measure sizeOf)).sum + (post.map (Thread.measure sizeOf)).sum)
          + ((eff.next.toList.map (Thread.measure sizeOf)).sum
            + ((eff.go.map Thread.created).map (Thread.measure sizeOf)).sum) := by
      simp only [Run.measure, Run.apply, List.map_append, List.sum_append]
      abel
    have h2 : s.measure sizeOf
        = ((if s.returned then 0 else {0})
            + ((s.main.map (fun template => 4 * sizeOf template + 3) : List Nat) : Multiset Nat)
            + (s.inline.toList.map (Thread.measure sizeOf)).sum
            + (pre.map (Thread.measure sizeOf)).sum + (post.map (Thread.measure sizeOf)).sum)
          + th.measure sizeOf := by
      simp only [Run.measure, hthreads, List.map_append, List.sum_append, List.map_cons,
        List.sum_cons]
      abel
    rw [h1, h2, Relation.cutExpand_add_left]
    exact hcut

theorem pick_none {α : Type} (l : List α) (n : Nat) (h : l[n % l.length]? = none) : l = [] := by
  cases l with
  | nil => rfl
  | cons a rest =>
    rw [List.getElem?_eq_none_iff] at h
    have := Nat.mod_lt n (Nat.succ_pos rest.length)
    simp only [List.length_cons, Nat.succ_eq_add_one] at h this
    omega

theorem pick_some {α : Type} (l : List α) (n : Nat) (a : α) (h : l[n % l.length]? = some a) :
    a ∈ l :=
  List.mem_iff_getElem?.mpr ⟨_, h⟩

theorem enter_error (wf : Workflow) (t : WorkflowTemplate) (w : World) (e : Fail)
    (h : enter wf t w = .error e) : e = .indexOutOfRange := by
  unfold enter at h
  by_cases hm : t.Matchers.length = 0
  · simp only [hm, if_true] at h
    cases hp : plainChecks wf t t.Executers false none w with
    | error e1 =>
      rw [hp] at h
      simp only [Except.error.injEq] at h
      subst h
      exact plainChecks_error _ _ _ _ _ _ _ hp
    | ok r =>
      rw [hp] at h
      cases h
  · simp only [hm, if_false] at h
    cases h

theorem threadOp_error (wf : Workflow) (th : Thread) (w : World) (e : Fail)
    (h : threadOp wf th w = .error e) : ∃ t, th = .created t ∧ enter wf t w = .error e := by
  cases th with
  | created t =>
    simp only [threadOp] at h
    cases he : enter wf t w with
    | error e1 =>
      rw [he] at h
      simp only [Except.error.injEq] at h
      subst h
      exact ⟨t, rfl, he⟩
    | ok r =>
      rw [he] at h
      cases h
  | running f => cases h

/-- An operation of a run panics only where a thread enters `runWorkflowStep` on its node
and the check loop of the plain mode panics. -/
theorem agentOp_error (wf : Workflow) (a : Nat) (s : Run) (e : Fail)
    (h : agentOp wf a s = .error e) :
    ∃ t, .created t ∈ s.live ∧ enter wf t s.world = .error e := by
  cases a with
  | zero =>
    simp only [agentOp, mainOp] at h
    cases hin : s.inline with
    | some th =>
      rw [hin] at h
      simp only at h
      cases hop : threadOp wf th s.world with
      | error e1 =>
        rw [hop] at h
        simp only [Except.error.injEq] at h
        subst h
        obtain ⟨t, rfl, he⟩ := threadOp_error wf th s.world e1 hop
        exact ⟨t, by simp [Run.live, hin], he⟩
      | ok eff => rw [hop] at h; cases h
    | none =>
      rw [hin] at h
      simp only at h
      cases hm : s.main with
      | nil => rw [hm] at h; cases h
      | cons t rest => rw [hm] at h; cases h
  | succ i =>
    simp only [agentOp, goOp] at h
    cases hth : s.threads[i]? with
    | none => rw [hth] at h; cases h
    | some th =>
      rw [hth] at h
      simp only at h
      cases hop : threadOp wf th s.world with
      | error e1 =>
        rw [hop] at h
        simp only [Except.error.injEq] at h
        subst h
        obtain ⟨t, rfl, he⟩ := threadOp_error wf th s.world e1 hop
        exact ⟨t, by simp [Run.live, List.mem_iff_getElem?.mpr ⟨_, hth⟩], he⟩
      | ok eff => rw [hop] at h; cases h

/-- What every operation of a run keeps holds in every state that the run reaches. -/
theorem runOps_reach (wf : Workflow) (sched : Nat → Nat) (I : Run → Prop)
    (hstep : ∀ s s1, I s → s.returned = false → RunStep wf s s1 → I s1) :
    ∀ (fuel t : Nat) (s s1 : Run), I s → runOps wf sched fuel t s = .ok s1 → I s1 := by
  intro fuel
  induction fuel with
  | zero =>
    intro t s s1 hI h
    simp only [runOps, Except.ok.injEq] at h
    subst h
    exact hI
  | succ fuel ih =>
    intro t s s1 hI h
    simp only [runOps] at h
    by_cases hr : s.returned = true
    · simp only [hr, if_true, Except.ok.injEq] at h
      subst h
      exact hI
    · have hr : s.returned = false := by simpa using hr
      simp only [hr, Bool.false_eq_true, if_false] at h
      cases hp : (enabledAgents s)[sched t % (enabledAgents s).length]? with
      | none =>
        rw [hp] at h
        simp only [Except.ok.injEq] at h
        subst h
        exact hI
      | some a =>
        rw [hp] at h
        simp only at h
        cases hop : agentOp wf a s with
        | error e => rw [hop] at h; cases h
        | ok s2 =>
          rw [hop] at h
          simp only at h
          exact ih (t + 1) s2 s1
            (hstep s s2 hI hr (agentOp_step wf a s s2 (pick_some _ _ _ hp) hop)) h

/-- A run panics only in a state that it reaches, where a thread enters `runWorkflowStep`
and the check loop of the plain mode panics. -/
theorem runOps_error (wf : Workflow) (sched : Nat → Nat) (I : Run → Prop)
    (hstep : ∀ s s1, I s → s.returned = false → RunStep wf s s1 → I s1) :
    ∀ (fuel t : Nat) (s : Run) (e : Fail), I s → runOps wf sched fuel t s = .error e →
    ∃ s1 t1, I s1 ∧ .created t1 ∈ s1.live ∧ enter wf t1 s1.world = .error e := by
  intro fuel
  induction fuel with
  | zero =>
    intro t s e hI h
    cases h
  | succ fuel ih =>
    intro t s e hI h
    simp only [runOps] at h
    by_cases hr : s.returned = true
    · simp only [hr, if_true] at h
      cases h
    · have hr : s.returned = false := by simpa using hr
      simp only [hr, Bool.false_eq_true, if_false] at h
      cases hp : (enabledAgents s)[sched t % (enabledAgents s).length]? with
      | none =>
        rw [hp] at h
        cases h
      | some a =>
        rw [hp] at h
        simp only at h
        cases hop : agentOp wf a s with
        | error e1 =>
          rw [hop] at h
          simp only [Except.error.injEq] at h
          subst h
          obtain ⟨t1, hmem, he⟩ := agentOp_error wf a s e1 hop
          exact ⟨s, t1, hI, hmem, he⟩
        | ok s2 =>
          rw [hop] at h
          simp only at h
          exact ih (t + 1) s2 e
            (hstep s s2 hI hr (agentOp_step wf a s s2 (pick_some _ _ _ hp) hop)) h

/-- Every run ends: with enough fuel it panics, or it reaches a state in which `swg.Wait()`
has returned or every thread is blocked. -/
theorem runOps_ends (wf : Workflow) (sched : Nat → Nat) :
    ∀ (m : Multiset Nat) (s : Run) (t : Nat), s.measure sizeOf = m →
    ∃ fuel, (∃ e, runOps wf sched fuel t s = .error e) ∨
      ∃ s1, runOps wf sched fuel t s = .ok s1 ∧
        (s1.returned = true ∨ enabledAgents s1 = []) := by
  intro m
  refine (WellFounded.cutExpand (wellFounded_lt (α := Nat))).induction
    (C := fun m => ∀ (s : Run) (t : Nat), s.measure sizeOf = m →
      ∃ fuel, (∃ e, runOps wf sched fuel t s = .error e) ∨
        ∃ s1, runOps wf sched fuel t s = .ok s1 ∧
          (s1.returned = true ∨ enabledAgents s1 = [])) m ?_
  intro m ih s t hm
  by_cases hr : s.returned = true
  · exact ⟨1, Or.inr ⟨s, by simp [runOps, hr], Or.inl hr⟩⟩
  · cases hp : (enabledAgents s)[sched t % (enabledAgents s).length]? with
    | none => exact ⟨1, Or.inr ⟨s, by simp [runOps, hr, hp], Or.inr (pick_none _ _ hp)⟩⟩
    | some a =>
      cases hop : agentOp wf a s with
      | error e => exact ⟨1, Or.inl ⟨e, by simp [runOps, hr, hp, hop]⟩⟩
      | ok s2 =>
        have hstep := agentOp_step wf a s s2 (pick_some _ _ _ hp) hop
        have hcut := RunStep.measure_lt wf s s2 hstep (by simpa using hr)
        rw [hm] at hcut
        obtain ⟨fuel, hf⟩ := ih _ hcut s2 (t + 1) rfl
        refine ⟨fuel + 1, ?_⟩
        simpa [runOps, hr, hp, hop] using hf

theorem Thread.blocked_false (th : Thread) : th.blocked false = false := by
  cases th with
  | created t => rfl
  | running f =>
    cases htodo : f.todo with
    | nil => simp [Thread.blocked, htodo]
    | cons op rest => cases op <;> simp [Thread.blocked, htodo]

theorem Thread.blocked_barren (th : Thread) (full : Bool) (hs : th.Sound)
    (hb : th.template.Barren) : th.blocked full = false := by
  cases th with
  | created t => rfl
  | running f =>
    cases htodo : f.todo with
    | nil => simp [Thread.blocked, htodo]
    | cons op rest =>
      cases op with
      | spawn c =>
        exfalso
        exact hb c (opsChildren_isChild f hs c (by rw [htodo]; simp [opsChildren]))
      | onResult ev => simp [Thread.blocked, htodo]
      | checked err => simp [Thread.blocked, htodo]

theorem zero_mem_enabledAgents (s : Run) (h : mainEnabled s = true) : 0 ∈ enabledAgents s := by
  simp [enabledAgents, h]

theorem succ_mem_enabledAgents (s : Run) (i : Nat) (h : goEnabled s i = true) :
    i + 1 ∈ enabledAgents s := by
  have hi : i < s.threads.length := by
    unfold goEnabled at h
    by_contra hlt
    rw [List.getElem?_eq_none (by omega)] at h
    cases h
  simp only [enabledAgents, List.mem_append, List.mem_map, List.mem_filter, List.mem_range]
  exact Or.inr ⟨i, ⟨hi, h⟩, rfl⟩

/-- While no goroutine can start a node and the wait group has two slots, some thread is not
blocked as long as `swg.Wait()` has not returned. -/
theorem enabledAgents_ne_nil (wf : Workflow) (P : WorkflowTemplate → Prop) (s : Run)
    (hinv : s.Inv wf) (hgood : s.Good P WorkflowTemplate.Barren) (hsize : 2 ≤ s.size)
    (_hret : s.returned = false) : enabledAgents s ≠ [] := by
  cases hth : s.threads with
  | nil =>
    have hcur := hinv.counter
    simp only [Run.live, hth, List.append_nil] at hcur
    have hfull : s.full = false := by
      simp only [Run.full, decide_eq_false_iff_not]
      cases hin : s.inline with
      | none => rw [hin] at hcur; simp at hcur; omega
      | some th => rw [hin] at hcur; simp at hcur; omega
    have hmain : mainEnabled s = true := by
      unfold mainEnabled
      cases hin : s.inline with
      | some th => simp [hfull, Thread.blocked_false]
      | none =>
        cases hm : s.main with
        | nil =>
          rw [hin] at hcur
          simpa using hcur
        | cons t rest => simp [hfull]
    exact List.ne_nil_of_mem (zero_mem_enabledAgents s hmain)
  | cons th rest =>
    have hmem : th ∈ s.threads := by rw [hth]; exact List.mem_cons_self _ _
    have hgo : goEnabled s 0 = true := by
      unfold goEnabled
      simp only [hth, List.getElem?_cons_zero]
      rw [Thread.blocked_barren th s.full (hinv.sound th (by simp [Run.live, hmem]))
        (hgood.threads th hmem)]
      rfl
    exact List.ne_nil_of_mem (succ_mem_enabledAgents s 0 hgo)

theorem enter_ok (wf : Workflow) (t : WorkflowTemplate) (w : World)
    (h : t.Matchers = [] → t.Subtemplates ≠ [] → ∀ e ∈ t.Executers, e.NonEmptyExtracts) :
    ∃ r, enter wf t w = .ok r := by
  unfold enter
  by_cases hm : t.Matchers.length = 0
  · obtain ⟨r, hr⟩ := plainChecks_ok wf t t.Executers false none w
      (fun hs => h (List.length_eq_zero.mp hm) (List.length_pos.mp hs))
    obtain ⟨fm, me, w1⟩ := r
    simp only [hm, if_true, hr]
    exact ⟨_, rfl⟩
  · simp only [hm, if_false]
    exact ⟨_, rfl⟩

theorem swgSize_templateThreads (wf : Workflow) : 2 ≤ swgSize (templateThreads wf) := by
  unfold swgSize templateThreads
  split <;> split <;> omega

theorem Workflow.hasNode_child (wf : Workflow) (t c : WorkflowTemplate) (ht : wf.HasNode t)
    (hc : IsChild c t) : wf.HasNode c := by
  obtain ⟨top, htop, hreach⟩ := ht
  exact ⟨top, htop, Relation.ReflTransGen.tail hreach hc⟩

theorem Workflow.hasNode_top (wf : Workflow) (t : WorkflowTemplate) (ht : t ∈ wf.Workflows) :
    wf.HasNode t :=
  ⟨t, ht, Relation.ReflTransGen.refl⟩

/-- The size of the wait group stays what `sizedwaitgroup.New` made it. -/
theorem RunStep.size_eq (wf : Workflow) (s s1 : Run) (hstep : RunStep wf s s1) :
    s1.size = s.size := by
  cases hstep <;> rfl

/-- The entered calls are on nodes of the workflow. -/
theorem RunStep.steps_hasNode (wf : Workflow) (s s1 : Run) (hstep : RunStep wf s s1) (hinv : s.Inv wf)
    (hgood : s.Good wf.HasNode wf.HasNode)
    (hsteps : ∀ step ∈ s.steps, wf.HasNode step.template) :
    ∀ step ∈ s1.steps, wf.HasNode step.template := by
  have key : ∀ (th : Thread) (eff : Effect), th ∈ s.live → wf.HasNode th.template →
      threadOp wf th s.world = .ok eff →
      ∀ step ∈ s.steps ++ eff.steps, wf.HasNode step.template := by
    intro th eff hth hnode hop step hstep
    rw [List.mem_append] at hstep
    rcases hstep with hstep | hstep
    · exact hsteps step hstep
    · obtain ⟨_, _, _, hentered, _, _⟩ := threadOp_spec wf th s.world eff hop (hinv.sound th hth)
      have hmem : step.template ∈ eff.steps.map Step.template := List.mem_map_of_mem _ hstep
      rw [hentered] at hmem
      cases th with
      | created t =>
        simp only [Thread.waiting, List.mem_singleton] at hmem
        rw [hmem]
        exact hnode
      | running f => cases hmem
  cases hstep with
  | add template rest hinline hmain hfull => exact hsteps
  | wait hinline hmain hcurrent => exact hsteps
  | inline th eff hinline hfree hop =>
    exact key th eff (by simp [Run.live, hinline]) (hgood.inline th hinline) hop
  | go pre th post eff hthreads hfree hop =>
    exact key th eff (by simp [Run.live, hthreads]) (hgood.threads th (by simp [hthreads])) hop

/-- A run that has ended stays as it is when more fuel is given. -/
theorem runOps_stable (wf : Workflow) (sched : Nat → Nat) :
    ∀ (fuel t : Nat) (s s1 : Run), runOps wf sched fuel t s = .ok s1 →
    (s1.returned = true ∨ enabledAgents s1 = []) →
    ∀ k, runOps wf sched (fuel + k) t s = .ok s1 := by
  intro fuel
  induction fuel with
  | zero =>
    intro t s s1 h hend k
    simp only [runOps, Except.ok.injEq] at h
    subst h
    cases k with
    | zero => rfl
    | succ k =>
      simp only [Nat.zero_add, runOps]
      rcases hend with hr | hen
      · simp [hr]
      · simp [hen]
  | succ fuel ih =>
    intro t s s1 h hend k
    rw [Nat.add_right_comm]
    simp only [runOps] at h ⊢
    by_cases hr : s.returned = true
    · simpa only [hr, if_true] using h
    · have hr : s.returned = false := by simpa using hr
      simp only [hr, Bool.false_eq_true, if_false] at h ⊢
      cases hp : (enabledAgents s)[sched t % (enabledAgents s).length]? with
      | none =>
        rw [hp] at h
        exact h
      | some a =>
        rw [hp] at h
        simp only at h ⊢
        cases hop : agentOp wf a s with
        | error e => rw [hop] at h; cases h
        | ok s2 =>
          rw [hop] at h
          simp only at h ⊢
          exact ih (t + 1) s2 s1 h hend k

/-- A run that has panicked stays so when more fuel is given. -/
theorem runOps_stable_error (wf : Workflow) (sched : Nat → Nat) :
    ∀ (fuel t : Nat) (s : Run) (e : Fail), runOps wf sched fuel t s = .error e →
    ∀ k, runOps wf sched (fuel + k) t s = .error e := by
  intro fuel
  induction fuel with
  | zero =>
    intro t s e h
    cases h
  | succ fuel ih =>
    intro t s e h k
    rw [Nat.add_right_comm]
    simp only [runOps] at h ⊢
    by_cases hr : s.returned = true
    · simp only [hr, if_true] at h
      cases h
    · have hr : s.returned = false := by simpa using hr
      simp only [hr, Bool.false_eq_true, if_false] at h ⊢
      cases hp : (enabledAgents s)[sched t % (enabledAgents s).length]? with
      | none =>
        rw [hp] at h
        cases h
      | some a =>
        rw [hp] at h
        simp only at h ⊢
        cases hop : agentOp wf a s with
        | error e1 =>
          rw [hop] at h
          exact h
        | ok s2 =>
          rw [hop] at h
          simp only at h ⊢
          exact ih (t + 1) s2 e h k

theorem Run.sound_start (wf : Workflow) (w : World) : (Run.start wf w).Sound wf :=
  ⟨Run.inv_start wf w, Run.good_start wf w _ _ (Workflow.hasNode_top wf),
    (fun step hstep => by cases hstep), rfl⟩

theorem Run.sound_step (wf : Workflow) (s s1 : Run) (hs : s.Sound wf)
    (_hret : s.returned = false) (hstep : RunStep wf s s1) : s1.Sound wf := by
  obtain ⟨hinv, hgood, hsteps, hsize⟩ := hs
  exact ⟨Run.inv_step wf s s1 hstep hinv,
    Run.good_step wf _ _ (Workflow.hasNode_child wf) (Workflow.hasNode_child wf) s s1 hstep
      hinv hgood,
    RunStep.steps_hasNode wf s s1 hstep hinv hgood hsteps,
    (RunStep.size_eq wf s s1 hstep).trans hsize⟩

/-- What holds in every state that a run of `executeWorkflow` reaches. -/
theorem executeWorkflowOps_sound (wf : Workflow) (sched : Nat → Nat) (fuel : Nat) (w : World)
    (s : Run) (h : executeWorkflowOps wf sched fuel w = .ok s) : s.Sound wf :=
  runOps_reach wf sched (Run.Sound wf) (Run.sound_step wf) fuel 0 (Run.start wf w) s
    (Run.sound_start wf w) h

/-- Every run of `executeWorkflow` ends, and more fuel does not change how: it panics with
an index out of range, or `swg.Wait()` returns, or every thread is blocked. -/
theorem executeWorkflowOps_ends (wf : Workflow) (sched : Nat → Nat) (w : World) :
    ∃ fuel, (∀ k, executeWorkflowOps wf sched (fuel + k) w = .error .indexOutOfRange) ∨
      ∃ s, (∀ k, executeWorkflowOps wf sched (fuel + k) w = .ok s) ∧
        (s.returned = true ∨ enabledAgents s = []) := by
  obtain ⟨fuel, hf⟩ := runOps_ends wf sched _ (Run.start wf w) 0 rfl
  refine ⟨fuel, ?_⟩
  rcases hf with ⟨e, he⟩ | ⟨s, hs, hend⟩
  · left
    obtain ⟨s1, t1, _, _, herr⟩ := runOps_error wf sched (fun _ => True)
      (fun _ _ _ _ _ => trivial) fuel 0 _ e trivial he
    have := enter_error wf t1 s1.world e herr
    subst this
    exact runOps_stable_error wf sched fuel 0 _ _ he
  · right
    exact ⟨s, runOps_stable wf sched fuel 0 _ s hs hend, hend⟩

/-- A run of `executeWorkflow` returns, under every schedule, when no check of a node of the
workflow streams an extraction with an empty sequence and no node started for a top-level
node starts a node itself. -/
theorem executeWorkflowOps_returns (wf : Workflow) (sched : Nat → Nat) (w : World)
    (hne : wf.NonEmptyExtracts) (hshallow : wf.Shallow) :
    ∃ fuel s, (∀ k, executeWorkflowOps wf sched (fuel + k) w = .ok s) ∧ s.returned = true := by
  have hreach : ∀ (fuel : Nat) (s : Run), executeWorkflowOps wf sched fuel w = .ok s →
      s.Good (fun t => ∀ c, IsChild c t → c.Barren) WorkflowTemplate.Barren := by
    intro fuel s h
    refine runOps_reach wf sched
      (fun s => s.Inv wf ∧ s.Good (fun t => ∀ c, IsChild c t → c.Barren)
        WorkflowTemplate.Barren) ?_ fuel 0 (Run.start wf w) s ?_ h |>.2
    · intro s s1 ⟨hinv, hgood⟩ _ hstep
      exact ⟨Run.inv_step wf s s1 hstep hinv,
        Run.good_step wf _ _ (fun t c ht hc => ht c hc) (fun t c ht hc => absurd hc (ht c))
          s s1 hstep hinv hgood⟩
    · exact ⟨Run.inv_start wf w, Run.good_start wf w _ _ hshallow⟩
  obtain ⟨fuel, hf⟩ := executeWorkflowOps_ends wf sched w
  refine ⟨fuel, ?_⟩
  rcases hf with he | ⟨s, hs, hend⟩
  · exfalso
    obtain ⟨s1, t1, ⟨_, hgood, _, _⟩, hmem, herr⟩ := runOps_error wf sched (Run.Sound wf)
      (Run.sound_step wf) fuel 0 (Run.start wf w) .indexOutOfRange (Run.sound_start wf w) (he 0)
    have hnode : wf.HasNode t1 := by
      simp only [Run.live, List.mem_append, Option.mem_toList, Option.mem_def] at hmem
      rcases hmem with hmem | hmem
      · exact hgood.inline _ hmem
      · exact hgood.threads _ hmem
    obtain ⟨r, hr⟩ := enter_ok wf t1 s1.world (hne t1 hnode)
    rw [hr] at herr
    cases herr
  · refine ⟨s, hs, ?_⟩
    rcases hend with hr | hen
    · exact hr
    · by_contra hr
      obtain ⟨hinv, _, _, hsize⟩ := executeWorkflowOps_sound wf sched _ w s (hs 0)
      exact enabledAgents_ne_nil wf _ s hinv (hreach _ s (hs 0))
        (by rw [hsize]; exact swgSize_templateThreads wf) (by simpa using hr) hen

/-- Where the schedule has no choice, the run is the same under every schedule. -/
theorem runOps_eq_runAlone (wf : Workflow) (sched : Nat → Nat) :
    ∀ (fuel t : Nat) (s : Run) (r : Except Fail Run), runAlone wf fuel s = some r →
    runOps wf sched fuel t s = r := by
  intro fuel
  induction fuel with
  | zero =>
    intro t s r h
    simp only [runAlone, Option.some.injEq] at h
    subst h
    rfl
  | succ fuel ih =>
    intro t s r h
    simp only [runAlone] at h
    simp only [runOps]
    by_cases hr : s.returned = true
    · simp only [hr, if_true, Option.some.injEq] at h ⊢
      exact h
    · have hr : s.returned = false := by simpa using hr
      simp only [hr, Bool.false_eq_true, if_false] at h ⊢
      cases hen : enabledAgents s with
      | nil =>
        rw [hen] at h
        simp only [Option.some.injEq] at h
        subst h
        rfl
      | cons a rest =>
        cases rest with
        | nil =>
          rw [hen] at h
          simp only at h
          simp only [List.length_singleton, Nat.mod_one, List.getElem?_cons_zero]
          cases hop : agentOp wf a s with
          | error e =>
            rw [hop] at h
            simp only [Option.some.injEq] at h
            subst h
            rfl
          | ok s1 =>
            rw [hop] at h
            simp only at h ⊢
            exact ih (t + 1) s1 r h
        | cons b rest =>
          rw [hen] at h
          cases h

theorem executeWorkflow_some (wf : Workflow) (sched : Nat → Nat) (fuel : Nat) (w : World)
    (verdict : Bool) (h : executeWorkflow wf sched fuel w = .ok (some verdict)) :
    ∃ s, executeWorkflowOps wf sched fuel w = .ok s ∧ s.returned = true ∧
      verdict = s.world.results := by
  unfold executeWorkflow at h
  cases hops : executeWorkflowOps wf sched fuel w with
  | error e => rw [hops] at h; cases h
  | ok s =>
    rw [hops] at h
    simp only at h
    by_cases hr : s.returned = true
    · simp only [hr, if_true, Except.ok.injEq, Option.some.injEq] at h
      exact ⟨s, rfl, hr, h.symm⟩
    · have hr : s.returned = false := by simpa using hr
      simp only [hr, Bool.false_eq_true, if_false] at h
      split at h <;> cases h

theorem executeWorkflow_of_returned (wf : Workflow) (sched : Nat → Nat) (fuel : Nat) (w : World)
    (s : Run) (h : executeWorkflowOps wf sched fuel w = .ok s) (hr : s.returned = true) :
    executeWorkflow wf sched fuel w = .ok (some s.world.results) := by
  simp [executeWorkflow, h, hr]

theorem executeWorkflow_of_blocked (wf : Workflow) (sched : Nat → Nat) (fuel : Nat) (w : World)
    (s : Run) (h : executeWorkflowOps wf sched fuel w = .ok s) (hr : s.returned = false)
    (hen : enabledAgents s = []) : executeWorkflow wf sched fuel w = .ok none := by
  simp [executeWorkflow, h, hr, hen]

/-- Every run of `executeWorkflow` ends and has one outcome: a panic with an index out of
range, no return because every thread is blocked, or a verdict. -/
theorem executeWorkflow_ends (wf : Workflow) (sched : Nat → Nat) (w : World) :
    ∃ fuel, (∀ k, executeWorkflow wf sched (fuel + k) w = .error .indexOutOfRange) ∨
      (∀ k, executeWorkflow wf sched (fuel + k) w = .ok none) ∨
      ∃ verdict, ∀ k, executeWorkflow wf sched (fuel + k) w = .ok (some verdict) := by
  obtain ⟨fuel, hf⟩ := executeWorkflowOps_ends wf sched w
  refine ⟨fuel, ?_⟩
  rcases hf with he | ⟨s, hs, hend⟩
  · left
    intro k
    simp [executeWorkflow, he k]
  · by_cases hr : s.returned = true
    · right; right
      exact ⟨s.world.results, fun k => executeWorkflow_of_returned wf sched _ w s (hs k) hr⟩
    · right; left
      intro k
      exact executeWorkflow_of_blocked wf sched _ w s (hs k) (by simpa using hr)
        (hend.resolve_left hr)

/-- Under every schedule the call of `executeWorkflow` returns when no check of a node in
plain mode with subtemplates streams an extraction with an empty sequence and no node
started for a top-level node starts a node itself. -/
theorem executeWorkflow_returns (wf : Workflow) (sched : Nat → Nat) (w : World)
    (hne : wf.NonEmptyExtracts) (hshallow : wf.Shallow) :
    ∃ fuel verdict, ∀ k, executeWorkflow wf sched (fuel + k) w = .ok (some verdict) := by
  obtain ⟨fuel, s, hs, hr⟩ := executeWorkflowOps_returns wf sched w hne hshallow
  exact ⟨fuel, s.world.results, fun k => executeWorkflow_of_returned wf sched _ w s (hs k) hr⟩

/-- On the workflow `workflowNested` every run blocks: the main thread waits in `swg.Add()`
for the second subtemplate of the first top-level node, and the goroutine of the first
subtemplate waits in `swg.Add()` for its own subtemplate; the second top-level node is never
reached. -/
theorem executeWorkflow_nested_blocked (sched : Nat → Nat) (k : Nat) :
    executeWorkflow workflowNested sched (6 + k) (World.start "host") = .ok none ∧
    ∃ s, executeWorkflowOps workflowNested sched (6 + k) (World.start "host") = .ok s ∧
      s.main = [leafMatching] ∧ s.current = 2 ∧ s.size = 2 := by
  have hrun : runAlone workflowNested 6 (Run.start workflowNested (World.start "host"))
      = some (.ok _) := rfl
  have h6 := runOps_eq_runAlone workflowNested sched 6 0 _ _ hrun
  have hk := runOps_stable workflowNested sched 6 0 _ _ h6 (Or.inr rfl) k
  exact ⟨executeWorkflow_of_blocked workflowNested sched _ _ _ hk rfl rfl, _, hk, rfl, rfl, rfl⟩

theorem any_published_iff (steps : List Step) :
    steps.any Step.published = true ↔ ∃ step ∈ steps, step.template.Matchers = [] ∧
      step.template.Subtemplates = [] ∧
      ∃ e ∈ step.template.Executers, (e.Execute step.entry.ctx).1 = true := by
  simp only [List.any_eq_true, Step.published, published, Bool.and_eq_true, decide_eq_true_eq,
    List.length_eq_zero, and_assoc]

theorem workflowTwoNodes_nodes (t : WorkflowTemplate) (h : workflowTwoNodes.HasNode t) :
    t = leafFailing ∨ t = parentMatching ∨ t = leafMatching := by
  obtain ⟨top, htop, hreach⟩ := h
  induction hreach with
  | refl =>
    simp only [workflowTwoNodes, List.mem_cons, List.mem_singleton, List.not_mem_nil,
      or_false] at htop
    rcases htop with h | h
    · exact Or.inl h
    · exact Or.inr (Or.inl h)
  | tail _ hchild ih =>
    rcases ih with h | h | h <;> subst h
    · simp [IsChild, leafFailing, WorkflowTemplate.Subtemplates, WorkflowTemplate.Matchers]
        at hchild
    · simp only [IsChild, parentMatching, WorkflowTemplate.Subtemplates,
        WorkflowTemplate.Matchers, List.mem_singleton, List.not_mem_nil, false_and,
        exists_false, or_false] at hchild
      exact Or.inr (Or.inr hchild)
    · simp [IsChild, leafMatching, WorkflowTemplate.Subtemplates, WorkflowTemplate.Matchers]
        at hchild

theorem workflowTwoNodes_nonEmptyExtracts : workflowTwoNodes.NonEmptyExtracts := by
  intro t ht _ hs e he
  rcases workflowTwoNodes_nodes t ht with h | h | h <;> subst h
  · exact absurd rfl hs
  · simp only [parentMatching, WorkflowTemplate.Executers, List.mem_singleton] at he
    subst he
    intro ctx event hev opResult hop extracts hex kv hkv
    simp only [Executer.fixed, eventWith, List.mem_singleton] at hev
    subst hev
    simp only [Option.some.injEq] at hop
    subst hop
    simp only [Option.some.injEq] at hex
    subst hex
    simp only [List.mem_singleton] at hkv
    subst hkv
    simp
  · exact absurd rfl hs

theorem workflowTwoNodes_shallow : workflowTwoNodes.Shallow := by
  intro top htop c hc d hd
  simp only [workflowTwoNodes, List.mem_cons, List.mem_singleton, List.not_mem_nil,
    or_false] at htop
  rcases htop with h | h <;> subst h
  · simp [IsChild, leafFailing, WorkflowTemplate.Subtemplates, WorkflowTemplate.Matchers] at hc
  · simp only [IsChild, parentMatching, WorkflowTemplate.Subtemplates,
      WorkflowTemplate.Matchers, List.mem_singleton, List.not_mem_nil, false_and,
      exists_false, or_false] at hc
    subst hc
    simp [IsChild, leafMatching, WorkflowTemplate.Subtemplates, WorkflowTemplate.Matchers] at hd

theorem barren_of_leaf (t : WorkflowTemplate) (hm : t.Matchers = []) (hs : t.Subtemplates = []) :
    t.Barren := by
  intro c hc
  simp [IsChild, hm, hs] at hc

/-- A workflow whose nodes all are top-level nodes without matchers and subtemplates: no
node is started, and no callback reads an extraction. -/
theorem leaves_returns (wf : Workflow)
    (h : ∀ t ∈ wf.Workflows, t.Matchers = [] ∧ t.Subtemplates = []) :
    wf.NonEmptyExtracts ∧ wf.Shallow := by
  constructor
  · intro t ht hm hs
    obtain ⟨top, htop, hreach⟩ := ht
    cases hreach with
    | refl => exact absurd (h t htop).2 hs
    | tail hreach hchild =>
      rename_i b
      exfalso
      have hb : b ∈ wf.Workflows := by
        clear hchild
        induction hreach with
        | refl => exact htop
        | tail _ hchild2 ih => exact absurd hchild2 (barren_of_leaf _ (h _ ih).1 (h _ ih).2 _)
      exact barren_of_leaf b (h b hb).1 (h b hb).2 t hchild
  · intro top htop c hc
    exact absurd hc (barren_of_leaf top (h top htop).1 (h top htop).2 c)

/-! ## The two embeddings of `runWorkflowStep` agree -/

theorem runThread_running (wf : Workflow) (fuel : Nat) (f : Frame) (w : World)
    (started : List WorkflowTemplate) :
    runThread wf (fuel + 1) (.running f) w started
      = match (frameOp f w).next with
        | none => .ok (some ((frameOp f w).world, started ++ (frameOp f w).go))
        | some th1 => runThread wf fuel th1 (frameOp f w).world (started ++ (frameOp f w).go) := by
  simp only [runThread, threadOp]

theorem frameOp_spawn (f : Frame) (w : World) (c : WorkflowTemplate) (rest : List Op)
    (h : f.todo = .spawn c :: rest) :
    frameOp f w = ⟨w, some (.running { f with todo := rest, spawned := f.spawned ++ [c] }),
      [c], [], []⟩ := by
  unfold frameOp
  simp only [h]

/-- The statements `swg.Add(); go` of a thread taken alone start their nodes in order. -/
theorem runThread_spawns (wf : Workflow) : ∀ (cs : List WorkflowTemplate) (rest : List Op)
    (f : Frame) (w : World) (started : List WorkflowTemplate),
    f.todo = cs.map Op.spawn ++ rest →
    ∃ f1, f1.template = f.template ∧ f1.mainErr = f.mainErr ∧ f1.executers = f.executers ∧
      f1.todo = rest ∧
      ∀ fuel, runThread wf (cs.length + fuel) (.running f) w started
        = runThread wf fuel (.running f1) w (started ++ cs) := by
  intro cs
  induction cs with
  | nil =>
    intro rest f w started h
    exact ⟨f, rfl, rfl, rfl, by simpa using h, fun fuel => by simp⟩
  | cons c cs ih =>
    intro rest f w started h
    have hf : f.todo = .spawn c :: (cs.map Op.spawn ++ rest) := by simpa using h
    obtain ⟨f1, h1, h2, h3, h4, h5⟩ := ih rest
      { f with todo := cs.map Op.spawn ++ rest, spawned := f.spawned ++ [c] } w
      (started ++ [c]) rfl
    refine ⟨f1, h1, h2, h3, h4, ?_⟩
    intro fuel
    have : (c :: cs).length + fuel = (cs.length + fuel) + 1 := by simp; omega
    rw [this, runThread_running, frameOp_spawn f w c _ hf]
    simp only
    rw [h5 fuel]
    simp

theorem World.withStarted_nil (w : World) : w.withStarted [] = w := by
  cases w
  simp [World.withStarted]

theorem setExtracts_withStarted : ∀ (extracts : StringSliceMap) (w : World)
    (started : List WorkflowTemplate),
    setExtracts extracts (w.withStarted started) = (setExtracts extracts w).withStarted started := by
  intro extracts
  induction extracts with
  | nil => intro w started; rfl
  | cons kv rest ih =>
    intro w started
    obtain ⟨k, v⟩ := kv
    simp only [setExtracts]
    exact ih (w.Set k (.strs v)) started

theorem goAll_withStarted : ∀ (cs : List WorkflowTemplate) (w : World)
    (started : List WorkflowTemplate),
    goAll cs (w.withStarted started) = w.withStarted (started ++ cs) := by
  intro cs
  induction cs with
  | nil => intro w started; simp [goAll]
  | cons c cs ih =>
    intro w started
    simp only [goAll]
    have : (w.withStarted started).Go c = w.withStarted (started ++ [c]) := by
      simp [World.Go, World.withStarted]
    rw [this, ih]
    simp

theorem spawnOps_eq_map (opResult : OperatorsResult) : ∀ ms : List Matcher,
    spawnOps opResult ms
      = ((ms.filter (fun matcher => matcher.Match opResult)).flatMap Matcher.Subtemplates).map
        Op.spawn := by
  intro ms
  induction ms with
  | nil => rfl
  | cons m rest ih =>
    unfold spawnOps
    by_cases hm : m.Match opResult = true
    · simp [hm, ih, List.filter_cons]
    · simp [hm, ih, List.filter_cons]

theorem scheduleMatchers_withStarted (opResult : OperatorsResult) : ∀ (ms : List Matcher)
    (w : World) (started : List WorkflowTemplate),
    scheduleMatchers opResult ms (w.withStarted started)
      = w.withStarted (started
        ++ (ms.filter (fun matcher => matcher.Match opResult)).flatMap Matcher.Subtemplates) := by
  intro ms
  induction ms with
  | nil => intro w started; simp [scheduleMatchers]
  | cons m rest ih =>
    intro w started
    unfold scheduleMatchers
    by_cases hm : m.Match opResult = true
    · simp [hm, goAll_withStarted, ih, List.filter_cons]
    · simp [hm, ih, List.filter_cons]

/-- The callback of the matcher-gated mode, taken alone as operations of a thread, does what
`matcherOnResult` does. -/
theorem runThread_onResult (wf : Workflow) (f : Frame) (w : World)
    (started : List WorkflowTemplate) (event : InternalWrappedEvent) (rest : List Op)
    (h : f.todo = .onResult event :: rest) :
    ∃ k f1 w1, f1.template = f.template ∧ f1.mainErr = f.mainErr ∧
      f1.executers = f.executers ∧ f1.todo = rest ∧
      matcherOnResult f.template event (w.withStarted started)
        = w1.withStarted (started ++ matcherChildren f.template event) ∧
      ∀ fuel, runThread wf (k + fuel) (.running f) w started
        = runThread wf fuel (.running f1) w1 (started ++ matcherChildren f.template event) := by
  cases hop : event.OperatorsResult with
  | none =>
    refine ⟨1, { f with todo := rest }, w, rfl, rfl, rfl, rfl, ?_, ?_⟩
    · simp [matcherOnResult, matcherChildren, hop]
    · intro fuel
      rw [Nat.add_comm, runThread_running]
      have : frameOp f w = ⟨w, some (.running { f with todo := rest }), [], [], []⟩ := by
        unfold frameOp
        simp only [h, hop]
      rw [this]
      simp [matcherChildren, hop]
  | some opResult =>
    obtain ⟨f1, h1, h2, h3, h4, h5⟩ := runThread_spawns wf
      ((f.template.Matchers.filter (fun matcher => matcher.Match opResult)).flatMap
        Matcher.Subtemplates) rest
      { f with todo := spawnOps opResult f.template.Matchers ++ rest }
      (storeExtracts opResult w) started (by simp [spawnOps_eq_map])
    refine ⟨1 + ((f.template.Matchers.filter (fun matcher => matcher.Match opResult)).flatMap
        Matcher.Subtemplates).length, f1, storeExtracts opResult w, h1, h2, h3, h4, ?_, ?_⟩
    · simp only [matcherOnResult, matcherChildren, hop, storeExtracts]
      cases hex : opResult.Extracts with
      | none => simp [scheduleMatchers_withStarted]
      | some extracts => simp [scheduleMatchers_withStarted, setExtracts_withStarted]
    · intro fuel
      have hk : 1 + ((f.template.Matchers.filter
          (fun matcher => matcher.Match opResult)).flatMap Matcher.Subtemplates).length + fuel
          = (((f.template.Matchers.filter
            (fun matcher => matcher.Match opResult)).flatMap Matcher.Subtemplates).length
            + fuel) + 1 := by omega
      rw [hk, runThread_running]
      have : frameOp f w = ⟨storeExtracts opResult w,
          some (.running { f with todo := spawnOps opResult f.template.Matchers ++ rest }),
          [], [], []⟩ := by
        unfold frameOp
        simp only [h, hop, storeExtracts]
      rw [this]
      simp only [List.append_nil]
      rw [h5 fuel]
      simp [matcherChildren, hop]

/-- The callbacks of one streaming call, taken alone as operations of a thread, do what
`streamMatcher` does. -/
theorem runThread_events (wf : Workflow) : ∀ (events : List InternalWrappedEvent) (f : Frame)
    (w : World) (started : List WorkflowTemplate) (rest : List Op),
    f.todo = events.map Op.onResult ++ rest →
    ∃ k f1 w1, f1.template = f.template ∧ f1.mainErr = f.mainErr ∧
      f1.executers = f.executers ∧ f1.todo = rest ∧
      streamMatcher f.template events (w.withStarted started)
        = w1.withStarted (started ++ events.flatMap (matcherChildren f.template)) ∧
      ∀ fuel, runThread wf (k + fuel) (.running f) w started
        = runThread wf fuel (.running f1) w1
          (started ++ events.flatMap (matcherChildren f.template)) := by
  intro events
  induction events with
  | nil =>
    intro f w started rest h
    exact ⟨0, f, w, rfl, rfl, rfl, by simpa using h, by simp [streamMatcher],
      fun fuel => by simp⟩
  | cons ev events ih =>
    intro f w started rest h
    have hf : f.todo = .onResult ev :: (events.map Op.onResult ++ rest) := by simpa using h
    obtain ⟨k1, f1, w1, a1, a2, a3, a4, a5, a6⟩ := runThread_onResult wf f w started ev _ hf
    obtain ⟨k2, f2, w2, b1, b2, b3, b4, b5, b6⟩ := ih f1 w1
      (started ++ matcherChildren f.template ev) rest a4
    rw [a1] at b5 b6
    refine ⟨k1 + k2, f2, w2, b1.trans a1, b2.trans a2, b3.trans a3, b4, ?_, ?_⟩
    · simp only [streamMatcher, a5]
      rw [b5]
      simp
    · intro fuel
      rw [Nat.add_assoc, a6 (k2 + fuel), b6 fuel]
      simp

/-- One check of the matcher-gated mode, taken alone as operations of a thread, does what
`matcherCheck` does. -/
theorem runThread_check (wf : Workflow) (f : Frame) (w : World)
    (started : List WorkflowTemplate) (e : Executer) (es : List Executer)
    (htodo : f.todo = []) (hexec : f.executers = e :: es) :
    ∃ k f1 w1 children, f1.template = f.template ∧
      f1.mainErr = (matcherCheck f.template e f.mainErr (w.withStarted started)).1 ∧
      f1.executers = es ∧ f1.todo = [] ∧
      (matcherCheck f.template e f.mainErr (w.withStarted started)).2
        = w1.withStarted (started ++ children) ∧
      ∀ fuel, runThread wf (k + fuel) (.running f) w started
        = runThread wf fuel (.running f1) w1 (started ++ children) := by
  have hop : frameOp f w = ⟨(w.AddToTotal e.Requests).ExecuteWithResults e,
      some (.running { f with
        executers := es
        todo := (e.ExecuteWithResults (w.AddToTotal e.Requests).ctx).1.map Op.onResult
          ++ [.checked (e.ExecuteWithResults (w.AddToTotal e.Requests).ctx).2]
        calls := f.calls ++ [.streaming e (e.ExecuteWithResults (w.AddToTotal e.Requests).ctx).1
          (e.ExecuteWithResults (w.AddToTotal e.Requests).ctx).2] }), [], [], []⟩ := by
    unfold frameOp
    simp only [htodo, hexec]
  obtain ⟨k, f1, w1, a1, a2, a3, a4, a5, a6⟩ := runThread_events wf
    (e.ExecuteWithResults (w.AddToTotal e.Requests).ctx).1
    { f with
      executers := es
      todo := (e.ExecuteWithResults (w.AddToTotal e.Requests).ctx).1.map Op.onResult
        ++ [.checked (e.ExecuteWithResults (w.AddToTotal e.Requests).ctx).2]
      calls := f.calls ++ [.streaming e (e.ExecuteWithResults (w.AddToTotal e.Requests).ctx).1
        (e.ExecuteWithResults (w.AddToTotal e.Requests).ctx).2] }
    ((w.AddToTotal e.Requests).ExecuteWithResults e) started
    [.checked (e.ExecuteWithResults (w.AddToTotal e.Requests).ctx).2] rfl
  have a1 : f1.template = f.template := a1
  have a2 : f1.mainErr = f.mainErr := a2
  have a3 : f1.executers = es := a3
  have a5 : streamMatcher f.template (e.ExecuteWithResults (w.AddToTotal e.Requests).ctx).1
      (((w.AddToTotal e.Requests).ExecuteWithResults e).withStarted started)
      = w1.withStarted (started
        ++ (e.ExecuteWithResults (w.AddToTotal e.Requests).ctx).1.flatMap
          (matcherChildren f.template)) := a5
  have a6 : ∀ fuel, runThread wf (k + fuel) _ _ started
      = runThread wf fuel (.running f1) w1 (started
        ++ (e.ExecuteWithResults (w.AddToTotal e.Requests).ctx).1.flatMap
          (matcherChildren f.template)) := a6
  have hbig : ((w.withStarted started).AddToTotal e.Requests).ExecuteWithResults e
      = ((w.AddToTotal e.Requests).ExecuteWithResults e).withStarted started := rfl
  have hctx : ((w.withStarted started).AddToTotal e.Requests).ctx
      = (w.AddToTotal e.Requests).ctx := rfl
  have hstart : ∀ fuel, runThread wf (1 + k + (1 + fuel)) (.running f) w started
      = runThread wf (1 + fuel) (.running f1) w1 (started
        ++ (e.ExecuteWithResults (w.AddToTotal e.Requests).ctx).1.flatMap
          (matcherChildren f.template)) := by
    intro fuel
    have hk : 1 + k + (1 + fuel) = (k + (1 + fuel)) + 1 := by omega
    rw [hk, runThread_running, hop]
    simp only [List.append_nil]
    exact a6 (1 + fuel)
  cases herr : (e.ExecuteWithResults (w.AddToTotal e.Requests).ctx).2 with
  | none =>
    rw [herr] at a4
    refine ⟨1 + k + 1, { f1 with todo := [] }, w1,
      ((e.ExecuteWithResults (w.AddToTotal e.Requests).ctx).1.flatMap
        (matcherChildren f.template)), a1, ?_, a3, rfl, ?_, ?_⟩
    · simp only [matcherCheck, hctx, herr]
      exact a2
    · simp only [matcherCheck, hctx, herr, hbig]
      exact a5
    · intro fuel
      rw [Nat.add_assoc, hstart fuel, Nat.add_comm 1 fuel, runThread_running]
      have : frameOp f1 w1 = ⟨w1, some (.running { f1 with todo := [] }), [], [], []⟩ := by
        unfold frameOp
        simp only [a4]
      rw [this]
      simp
  | some err =>
    rw [herr] at a4
    by_cases hone : f.template.Executers.length = 1
    · refine ⟨1 + k + 1, { f1 with todo := [], mainErr := some err }, w1,
      ((e.ExecuteWithResults (w.AddToTotal e.Requests).ctx).1.flatMap
        (matcherChildren f.template)), a1, ?_, a3, rfl, ?_, ?_⟩
      · simp only [matcherCheck, hctx, herr, hone, if_true]
      · simp only [matcherCheck, hctx, herr, hbig, hone, if_true]
        exact a5
      · intro fuel
        rw [Nat.add_assoc, hstart fuel, Nat.add_comm 1 fuel, runThread_running]
        have : frameOp f1 w1
            = ⟨w1, some (.running { f1 with todo := [], mainErr := some err }), [], [], []⟩ := by
          unfold frameOp
          simp only [a4, a1, hone, if_true]
        rw [this]
        simp
    · refine ⟨1 + k + 1, { f1 with todo := [] }, w1.Warning f.template.Template err,
      ((e.ExecuteWithResults (w.AddToTotal e.Requests).ctx).1.flatMap
        (matcherChildren f.template)), a1, ?_, a3, rfl, ?_, ?_⟩
      · simp only [matcherCheck, hctx, herr, hone, if_false]
        exact a2
      · simp only [matcherCheck, hctx, herr, hbig, hone, if_false]
        rw [a5]
        rfl
      · intro fuel
        rw [Nat.add_assoc, hstart fuel, Nat.add_comm 1 fuel, runThread_running]
        have : frameOp f1 w1 = ⟨w1.Warning f.template.Template err,
            some (.running { f1 with todo := [] }), [], [], []⟩ := by
          unfold frameOp
          simp only [a4, a1, hone, if_false]
        rw [this]
        simp

/-- The check loop of the matcher-gated mode, taken alone as operations of a thread, does
what `matcherChecks` does. -/
theorem runThread_checks (wf : Workflow) : ∀ (es : List Executer) (f : Frame) (w : World)
    (started : List WorkflowTemplate), f.todo = [] → f.executers = es →
    ∃ k f1 w1 children, f1.template = f.template ∧
      f1.mainErr = (matcherChecks f.template es f.mainErr (w.withStarted started)).1 ∧
      f1.executers = [] ∧ f1.todo = [] ∧
      (matcherChecks f.template es f.mainErr (w.withStarted started)).2
        = w1.withStarted (started ++ children) ∧
      ∀ fuel, runThread wf (k + fuel) (.running f) w started
        = runThread wf fuel (.running f1) w1 (started ++ children) := by
  intro es
  induction es with
  | nil =>
    intro f w started htodo hexec
    exact ⟨0, f, w, [], rfl, rfl, hexec, htodo, by simp [matcherChecks],
      fun fuel => by simp⟩
  | cons e es ih =>
    intro f w started htodo hexec
    obtain ⟨k1, f1, w1, c1, a1, a2, a3, a4, a5, a6⟩ :=
      runThread_check wf f w started e es htodo hexec
    obtain ⟨k2, f2, w2, c2, b1, b2, b3, b4, b5, b6⟩ := ih f1 w1 (started ++ c1) a4 a3
    refine ⟨k1 + k2, f2, w2, c1 ++ c2, b1.trans a1, ?_, b3, b4, ?_, ?_⟩
    · simp only [matcherChecks]
      rw [b2, a1, a2, a5]
    · simp only [matcherChecks]
      rw [a5, ← a2, ← a1, b5]
      simp
    · intro fuel
      rw [Nat.add_assoc, a6 (k2 + fuel), b6 fuel]
      simp

theorem runThread_done (wf : Workflow) (f : Frame) (w : World)
    (started : List WorkflowTemplate) (htodo : f.todo = []) (hexec : f.executers = [])
    (fuel : Nat) :
    runThread wf (fuel + 1) (.running f) w started
      = .ok (some (warned f.mainErr f.template w, started)) := by
  rw [runThread_running]
  have : frameOp f w = ⟨warned f.mainErr f.template w, none, [], [], [f]⟩ := by
    unfold frameOp warned
    simp only [htodo, hexec]
  rw [this]
  simp

theorem runThread_created (wf : Workflow) (fuel : Nat) (t : WorkflowTemplate) (w w1 : World)
    (f : Frame) (h : enter wf t w = .ok (w1, f)) :
    runThread wf (fuel + 1) (.created t) w [] = runThread wf fuel (.running f) w1 [] := by
  simp only [runThread, threadOp, h, List.append_nil]

theorem World.compareAndSwap_false_false (w : World) : w.CompareAndSwap false false = w := by
  cases w
  simp [World.CompareAndSwap, compareAndSwap_false]

/-- The two embeddings of `runWorkflowStep` agree: the operations of a thread on a node,
taken alone and without regard to the limit of the wait group, panic exactly if the call of
`runWorkflowStep` (with the warning for a returned error) panics, and else end in the world
that the call returns, the goroutines started by the thread being, in order, the ones that
the call has appended to `pending`. -/
theorem runThread_eq_runTask (wf : Workflow) (t : WorkflowTemplate) (w : World) :
    (∀ e, runTask wf t w = .error e → ∀ k, runThread wf (1 + k) (.created t) w [] = .error e) ∧
    (∀ w1, runTask wf t w = .ok w1 → ∃ fuel w2 started,
      (∀ k, runThread wf (fuel + k) (.created t) w [] = .ok (some (w2, started))) ∧
      w1 = w2.withStarted started) := by
  by_cases hm : t.Matchers.length = 0
  · have hm1 : ¬ t.Matchers.length > 0 := by omega
    cases hp : plainChecks wf t t.Executers false none w with
    | error e0 =>
      have hstep : runWorkflowStep wf t w = .error e0 := by
        unfold runWorkflowStep
        simp only [hm, if_true, hp]
      have henter : enter wf t w = .error e0 := by
        unfold enter
        simp only [hm, if_true, hp]
      constructor
      · intro e he k
        simp only [runTask, hstep, Except.error.injEq] at he
        subst he
        rw [Nat.add_comm]
        simp only [runThread, threadOp, henter]
      · intro w1 h1
        simp only [runTask, hstep] at h1
        cases h1
    | ok r =>
      obtain ⟨fm, me, wA⟩ := r
      have henter : enter wf t w = .ok
          ((if t.Subtemplates.length = 0 then wA.CompareAndSwap false fm else wA),
            { template := t, mainErr := me, executers := [],
              todo := if t.Subtemplates.length > 0 ∧ fm = true
                then t.Subtemplates.map Op.spawn else [],
              calls := wA.calls.drop w.calls.length, spawned := [] }) := by
        unfold enter
        simp [hm, hp]
      have hstep : runWorkflowStep wf t w = .ok (me,
          if t.Subtemplates.length > 0 ∧ fm = true
          then goAll t.Subtemplates
            (if t.Subtemplates.length = 0 then wA.CompareAndSwap false fm else wA)
          else (if t.Subtemplates.length = 0 then wA.CompareAndSwap false fm else wA)) := by
        unfold runWorkflowStep
        by_cases hc : t.Subtemplates.length > 0 ∧ fm = true
        · simp [hm, hp, hc]
        · simp [hm, hp, hc]
      constructor
      · intro e he
        simp only [runTask, hstep] at he
        cases me <;> cases he
      · intro w1 h1
        obtain ⟨f1, a1, a2, a3, a4, a5⟩ := runThread_spawns wf
          (if t.Subtemplates.length > 0 ∧ fm = true then t.Subtemplates else []) []
          { template := t, mainErr := me, executers := [],
            todo := if t.Subtemplates.length > 0 ∧ fm = true
              then t.Subtemplates.map Op.spawn else [],
            calls := wA.calls.drop w.calls.length, spawned := [] }
          (if t.Subtemplates.length = 0 then wA.CompareAndSwap false fm else wA) []
          (by split <;> simp)
        have a1 : f1.template = t := a1
        have a2 : f1.mainErr = me := a2
        have a3 : f1.executers = [] := a3
        refine ⟨1 + (if t.Subtemplates.length > 0 ∧ fm = true then t.Subtemplates else []).length
          + 1,
          warned f1.mainErr f1.template
            (if t.Subtemplates.length = 0 then wA.CompareAndSwap false fm else wA),
          [] ++ (if t.Subtemplates.length > 0 ∧ fm = true then t.Subtemplates else []), ?_, ?_⟩
        · intro k
          have hk : 1 + (if t.Subtemplates.length > 0 ∧ fm = true
              then t.Subtemplates else []).length + 1 + k
              = ((if t.Subtemplates.length > 0 ∧ fm = true
                then t.Subtemplates else []).length + (k + 1)) + 1 := by omega
          rw [hk, runThread_created wf _ t w _ _ henter, a5 (k + 1),
            runThread_done wf f1 _ _ a4 a3 k]
        · simp only [runTask, hstep] at h1
          rw [a1, a2, List.nil_append]
          have hgo : ∀ wC : World, (if t.Subtemplates.length > 0 ∧ fm = true
              then goAll t.Subtemplates wC else wC)
              = wC.withStarted (if t.Subtemplates.length > 0 ∧ fm = true
                then t.Subtemplates else []) := by
            intro wC
            split
            · have := goAll_withStarted t.Subtemplates wC []
              rw [World.withStarted_nil, List.nil_append] at this
              exact this
            · exact (World.withStarted_nil wC).symm
          rw [hgo] at h1
          cases me with
          | none =>
            simp only [Except.ok.injEq] at h1
            rw [← h1]
            rfl
          | some err =>
            simp only [Except.ok.injEq] at h1
            rw [← h1]
            rfl
  · have hm1 : t.Matchers.length > 0 := Nat.pos_of_ne_zero hm
    have hstep := runWorkflowStep_matcher_ok wf t w hm1
    have hcas : (if t.Subtemplates.length = 0 then w.CompareAndSwap false false else w) = w := by
      split
      · exact World.compareAndSwap_false_false w
      · rfl
    have henter : enter wf t w = .ok (w,
        { template := t, mainErr := none, executers := t.Executers, todo := [],
          calls := w.calls.drop w.calls.length, spawned := [] }) := by
      unfold enter
      simp only [hm, if_false, hm1, if_true, hcas]
    cases hmc : matcherChecks t t.Executers none w with
    | mk me wM =>
      rw [hmc] at hstep
      constructor
      · intro e he
        simp only [runTask, hstep] at he
        cases me <;> cases he
      · intro w1 h1
        obtain ⟨k1, f1, wB, children, a1, a2, a3, a4, a5, a6⟩ := runThread_checks wf t.Executers
          { template := t, mainErr := none, executers := t.Executers, todo := [],
            calls := w.calls.drop w.calls.length, spawned := [] } w [] rfl rfl
        have a1 : f1.template = t := a1
        have a2 : f1.mainErr = me := by
          have := a2
          rw [World.withStarted_nil] at this
          rw [this]
          show (matcherChecks t t.Executers none w).1 = me
          rw [hmc]
        have a5 : wM = wB.withStarted children := by
          have := a5
          rw [World.withStarted_nil, List.nil_append] at this
          rw [← this]
          show wM = (matcherChecks t t.Executers none w).2
          rw [hmc]
        refine ⟨1 + k1 + 1, warned f1.mainErr f1.template wB, [] ++ children, ?_, ?_⟩
        · intro k
          have hk : 1 + k1 + 1 + k = (k1 + (k + 1)) + 1 := by omega
          rw [hk, runThread_created wf _ t w _ _ henter, a6 (k + 1),
            runThread_done wf f1 _ _ a4 a3 k]
        · simp only [runTask, hstep] at h1
          rw [a1, a2, List.nil_append]
          cases me with
          | none =>
            simp only [Except.ok.injEq] at h1
            rw [← h1, a5]
            rfl
          | some err =>
            simp only [Except.ok.injEq] at h1
            rw [← h1, a5]
            rfl

/-! ## Claims -/

/-- C1: in plain streaming mode, a result with a non-nil outcome whose extraction map has
the single entry `k -> v` with `v` non-empty makes the callback return normally, and
afterwards the variable store maps `k` to the scalar `v[0]` when `len(v) = 1`; when
`len(v) >= 2` it maps `k` to the whole sequence `v` and `k` followed by the decimal
rendering of `i` to `v[i]` for every index `i < len(v)`; every other key is unchanged. -/
theorem plainOnResult_single_entry (result : InternalWrappedEvent) (opResult : OperatorsResult)
    (k : String) (v : List String) (firstMatched : Bool) (w : World)
    (hres : result.OperatorsResult = some opResult)
    (hext : opResult.Extracts = some [(k, v)]) (hv : v ≠ []) :
    ∃ fm w1, plainOnResult result firstMatched w = .ok (fm, w1) ∧
      (v.length = 1 →
        w1.ctx.Input.args k = some (.str (v.head hv)) ∧
        ∀ key, key ≠ k → w1.ctx.Input.args key = w.ctx.Input.args key) ∧
      (2 ≤ v.length →
        w1.ctx.Input.args k = some (.strs v) ∧
        (∀ (i : Nat) (hi : i < v.length),
          w1.ctx.Input.args (k ++ toString i) = some (.str v[i])) ∧
        ∀ key, key ≠ k → (∀ i, i < v.length → key ≠ k ++ toString i) →
          w1.ctx.Input.args key = w.ctx.Input.args key) := by
  by_cases h1 : v.length = 0 ∨ v.length = 1
  · obtain ⟨x, rfl⟩ : ∃ x, v = [x] := by
      match v, hv, h1 with
      | [x], _, _ => exact ⟨x, rfl⟩
      | _ :: _ :: _, _, h => simp at h
    refine ⟨if result.Results.length > 0 then true else firstMatched, w.Set k (.str x), ?_, ?_, ?_⟩
    · simp [plainOnResult, hres, hext, normalizeExtracts, normalizeExtract]
    · intro _
      refine ⟨by simp, ?_⟩
      intro key hkey
      simp [hkey]
    · intro h2
      simp at h2
  · have hlen : 2 ≤ v.length := by omega
    refine ⟨if result.Results.length > 0 then true else firstMatched,
      (setIndexed k 0 v w).Set k (.strs v), ?_, ?_, ?_⟩
    · have h1n : ¬ (v = [] ∨ v.length = 1) := by simpa using h1
      simp [plainOnResult, hres, hext, normalizeExtracts, normalizeExtract, h1n]
    · intro h; omega
    · intro _
      refine ⟨by simp, ?_, ?_⟩
      · intro i hi
        have hne : k ++ toString i ≠ k := normalizedKIdx_ne k i
        have := setIndexed_args_idx k v 0 w i hi
        simp only [Nat.zero_add, normalizedKIdx] at this
        simp [hne, this]
      · intro key hkey hidx
        have := setIndexed_args_other k v 0 w key (by
          intro i hi
          simpa [normalizedKIdx] using hidx i hi)
        simp [hkey, this]

/-- Witness of C1: the extraction `ip -> ["10.0.0.1", "10.0.0.2"]` is stored as
`ip -> [both]`, `ip0 -> "10.0.0.1"`, `ip1 -> "10.0.0.2"`. -/
theorem plainOnResult_single_entry_witness :
    ∃ fm w1, plainOnResult
        { OperatorsResult := some { Matches := [], Extracts := some [("ip", ["10.0.0.1", "10.0.0.2"])] },
          Results := [] } false (World.start "t") = .ok (fm, w1) ∧
      w1.ctx.Input.args "ip" = some (.strs ["10.0.0.1", "10.0.0.2"]) ∧
      w1.ctx.Input.args "ip0" = some (.str "10.0.0.1") ∧
      w1.ctx.Input.args "ip1" = some (.str "10.0.0.2") ∧
      w1.ctx.Input.args "ip2" = none := by
  obtain ⟨fm, w1, hrun, _, h2⟩ := plainOnResult_single_entry
    { OperatorsResult := some { Matches := [], Extracts := some [("ip", ["10.0.0.1", "10.0.0.2"])] },
      Results := [] }
    { Matches := [], Extracts := some [("ip", ["10.0.0.1", "10.0.0.2"])] }
    "ip" ["10.0.0.1", "10.0.0.2"] false (World.start "t") rfl rfl (by decide)
  obtain ⟨hk, hidx, hother⟩ := h2 (by decide)
  refine ⟨fm, w1, hrun, hk, hidx 0 (by decide), hidx 1 (by decide), ?_⟩
  rw [hother "ip2" (by decide) (by
    intro i hi
    have hi2 : i < 2 := hi
    interval_cases i <;> decide)]
  rfl

/-- C2 (the code fails here): in plain streaming mode, a result with a non-nil outcome
whose extraction map contains an entry `k -> v` with `len(v) = 0` makes the callback stop
with the index-out-of-range panic of `v[0]`; nothing is stored. -/
theorem plainOnResult_empty_sequence_panics (result : InternalWrappedEvent)
    (opResult : OperatorsResult) (extracts : StringSliceMap) (k : String)
    (firstMatched : Bool) (w : World)
    (hres : result.OperatorsResult = some opResult)
    (hext : opResult.Extracts = some extracts) (hk : (k, []) ∈ extracts) :
    plainOnResult result firstMatched w = .error .indexOutOfRange := by
  simp [plainOnResult, hres, hext, normalizeExtracts_mem_empty extracts k w hk]

/-- Witness of C2: the extraction `{"ip": []}` makes the plain callback panic. -/
theorem plainOnResult_empty_sequence_panics_witness :
    plainOnResult (eventWith [("ip", [])]) false (World.start "t") = .error .indexOutOfRange :=
  plainOnResult_empty_sequence_panics (eventWith [("ip", [])])
    { Matches := [], Extracts := some [("ip", [])] } [("ip", [])] "ip" false (World.start "t")
    rfl rfl (by simp)

/-- C3 (the code differs here): for every node, world, key `k` and value `x`, the
matcher-gated callback stores the extraction `k -> [x]` as the one-element sequence `[x]`
under `k`, while the plain callback stores the scalar `x` under `k`. -/
theorem matcherOnResult_stores_sequence (template : WorkflowTemplate) (w : World)
    (k x : String) :
    (matcherOnResult template (eventWith [(k, [x])]) w).ctx.Input.args k = some (.strs [x]) ∧
    ∃ fm w1, plainOnResult (eventWith [(k, [x])]) false w = .ok (fm, w1) ∧
      w1.ctx.Input.args k = some (.str x) := by
  constructor
  · simp [matcherOnResult, eventWith, scheduleMatchers_ctx, setExtracts]
  · exact ⟨true, w.Set k (.str x), by
      simp [plainOnResult, eventWith, normalizeExtracts, normalizeExtract], by simp⟩

/-- C4: per-node error policy. Whenever `runWorkflowStep` returns, in plain and in
matcher-gated mode, it has called every check of the node once, in order (whatever earlier
checks returned); it returns an error exactly when the node has a single check and that
check returned an error, and then it returns that error; a node with two or more checks
returns no error. -/
theorem runWorkflowStep_error_policy (wf : Workflow) (template : WorkflowTemplate) (w : World)
    (err : Option Err) (w1 : World) (h : runWorkflowStep wf template w = .ok (err, w1)) :
    ∃ calls, w1.calls = w.calls ++ calls ∧
      calls.map Call.executer = template.Executers ∧
      w1.progress = w.progress ++ template.Executers.map Executer.Requests ∧
      (∀ e, err = some e ↔ ∃ c, calls = [c] ∧ c.err = some e) ∧
      (∀ executer, template.Executers = [executer] →
        err = (callOf (decide (template.Matchers.length > 0 ∨ template.Subtemplates.length > 0))
          executer w.ctx).err) ∧
      (2 ≤ template.Executers.length → err = none) := by
  obtain ⟨calls, args, hmap, _, hhead, _, _, herr, rfl⟩ := runWorkflowStep_spec wf template w err w1 h
  have hlen : calls.length = template.Executers.length := by rw [← hmap]; simp
  have hsingle : ∀ c, calls = [c] → err = c.err := by
    intro c hc
    have hl : template.Executers.length = 1 := by rw [← hlen, hc]; rfl
    rw [herr, hc]
    simp only [hl, if_true, lastErr]
    cases c.err <;> rfl
  refine ⟨calls, rfl, hmap, rfl, ?_, ?_, ?_⟩
  · intro e
    constructor
    · intro he
      have hl : template.Executers.length = 1 := by
        by_contra hne
        rw [herr] at he
        simp [hne] at he
      obtain ⟨c, hc⟩ := List.length_eq_one.mp (hlen.trans hl)
      exact ⟨c, hc, by rw [← hsingle c hc]; exact he⟩
    · rintro ⟨c, hc, hce⟩
      rw [hsingle c hc]; exact hce
  · intro executer hex
    rw [hex] at hhead hlen
    obtain ⟨c, hc⟩ := List.length_eq_one.mp hlen
    rw [hc] at hhead
    simp only [List.head?_cons, Option.map_some', Option.some.injEq] at hhead
    rw [hsingle c hc, hhead]
  · intro h2
    rw [herr]
    have hne : ¬ template.Executers.length = 1 := by omega
    simp [hne]

/-- Witness of C4: a node whose single check fails with `timeout` returns `timeout`. -/
theorem runWorkflowStep_error_policy_witness :
    ∃ err w1, runWorkflowStep workflowWithCache leafFailing (World.start "t") = .ok (err, w1) ∧
      err = some "timeout" ∧
      ∃ calls, w1.calls = (World.start "t").calls ++ calls ∧
        calls.map Call.executer = leafFailing.Executers ∧
        w1.progress = (World.start "t").progress ++ leafFailing.Executers.map Executer.Requests ∧
        (∀ e, err = some e ↔ ∃ c, calls = [c] ∧ c.err = some e) ∧
        (∀ executer, leafFailing.Executers = [executer] →
          err = (callOf (decide (leafFailing.Matchers.length > 0 ∨
            leafFailing.Subtemplates.length > 0)) executer (World.start "t").ctx).err) ∧
        (2 ≤ leafFailing.Executers.length → err = none) :=
  ⟨_, _, rfl, rfl,
    runWorkflowStep_error_policy workflowWithCache leafFailing (World.start "t") _ _ rfl⟩

/-- C5 (the code differs here): in matcher-gated mode `runWorkflowStep` always returns, having
called every check of the node, and the failure cache holds the same marks as at entry,
whether or not a cache is present and whatever errors the checks returned. -/
theorem runWorkflowStep_matcher_mode_marks_nothing (wf : Workflow)
    (template : WorkflowTemplate) (w : World) (hm : template.Matchers ≠ []) :
    ∃ err w1 calls, runWorkflowStep wf template w = .ok (err, w1) ∧
      w1.calls = w.calls ++ calls ∧ calls.map Call.executer = template.Executers ∧
      w1.failed = w.failed := by
  have hm1 : template.Matchers.length > 0 := List.length_pos.mpr hm
  have hm0 : ¬ template.Matchers.length = 0 := by omega
  have hrun := runWorkflowStep_matcher_ok wf template w hm1
  obtain ⟨calls, args, hmap, _, _, _, _, _, hw⟩ := runWorkflowStep_spec wf template w _ _ hrun
  refine ⟨_, _, calls, hrun, ?_, hmap, ?_⟩
  · rw [hw]; rfl
  · rw [hw]; simp [World.after, hm0]

/-- Witness of C5: with a failure cache present, a matcher-gated node whose single check
fails with `timeout` returns `timeout` and marks nothing. -/
theorem runWorkflowStep_matcher_mode_marks_nothing_witness :
    workflowWithCache.HostErrorsCache = true ∧
    (∃ w1, runWorkflowStep workflowWithCache gatedFailing (World.start "t")
      = .ok (some "timeout", w1)) ∧
    ∃ err w1 calls, runWorkflowStep workflowWithCache gatedFailing (World.start "t")
        = .ok (err, w1) ∧
      w1.calls = (World.start "t").calls ++ calls ∧
      calls.map Call.executer = gatedFailing.Executers ∧
      w1.failed = (World.start "t").failed :=
  ⟨rfl, ⟨_, rfl⟩, runWorkflowStep_matcher_mode_marks_nothing workflowWithCache gatedFailing
    (World.start "t") (by simp [gatedFailing, WorkflowTemplate.Matchers])⟩

/-- C6: the compare-and-set of a publishing node leaves the flag equal to `old OR m`; so a
flag that is true stays true, a flag becomes true only when `m` is true, and after any
sequence of publishes the flag is the disjunction of its first value and the published
values. -/
theorem compareAndSwap_first_true_wins :
    (∀ old m : Bool, compareAndSwap old false m = (old || m)) ∧
    (∀ m : Bool, compareAndSwap true false m = true) ∧
    (∀ old m : Bool, compareAndSwap old false m ≠ old → old = false ∧ m = true) ∧
    (∀ (old : Bool) (ms : List Bool),
      ms.foldl (fun cur m => compareAndSwap cur false m) old = (old || ms.any id)) := by
  refine ⟨compareAndSwap_false, by decide, by decide, ?_⟩
  intro old ms
  induction ms generalizing old with
  | nil => simp
  | cons m rest ih =>
    rw [List.foldl_cons, ih, compareAndSwap_false]
    simp [Bool.or_assoc]

/-- C8: matcher gating. The goroutines that the matcher-gated callback starts for one
streamed result are exactly the subtemplates of the matchers the outcome satisfies,
concatenated in matcher order; a nil outcome starts none. For the results of one check
these sequences follow one another in the order of the results. -/
theorem matcherOnResult_schedules_satisfied (template : WorkflowTemplate)
    (event : InternalWrappedEvent) (events : List InternalWrappedEvent) (w : World) :
    (matcherOnResult template event w).pending = w.pending ++
      (match event.OperatorsResult with
        | none => []
        | some opResult =>
          (template.Matchers.filter (fun matcher => matcher.Match opResult)).flatMap
            Matcher.Subtemplates) ∧
    (streamMatcher template events w).pending
      = w.pending ++ events.flatMap (matcherChildren template) := by
  constructor
  · obtain ⟨args, h⟩ := matcherOnResult_eq template event w
    rw [h]
    rfl
  · obtain ⟨args, h⟩ := streamMatcher_eq template events w
    rw [h]
    rfl

/-- C9: plain-mode child expansion. For a node without matchers and with subtemplates,
whenever `runWorkflowStep` returns it has run every check in streaming mode and has started
every subtemplate once, in order, if some streamed result of some check had a non-nil
outcome and at least one result event, and none otherwise. The local flag is monotonic:
neither a callback invocation nor the rest of the check loop resets a flag that is set. -/
theorem runWorkflowStep_plain_expansion (wf : Workflow) (template : WorkflowTemplate)
    (w : World) (err : Option Err) (w1 : World)
    (hm : template.Matchers = []) (hs : template.Subtemplates ≠ [])
    (h : runWorkflowStep wf template w = .ok (err, w1)) :
    (∃ calls, w1.calls = w.calls ++ calls ∧
      calls.map Call.executer = template.Executers ∧
      (∀ c ∈ calls, c.isStreaming = true) ∧
      w1.pending = w.pending ++
        (if calls.any (fun c => c.events.any (fun result =>
            result.OperatorsResult.isSome && decide (result.Results.length > 0))) = true
          then template.Subtemplates else [])) ∧
    (∀ result w2 fm w3, plainOnResult result true w2 = .ok (fm, w3) → fm = true) ∧
    (∀ execs mainErr w2 fm me w3,
      plainChecks wf template execs true mainErr w2 = .ok (fm, me, w3) → fm = true) := by
  refine ⟨?_, ?_, ?_⟩
  · obtain ⟨calls, args, hmap, _, _, hstr, _, _, rfl⟩ := runWorkflowStep_spec wf template w err w1 h
    have hs1 : template.Subtemplates.length > 0 := List.length_pos.mpr hs
    have hm0 : ¬ template.Matchers.length > 0 := by simp [hm]
    have hstream : ∀ c ∈ calls, c.isStreaming = true := by
      intro c hc
      rw [hstr c hc]
      simp [hs1]
    have hany : ∀ l : List Call, (∀ c ∈ l, c.isStreaming = true) →
        l.any Call.matched = l.any (fun c => c.events.any (fun result =>
          result.OperatorsResult.isSome && decide (result.Results.length > 0))) := by
      intro l
      induction l with
      | nil => intro _; rfl
      | cons c rest ih =>
        intro hl
        simp only [List.any_cons]
        rw [ih (fun c1 hc1 => hl c1 (List.mem_cons_of_mem _ hc1))]
        have hc := hl c (List.mem_cons_self _ _)
        cases c with
        | single _ _ _ => simp [Call.isStreaming] at hc
        | streaming _ events _ => rfl
    refine ⟨calls, rfl, hmap, hstream, ?_⟩
    simp only [World.after, stepChildren, hm0, if_false, hs1, true_and, hany calls hstream]
  · intro result w2 fm w3 h2
    rw [(plainOnResult_frame _ _ _ _ _ h2).1]
    rfl
  · intro execs mainErr w2 fm me w3 h2
    obtain ⟨calls, _, _, _, _, _, _, hfm, _⟩ := plainChecks_spec _ _ _ _ _ _ _ _ _ h2
    rw [hfm]
    rfl

/-- Witness of C9: a parent whose check streams one matching result starts its subtemplate. -/
theorem runWorkflowStep_plain_expansion_witness :
    ∃ err w1, runWorkflowStep workflowWithCache parentMatching (World.start "t") = .ok (err, w1) ∧
      w1.pending = [leafMatching] ∧
      (∃ calls, w1.calls = (World.start "t").calls ++ calls ∧
        calls.map Call.executer = parentMatching.Executers ∧
        (∀ c ∈ calls, c.isStreaming = true) ∧
        w1.pending = (World.start "t").pending ++
          (if calls.any (fun c => c.events.any (fun result =>
              result.OperatorsResult.isSome && decide (result.Results.length > 0))) = true
            then parentMatching.Subtemplates else [])) :=
  ⟨_, _, rfl, rfl,
    (runWorkflowStep_plain_expansion workflowWithCache parentMatching (World.start "t") _ _
      rfl (by simp [parentMatching, WorkflowTemplate.Subtemplates]) rfl).1⟩

/-- C10: only plain leaves publish. Whenever `runWorkflowStep` returns for a node with a
non-empty `Subtemplates` or a non-empty `Matchers`, the shared flag has the value it had at
entry, whatever the checks returned. -/
theorem runWorkflowStep_flag_unchanged (wf : Workflow) (template : WorkflowTemplate)
    (w : World) (err : Option Err) (w1 : World)
    (hnode : template.Subtemplates ≠ [] ∨ template.Matchers ≠ [])
    (h : runWorkflowStep wf template w = .ok (err, w1)) :
    w1.results = w.results := by
  obtain ⟨calls, args, _, _, _, _, _, _, rfl⟩ := runWorkflowStep_spec wf template w err w1 h
  have hne : ¬ (template.Matchers.length = 0 ∧ template.Subtemplates.length = 0) := by
    rintro ⟨h1, h2⟩
    rcases hnode with hn | hn
    · exact hn (List.length_eq_zero.mp h2)
    · exact hn (List.length_eq_zero.mp h1)
  simp only [hne, if_false]

/-- Witness of C10: a parent whose check matches leaves the flag `false`. -/
theorem runWorkflowStep_flag_unchanged_witness :
    ∃ err w1, runWorkflowStep workflowWithCache parentMatching (World.start "t") = .ok (err, w1) ∧
      w1.results = (World.start "t").results :=
  ⟨_, _, rfl, runWorkflowStep_flag_unchanged workflowWithCache parentMatching (World.start "t")
    _ _ (Or.inl (by simp [parentMatching, WorkflowTemplate.Subtemplates])) rfl⟩

/-- C11: worker budget capacity. The limit that `executeWorkflow` gives to the sized wait
group is 2 when the configured thread count is 1 and the configured count otherwise; so for
a configured count of at least 1 the limit is at least 2 and not below the configured
count. -/
theorem templateThreads_capacity (wf : Workflow) :
    templateThreads wf = (if wf.TemplateThreads = 1 then 2 else wf.TemplateThreads) ∧
    (1 ≤ wf.TemplateThreads →
      2 ≤ templateThreads wf ∧ wf.TemplateThreads ≤ templateThreads wf) := by
  unfold templateThreads
  by_cases h : wf.TemplateThreads = 1
  · simp [h]
  · simp only [h, if_false, true_and]
    intro h1
    omega

/-- Witness of C11: a configured count of 1 gives the limit 2. -/
theorem templateThreads_capacity_witness :
    templateThreads workflowWithCache = 2 ∧
    (1 ≤ workflowWithCache.TemplateThreads →
      2 ≤ templateThreads workflowWithCache ∧
      workflowWithCache.TemplateThreads ≤ templateThreads workflowWithCache) :=
  ⟨rfl, (templateThreads_capacity workflowWithCache).2⟩

/-- C13 (the code differs here): `executeWorkflow` creates a new cookie jar and puts it into
`ctxArgs`, but every executed step, the top-level ones included, is entered with the cookie
jar of the incoming context; so when the incoming context does not already hold the new jar,
no step is invoked with it. -/
theorem executeWorkflow_steps_keep_incoming_jar (wf : Workflow) (sched : Nat → Nat)
    (fuel : Nat) (w w1 : World) (steps : List Step)
    (h : executeWorkflowRun wf sched fuel w = .ok (w1, steps)) :
    (executeWorkflowInit w).2.CookieJar = some w.jars ∧
    (∀ s ∈ steps, s.entry.ctx.Input.CookieJar = w.ctx.Input.CookieJar) ∧
    (w.ctx.Input.CookieJar ≠ some w.jars →
      ∀ s ∈ steps, s.entry.ctx.Input.CookieJar ≠ (executeWorkflowInit w).2.CookieJar) := by
  obtain ⟨new, hsteps, hall⟩ := runTasks_cookieJar wf sched fuel 0 wf.Workflows
    (executeWorkflowInit w).1 [] w1 steps h
  simp only [List.nil_append] at hsteps
  subst hsteps
  have hall1 : ∀ s ∈ steps, s.entry.ctx.Input.CookieJar = w.ctx.Input.CookieJar := hall
  refine ⟨rfl, hall1, ?_⟩
  intro hne s hs
  rw [hall1 s hs]
  exact hne

/-- Witness of C13: a run with an incoming context without cookie jar executes its three
steps without cookie jar, while the jar created for the run is jar 0. -/
theorem executeWorkflow_steps_keep_incoming_jar_witness :
    ∃ w1 steps, executeWorkflowRun workflowTwoNodes (fun _ => 0) 3 (World.start "t")
        = .ok (w1, steps) ∧
      steps.map (fun s => s.entry.ctx.Input.CookieJar) = [none, none, none] ∧
      (executeWorkflowInit (World.start "t")).2.CookieJar = some 0 ∧
      (∀ s ∈ steps, s.entry.ctx.Input.CookieJar = (World.start "t").ctx.Input.CookieJar) ∧
      ((World.start "t").ctx.Input.CookieJar ≠ some (World.start "t").jars →
        ∀ s ∈ steps,
          s.entry.ctx.Input.CookieJar ≠ (executeWorkflowInit (World.start "t")).2.CookieJar) :=
  ⟨_, _, rfl, rfl,
    executeWorkflow_steps_keep_incoming_jar workflowTwoNodes (fun _ => 0) 3 (World.start "t")
      _ _ rfl⟩

/-- C16: order-independence of the extraction normaliser. For an extraction map with
distinct keys and non-empty value sequences in which no key equals another key followed by
the decimal rendering of an index below the length (at least 2) of that other key's
sequence, the plain callback handles the entries in any two orders with the same resulting
world, hence the same variable store. Without the proviso the order matters: the map
`{"a": ["x","y"], "a0": ["z"]}` leaves `a0 -> "z"` in one order and `a0 -> "x"` in the
other. -/
theorem normalizeExtracts_order_independent (l l1 : StringSliceMap) (w : World)
    (hperm : l.Perm l1) (hkeys : (l.map Prod.fst).Nodup) (hne : ∀ kv ∈ l, kv.2 ≠ [])
    (hprov : ∀ a ∈ l, ∀ b ∈ l, a.1 ≠ b.1 → 2 ≤ b.2.length →
      ∀ i, i < b.2.length → a.1 ≠ b.1 ++ toString i) :
    (∃ w1, normalizeExtracts l w = .ok w1 ∧ normalizeExtracts l1 w = .ok w1) ∧
    (∀ (found : StringSliceMap) (results : List String) (firstMatched : Bool),
      plainOnResult ⟨some ⟨found, some l⟩, results⟩ firstMatched w
        = plainOnResult ⟨some ⟨found, some l1⟩, results⟩ firstMatched w) ∧
    (∃ w2 w3,
      normalizeExtracts [("a", ["x", "y"]), ("a0", ["z"])] w = .ok w2 ∧
      normalizeExtracts [("a0", ["z"]), ("a", ["x", "y"])] w = .ok w3 ∧
      w2.ctx.Input.args "a0" = some (.str "z") ∧
      w3.ctx.Input.args "a0" = some (.str "x")) := by
  have hne1 : ∀ kv ∈ l1, kv.2 ≠ [] := fun kv hkv => hne kv (hperm.symm.subset hkv)
  have hsame : writeEntries l w = writeEntries l1 w :=
    writeEntries_perm hperm hkeys hne
      (fun a ha b hb hab key => touches_disjoint a b hab
        (fun h2 i hi => hprov a ha b hb hab h2 i hi)
        (fun h2 i hi => hprov b hb a ha (Ne.symm hab) h2 i hi) key) w
  have e1 := normalizeExtracts_eq_writeEntries l w hne
  have e2 := normalizeExtracts_eq_writeEntries l1 w hne1
  refine ⟨⟨writeEntries l w, e1, by rw [e2, hsame]⟩, ?_, ?_⟩
  · intro found results firstMatched
    simp only [plainOnResult, e1, e2, hsame]
  · exact ⟨_, _, rfl, rfl, rfl, rfl⟩

/-- Witness of C16: the map `{"ip": ["10.0.0.1","10.0.0.2"], "host": ["h"]}` gives the same
world in both orders. -/
theorem normalizeExtracts_order_independent_witness :
    ∃ w1,
      normalizeExtracts [("ip", ["10.0.0.1", "10.0.0.2"]), ("host", ["h"])] (World.start "t")
        = .ok w1 ∧
      normalizeExtracts [("host", ["h"]), ("ip", ["10.0.0.1", "10.0.0.2"])] (World.start "t")
        = .ok w1 :=
  (normalizeExtracts_order_independent
    [("ip", ["10.0.0.1", "10.0.0.2"]), ("host", ["h"])]
    [("host", ["h"]), ("ip", ["10.0.0.1", "10.0.0.2"])] (World.start "t")
    (List.Perm.swap _ _ _) (by decide) (by decide) (by decide)).1

/-- C15: matchers take precedence over subtemplates. For a node on which both `Matchers`
and `Subtemplates` are non-empty, a call of `runWorkflowStep` that returns has run the
matcher-gated check loop and nothing after it: what it returns is the error accumulated by
that loop; every check has been called once, in order, in streaming mode; the goroutines
started are, result by result, the subtemplates of the matchers that the result satisfies,
and nothing else (the node's own `Subtemplates` are not expanded); the shared flag is left
as it was. The call need not return: the `swg.Add()` of a subtemplate can block. -/
theorem runWorkflowStep_matchers_take_precedence (wf : Workflow) (template : WorkflowTemplate)
    (w w1 : World) (err : Option Err) (hm : template.Matchers ≠ [])
    (_hs : template.Subtemplates ≠ [])
    (h : runWorkflowStep wf template w = .ok (err, w1)) :
    (err, w1) = matcherChecks template template.Executers none w ∧
    ∃ calls, w1.calls = w.calls ++ calls ∧
      calls.map Call.executer = template.Executers ∧
      (∀ c ∈ calls, c.isStreaming = true) ∧
      err = (if template.Executers.length = 1 then lastErr calls none else none) ∧
      w1.pending = w.pending ++
        calls.flatMap (fun c => c.events.flatMap (matcherChildren template)) ∧
      (∀ child ∈ calls.flatMap (fun c => c.events.flatMap (matcherChildren template)),
        ∃ m ∈ template.Matchers, ∃ c ∈ calls, ∃ event ∈ c.events, ∃ opResult,
          event.OperatorsResult = some opResult ∧ m.Match opResult = true ∧
          child ∈ m.Subtemplates) ∧
      w1.results = w.results := by
  have hm1 : template.Matchers.length > 0 := List.length_pos.mpr hm
  have hok := runWorkflowStep_matcher_ok wf template w hm1
  rw [h] at hok
  have heq : (err, w1) = matcherChecks template template.Executers none w := Except.ok.inj hok
  refine ⟨heq, ?_⟩
  obtain ⟨calls, args, hmap, _, _, hstr, herr, hw⟩ :=
    matcherChecks_spec template template.Executers none w
  rw [← heq] at hw herr
  have hw1 : w1 = _ := hw
  have herr1 : err = _ := herr
  refine ⟨calls, by rw [hw1]; rfl, hmap, hstr, herr1, by rw [hw1]; rfl, ?_, by rw [hw1]; rfl⟩
  intro child hchild
  simp only [List.mem_flatMap] at hchild
  obtain ⟨c, hc, event, hev, hmem⟩ := hchild
  obtain ⟨m, hmm, opResult, hres, hsat, hsub⟩ := matcherChildren_satisfied template child event hmem
  exact ⟨m, hmm, c, hc, event, hev, opResult, hres, hsat, hsub⟩

/-- Witness of C15: a node with a satisfied matcher (subtemplate `leaf`), an unsatisfied
matcher and the subtemplate `failing` of its own starts `leaf` only, although its check
reports a match. -/
theorem runWorkflowStep_matchers_take_precedence_witness :
    ∃ w1, runWorkflowStep workflowWithCache gatedWithSubtemplate (World.start "t")
        = .ok (none, w1) ∧ w1.pending = [leafMatching] ∧
      gatedWithSubtemplate.Subtemplates = [leafFailing] ∧
      (none, w1) = matcherChecks gatedWithSubtemplate gatedWithSubtemplate.Executers none
          (World.start "t") :=
  ⟨_, rfl, rfl, rfl,
    (runWorkflowStep_matchers_take_precedence workflowWithCache gatedWithSubtemplate
      (World.start "t") _ none (by simp [gatedWithSubtemplate, WorkflowTemplate.Matchers])
      (by simp [gatedWithSubtemplate, WorkflowTemplate.Subtemplates]) rfl).1⟩

/-- C7: the verdict of `executeWorkflow`, in the run at the grain of the operations of its
threads, with the limit of the wait group, under an arbitrary schedule. (1) Every run ends,
with one of three outcomes that more fuel does not change: a verdict, a panic with an index
out of range (the callback of the plain mode on an empty extraction), or no return at all
because every thread is blocked in `swg.Add()` or `swg.Wait()`. (2) Whenever the call
returns, its verdict is the value of the shared flag; every call of `runWorkflowStep` entered
during the run has completed; every completed call is on a node of the workflow and has
called the checks of its node, each once and in order, every recorded call being what the
executer returned; and the verdict is `true` exactly if one of these calls is on a node
without `Matchers` and without `Subtemplates` and one of its checks returned
`matched = true`. All other nodes, and nodes never reached, contribute nothing. (3) The call
does return, under every schedule, when no check in plain mode with subtemplates streams an
extraction with an empty sequence and no node started for a top-level node starts a node
itself. (4) These conditions cannot be dropped: on the workflow `workflowNested`, whose wait
group has size two, every run blocks. -/
theorem executeWorkflow_verdict (wf : Workflow) (sched : Nat → Nat) (w : World) :
    (∃ fuel, (∀ k, executeWorkflow wf sched (fuel + k) w = .error .indexOutOfRange) ∨
      (∀ k, executeWorkflow wf sched (fuel + k) w = .ok none) ∨
      ∃ verdict, ∀ k, executeWorkflow wf sched (fuel + k) w = .ok (some verdict)) ∧
    (∀ fuel verdict, executeWorkflow wf sched fuel w = .ok (some verdict) →
      ∃ s, executeWorkflowOps wf sched fuel w = .ok s ∧ s.returned = true ∧
        verdict = s.world.results ∧
        (s.steps.map Step.template).Perm (s.finished.map Frame.template) ∧
        (∀ f ∈ s.finished, wf.HasNode f.template ∧
          f.calls.map Call.executer = f.template.Executers ∧
          ∀ c ∈ f.calls, ∃ ctx, c = callOf
            (decide (f.template.Matchers.length > 0 ∨ f.template.Subtemplates.length > 0))
            c.executer ctx) ∧
        (verdict = true ↔ ∃ f ∈ s.finished, f.template.Matchers = [] ∧
          f.template.Subtemplates = [] ∧ ∃ c ∈ f.calls, c.matched = true)) ∧
    (wf.NonEmptyExtracts → wf.Shallow →
      ∃ fuel verdict, ∀ k, executeWorkflow wf sched (fuel + k) w = .ok (some verdict)) ∧
    (∀ k, executeWorkflow workflowNested sched (6 + k) (World.start "host") = .ok none) := by
  refine ⟨executeWorkflow_ends wf sched w, ?_, executeWorkflow_returns wf sched w,
    fun k => (executeWorkflow_nested_blocked sched k).1⟩
  intro fuel verdict h
  obtain ⟨s, hs, hr, hv⟩ := executeWorkflow_some wf sched fuel w verdict h
  obtain ⟨hinv, _, hsteps, _⟩ := executeWorkflowOps_sound wf sched fuel w s hs
  obtain ⟨_, hlive⟩ := hinv.returned hr
  have hent := hinv.entered
  rw [hlive] at hent
  simp only [List.flatMap_nil, List.append_nil] at hent
  refine ⟨s, hs, hr, hv, hent, ?_, ?_⟩
  · intro f hf
    obtain ⟨hsound, _, hexec⟩ := hinv.done f hf
    refine ⟨?_, ?_, hsound.results⟩
    · have hmem : f.template ∈ s.steps.map Step.template :=
        hent.mem_iff.mpr (List.mem_map_of_mem _ hf)
      rw [List.mem_map] at hmem
      obtain ⟨step, hstep, heq⟩ := hmem
      rw [← heq]
      exact hsteps step hstep
    · have := hsound.executers
      rw [hexec] at this
      simpa using this
  · have hpub := hinv.published
    rw [hlive] at hpub
    rw [hv, hinv.verdict, hpub]
    simp only [List.any_nil, Bool.or_false, List.any_eq_true, Frame.published,
      Bool.and_eq_true, decide_eq_true_eq, List.length_eq_zero, and_assoc]

/-- Witness of C7: the workflow with the top-level nodes `failing` and `parent` (whose
subtemplate `leaf` matches) satisfies the conditions of (3), and its run under the schedule
that takes the threads in turn returns `true`: the completed calls are on `failing`,
`parent` and `leaf`. -/
theorem executeWorkflow_verdict_witness :
    workflowTwoNodes.NonEmptyExtracts ∧ workflowTwoNodes.Shallow ∧
    (∃ fuel verdict, ∀ k,
      executeWorkflow workflowTwoNodes (fun n => n) (fuel + k) (World.start "host")
        = .ok (some verdict)) ∧
    executeWorkflow workflowTwoNodes (fun n => n) 20 (World.start "host") = .ok (some true) ∧
    (∃ s, executeWorkflowOps workflowTwoNodes (fun n => n) 20 (World.start "host") = .ok s ∧
      s.finished.map Frame.template = [leafFailing, parentMatching, leafMatching]) ∧
    ∃ s, executeWorkflowOps workflowTwoNodes (fun n => n) 20 (World.start "host") = .ok s ∧
      s.returned = true ∧ true = s.world.results ∧
      (s.steps.map Step.template).Perm (s.finished.map Frame.template) ∧
      (∀ f ∈ s.finished, workflowTwoNodes.HasNode f.template ∧
        f.calls.map Call.executer = f.template.Executers ∧
        ∀ c ∈ f.calls, ∃ ctx, c = callOf
          (decide (f.template.Matchers.length > 0 ∨ f.template.Subtemplates.length > 0))
          c.executer ctx) ∧
      (true = true ↔ ∃ f ∈ s.finished, f.template.Matchers = [] ∧
        f.template.Subtemplates = [] ∧ ∃ c ∈ f.calls, c.matched = true) :=
  ⟨workflowTwoNodes_nonEmptyExtracts, workflowTwoNodes_shallow,
    (executeWorkflow_verdict workflowTwoNodes (fun n => n) (World.start "host")).2.2.1
      workflowTwoNodes_nonEmptyExtracts workflowTwoNodes_shallow,
    rfl, ⟨_, rfl, rfl⟩,
    (executeWorkflow_verdict workflowTwoNodes (fun n => n) (World.start "host")).2.1 20 true rfl⟩

/-- C12: isolation of the top-level siblings, in the run at the grain of the operations of
its threads under an arbitrary schedule. (1) In every state of a run the main thread has
entered `runWorkflowStep` on the top-level nodes before the one it is at, in their order,
whatever these calls returned: an error of a top-level node is logged and the loop goes on;
`executeWorkflow` itself returns a boolean only. (2) Whenever the call returns, every
top-level node has been entered, in order, and a top-level node without `Matchers` and
`Subtemplates` one of whose checks matches in every context makes the verdict `true`,
whatever its siblings did and wherever it stands. (3) The call does return when no check in
plain mode with subtemplates streams an empty extraction and no node started for a top-level
node starts a node itself. (4) In particular, for two top-level nodes without `Matchers` and
`Subtemplates`, of which `b` has a check that matches, the call returns `true`, in either
order, whatever the checks of `a` return (errors included). The call need not return in
general: a panic ends it, and a thread blocked in `swg.Add()` for ever keeps the main thread
from reaching the next top-level node. -/
theorem executeWorkflow_sibling_isolation (wf : Workflow) (sched : Nat → Nat) (w : World) :
    (∀ fuel s, executeWorkflowOps wf sched fuel w = .ok s →
      ∃ reached, wf.Workflows = reached ++ s.waiting ++ s.main ∧
        reached.Sublist (s.steps.map Step.template)) ∧
    (∀ fuel verdict, executeWorkflow wf sched fuel w = .ok (some verdict) →
      ∃ s, executeWorkflowOps wf sched fuel w = .ok s ∧
        wf.Workflows.Sublist (s.steps.map Step.template) ∧
        (∀ t ∈ wf.Workflows, t.Matchers = [] → t.Subtemplates = [] →
          (∀ ctx, ∃ e ∈ t.Executers, (e.Execute ctx).1 = true) → verdict = true)) ∧
    (wf.NonEmptyExtracts → wf.Shallow →
      ∃ fuel verdict, ∀ k, executeWorkflow wf sched (fuel + k) w = .ok (some verdict)) ∧
    (∀ a b : WorkflowTemplate, a.Matchers = [] → a.Subtemplates = [] → b.Matchers = [] →
      b.Subtemplates = [] → (∀ ctx, ∃ e ∈ b.Executers, (e.Execute ctx).1 = true) →
      (wf.Workflows = [a, b] ∨ wf.Workflows = [b, a]) →
      ∃ fuel, ∀ k, executeWorkflow wf sched (fuel + k) w = .ok (some true)) := by
  have hreturned : ∀ fuel verdict, executeWorkflow wf sched fuel w = .ok (some verdict) →
      ∃ s, executeWorkflowOps wf sched fuel w = .ok s ∧
        wf.Workflows.Sublist (s.steps.map Step.template) ∧
        (∀ t ∈ wf.Workflows, t.Matchers = [] → t.Subtemplates = [] →
          (∀ ctx, ∃ e ∈ t.Executers, (e.Execute ctx).1 = true) → verdict = true) := by
    intro fuel verdict h
    obtain ⟨s, hs, hr, hv⟩ := executeWorkflow_some wf sched fuel w verdict h
    obtain ⟨hinv, _, _, _⟩ := executeWorkflowOps_sound wf sched fuel w s hs
    obtain ⟨reached, hw, hsub⟩ := hinv.order
    obtain ⟨hmain, hlive⟩ := hinv.returned hr
    have hwaiting : s.waiting = [] := by
      have hin : s.inline = none := by
        cases hin : s.inline with
        | none => rfl
        | some th => simp [Run.live, hin] at hlive
      simp [Run.waiting, hin]
    rw [hmain, hwaiting, List.append_nil, List.append_nil] at hw
    rw [← hw] at hsub
    refine ⟨s, hs, hsub, ?_⟩
    intro t ht hm hsubt hmatch
    have hmem : t ∈ s.steps.map Step.template := hsub.subset ht
    rw [List.mem_map] at hmem
    obtain ⟨step, hstep, rfl⟩ := hmem
    rw [hv, hinv.verdict, any_published_iff]
    exact ⟨step, hstep, hm, hsubt, hmatch step.entry.ctx⟩
  refine ⟨?_, hreturned, executeWorkflow_returns wf sched w, ?_⟩
  · intro fuel s hs
    exact (executeWorkflowOps_sound wf sched fuel w s hs).1.order
  · intro a b ham has hbm hbs hmatch hwf
    have hleaves : ∀ t ∈ wf.Workflows, t.Matchers = [] ∧ t.Subtemplates = [] := by
      intro t ht
      rcases hwf with hwf | hwf <;> rw [hwf] at ht <;>
        simp only [List.mem_cons, List.mem_singleton, List.not_mem_nil, or_false] at ht <;>
        rcases ht with rfl | rfl
      · exact ⟨ham, has⟩
      · exact ⟨hbm, hbs⟩
      · exact ⟨hbm, hbs⟩
      · exact ⟨ham, has⟩
    obtain ⟨hne, hsh⟩ := leaves_returns wf hleaves
    obtain ⟨fuel, verdict, hf⟩ := executeWorkflow_returns wf sched w hne hsh
    obtain ⟨_, _, _, htrue⟩ := hreturned _ verdict (hf 0)
    have hb : b ∈ wf.Workflows := by
      rcases hwf with hwf | hwf <;> rw [hwf] <;> simp
    have hv : verdict = true := htrue b hb hbm hbs hmatch
    subst hv
    exact ⟨fuel, hf⟩

/-- Witness of C12: with the top-level nodes `failing` (whose single check returns the error
`timeout`) and `leaf` (whose check matches), the call returns `true`, in either order. -/
theorem executeWorkflow_sibling_isolation_witness :
    (leafFailing.Executers.map (fun e => (e.Execute (World.start "host").ctx).2))
      = [some "timeout"] ∧
    executeWorkflow workflowFailingFirst (fun n => n) 10 (World.start "host")
      = .ok (some true) ∧
    executeWorkflow workflowFailingLast (fun n => n) 10 (World.start "host")
      = .ok (some true) ∧
    (∃ fuel, ∀ k, executeWorkflow workflowFailingFirst (fun n => n) (fuel + k)
      (World.start "host") = .ok (some true)) ∧
    (∃ fuel, ∀ k, executeWorkflow workflowFailingLast (fun n => n) (fuel + k)
      (World.start "host") = .ok (some true)) :=
  ⟨rfl, rfl, rfl,
    (executeWorkflow_sibling_isolation workflowFailingFirst (fun n => n)
      (World.start "host")).2.2.2 leafFailing leafMatching rfl rfl rfl rfl
      (fun _ => ⟨_, List.mem_singleton.mpr rfl, rfl⟩) (Or.inl rfl),
    (executeWorkflow_sibling_isolation workflowFailingLast (fun n => n)
      (World.start "host")).2.2.2 leafFailing leafMatching rfl rfl rfl rfl
      (fun _ => ⟨_, List.mem_singleton.mpr rfl, rfl⟩) (Or.inr rfl)⟩

/-- C14: completeness of the drain, in the run at the grain of the operations of its threads
under an arbitrary schedule; `s` is any state that the run reaches. (1) The counter of the
wait group is the number of threads that have taken `swg.Add()` and not yet `swg.Done()`.
(2) A call of `runWorkflowStep` whose thread has taken `swg.Done()` has nothing left to do:
it has called every check of its node, and the nodes it has registered with `swg.Add()` and
started are all the nodes that a step with its executer calls starts; they are the
goroutines that `runWorkflowStep` starts whenever it makes these executer calls. (3) The
top-level nodes together with the nodes registered by any call, completed or in progress, are
the nodes of the completed calls, of the threads that hold a slot, and the top-level nodes
not yet reached: no registered node is lost. (4) So the counter is zero only when every node
registered so far belongs to a completed call. (5) When `swg.Wait()` has returned, the
counter is zero, no top-level node is left, no thread is left, every top-level node and every
node registered anywhere belongs to a completed call, and every call entered has completed.
(6) The operations of a thread are those of `runWorkflowStep`: taken alone, they end in the
world that the call returns, and the nodes they register and start are, in order, the
goroutines of that call. -/
theorem executeWorkflow_drain_complete (wf : Workflow) (sched : Nat → Nat) (fuel : Nat)
    (w : World) (s : Run) (h : executeWorkflowOps wf sched fuel w = .ok s) :
    s.current = s.live.length ∧
    (∀ f ∈ s.finished, f.todo = [] ∧ f.executers = [] ∧
      f.calls.map Call.executer = f.template.Executers ∧
      f.spawned = stepChildren f.template f.calls ∧
      ∀ w0 err w1, runWorkflowStep wf f.template w0 = .ok (err, w1) →
        w1.calls = w0.calls ++ f.calls → w1.pending = w0.pending ++ f.spawned) ∧
    (wf.Workflows ++ (s.finished.flatMap Frame.spawned ++ s.live.flatMap Thread.spawned)).Perm
      (s.finished.map Frame.template ++ s.live.map Thread.template ++ s.main) ∧
    (s.current = 0 → s.live = [] ∧
      (wf.Workflows ++ s.finished.flatMap Frame.spawned).Perm
        (s.finished.map Frame.template ++ s.main)) ∧
    (s.returned = true → s.current = 0 ∧ s.main = [] ∧ s.live = [] ∧
      (wf.Workflows ++ s.finished.flatMap Frame.spawned).Perm (s.finished.map Frame.template) ∧
      (s.steps.map Step.template).Perm (s.finished.map Frame.template)) ∧
    (∀ t w0 w1, runTask wf t w0 = .ok w1 → ∃ ops w2 started,
      (∀ k, runThread wf (ops + k) (.created t) w0 [] = .ok (some (w2, started))) ∧
      w1 = w2.withStarted started) := by
  obtain ⟨hinv, _, _, _⟩ := executeWorkflowOps_sound wf sched fuel w s h
  have hzero : s.current = 0 → s.live = [] ∧
      (wf.Workflows ++ s.finished.flatMap Frame.spawned).Perm
        (s.finished.map Frame.template ++ s.main) := by
    intro hc
    have hlive : s.live = [] := by
      have := hinv.counter
      rw [hc] at this
      exact List.eq_nil_of_length_eq_zero this.symm
    have hacc := hinv.accounted
    rw [hlive] at hacc
    exact ⟨hlive, by simpa using hacc⟩
  refine ⟨hinv.counter, ?_, hinv.accounted, hzero, ?_,
    fun t w0 w1 h1 => (runThread_eq_runTask wf t w0).2 w1 h1⟩
  · intro f hf
    obtain ⟨hsound, htodo, hexec⟩ := hinv.done f hf
    have hchildren : f.spawned = stepChildren f.template f.calls := by
      have := hsound.children
      rw [htodo] at this
      simpa [opsChildren] using this
    refine ⟨htodo, hexec, ?_, hchildren, ?_⟩
    · have := hsound.executers
      rw [hexec] at this
      simpa using this
    · intro w0 err w1 hstep hcalls
      obtain ⟨calls, args, _, _, _, _, _, _, hw1⟩ := runWorkflowStep_spec wf f.template w0 err w1 hstep
      have hc : w1.calls = w0.calls ++ calls := by rw [hw1]; rfl
      rw [hcalls] at hc
      have hc2 : f.calls = calls := List.append_cancel_left hc
      rw [hw1, hchildren, hc2]
      rfl
  · intro hr
    obtain ⟨hmain, hlive⟩ := hinv.returned hr
    have hc : s.current = 0 := by rw [hinv.counter, hlive]; rfl
    have hacc := (hzero hc).2
    rw [hmain, List.append_nil] at hacc
    have hent := hinv.entered
    rw [hlive] at hent
    exact ⟨hc, hmain, hlive, hacc, by simpa using hent⟩

/-- Witness of C14: the run of the workflow with the top-level nodes `failing` and `parent`
under the schedule that takes the threads in turn. After seven operations the call on
`parent` has completed, having registered its subtemplate `leaf`, whose goroutine still
holds a slot: the counter is one and `swg.Wait()` has not returned. After ten operations
`swg.Wait()` has returned, and the completed calls are those on `failing`, `parent` and
`leaf`. -/
theorem executeWorkflow_drain_complete_witness :
    (∃ s, executeWorkflowOps workflowTwoNodes (fun n => n) 7 (World.start "host") = .ok s ∧
      s.returned = false ∧ s.current = 1 ∧
      s.finished.map Frame.template = [leafFailing, parentMatching] ∧
      s.finished.map Frame.spawned = [[], [leafMatching]] ∧
      s.live.map Thread.template = [leafMatching] ∧
      s.current = s.live.length) ∧
    ∃ s, executeWorkflowOps workflowTwoNodes (fun n => n) 10 (World.start "host") = .ok s ∧
      s.returned = true ∧
      s.finished.map Frame.template = [leafFailing, parentMatching, leafMatching] ∧
      s.finished.map Frame.spawned = [[], [leafMatching], []] ∧
      (s.returned = true → s.current = 0 ∧ s.main = [] ∧ s.live = [] ∧
        (workflowTwoNodes.Workflows ++ s.finished.flatMap Frame.spawned).Perm
          (s.finished.map Frame.template) ∧
        (s.steps.map Step.template).Perm (s.finished.map Frame.template)) :=
  ⟨⟨_, rfl, rfl, rfl, rfl, rfl, rfl,
    (executeWorkflow_drain_complete workflowTwoNodes (fun n => n) 7 (World.start "host") _
      rfl).1⟩,
    _, rfl, rfl, rfl, rfl,
    (executeWorkflow_drain_complete workflowTwoNodes (fun n => n) 10 (World.start "host") _
      rfl).2.2.2.2.1⟩

end Nuclei
